import Mathlib

/-!
# Verification of `src/dereferencer.ts` (deno-openapi-dereferencer)

A shallow embedding of the four public operations of `src/dereferencer.ts`
(`dereferenceApi`, `flattenAllOf`, `selectFirstOfOneOf`, `selectFirstOfAnyOf`)
and the private helper `resolveRef`, together with theorems settling the
spec's claims about them.

Modelling conventions:
* JavaScript values flowing through the program are modelled by the type `J`
  (null, undefined, booleans, numbers, strings, arrays, objects).  JSON
  numbers are modelled by `Int`; none of the verified properties depends on
  fractional values.  Objects are ordered association lists; parsed JSON
  never has duplicate keys, which is captured by the well-formedness
  predicate `wfJ` where a proof needs it.
* JavaScript truthiness, `typeof x === "object"`, property reads
  (including string/array `length` and index access), strict-mode
  assignment, and object-spread semantics are modelled by `truthy`,
  `isObjLike`, `getProp`, `setProp` and `spreadFields`.
* `for (const key in o)` enumeration is modelled by `keysOf`, including the
  JavaScript rule that integer-like keys enumerate first in ascending order.
* The functions are `async` in the source but contain no real suspension
  point; they are modelled as ordinary functions.
* `resolveRef(obj, api)` mutates `api` in place when the resolved target
  contains nested references; mutation is modelled by threading the current
  value of `api` through every call (`RRes` carries the result value and the
  updated `api`).  Thrown `Error`s are modelled by `RRes.thrown msg`;
  `RRes.out` means the fuel bound was reached (the source recurses
  unboundedly, e.g. on reference cycles).
* The JSONPath sub-language the library is exercised with (`"$"`,
  `"$.components.responses"`, ...) is modelled by plain segment lists:
  `[]` is `"$"`, `["components", "responses"]` is `$.components.responses`.
  In `jsonpath-plus`, the `callback` option is a per-result visitor whose
  return value is not written back into the document, so the second
  `JSONPath` invocation in `dereferenceApi` does not itself replace
  anything; the output document changes only through the in-place mutation
  performed by `processSchema` on the matched node.
-/

namespace Deref

/-- JavaScript/JSON value as manipulated by `dereferencer.ts`. -/
inductive J where
  | null
  | undef
  | bool (b : Bool)
  | num (n : Int)
  | str (s : String)
  | arr (elems : List J)
  | obj (fields : List (String × J))
deriving Repr

/-- JavaScript truthiness: `null`, `undefined`, `false`, `0`, `""` are falsy;
every object and array (even `[]` and `{}`) is truthy. -/
def truthy : J → Bool
  | .null => false
  | .undef => false
  | .bool b => b
  | .num n => n != 0
  | .str s => s != ""
  | .arr _ => true
  | .obj _ => true

/-- `typeof x === "object" && x !== null`: arrays and plain objects. -/
def isObjLike : J → Bool
  | .arr _ => true
  | .obj _ => true
  | _ => false

/-- The character of a decimal digit. -/
def digitChar (d : Nat) : Char :=
  if d = 0 then '0' else if d = 1 then '1' else if d = 2 then '2'
  else if d = 3 then '3' else if d = 4 then '4' else if d = 5 then '5'
  else if d = 6 then '6' else if d = 7 then '7' else if d = 8 then '8'
  else if d = 9 then '9' else '*'

/-- The digit of a decimal character. -/
def decDigit (c : Char) : Option Nat :=
  if c = '0' then some 0 else if c = '1' then some 1 else if c = '2' then some 2
  else if c = '3' then some 3 else if c = '4' then some 4 else if c = '5' then some 5
  else if c = '6' then some 6 else if c = '7' then some 7 else if c = '8' then some 8
  else if c = '9' then some 9 else none

/-- Little-endian decimal digit characters of `n` (`[]` for `0`); the
first argument is fuel (any bound `≥ n` is enough). -/
def encIdxAux : Nat → Nat → List Char
  | 0, _ => []
  | fuel + 1, n => if n = 0 then [] else digitChar (n % 10) :: encIdxAux fuel (n / 10)

/-- The canonical decimal string of a natural number: JavaScript's array
index / integer-like property key. -/
def encIdx (n : Nat) : String :=
  if n = 0 then "0" else String.mk (encIdxAux n n).reverse

/-- Left-to-right decimal accumulator. -/
def decAux : List Char → Nat → Option Nat
  | [], acc => some acc
  | c :: cs, acc =>
      match decDigit c with
      | some d => decAux cs (acc * 10 + d)
      | none => none

/-- Parse a canonical decimal string (no sign, no leading zero except
`"0"` itself): the JavaScript test of whether a property key is an array
index. -/
def decIdx (s : String) : Option Nat :=
  match s.data with
  | [] => none
  | c :: cs =>
      if c = '0' then (if cs = [] then some 0 else none)
      else decAux (c :: cs) 0

/-- Is `s` the canonical decimal representation of a natural number?
JavaScript treats such property keys as integer-like (array indices). -/
def isCanonIdx (s : String) : Bool :=
  (decIdx s).isSome

/-- First binding of key `k` in an association list. -/
def lookupField : List (String × J) → String → Option J
  | [], _ => none
  | (k1, v) :: t, k => if k1 = k then some v else lookupField t k

/-- Property read `x[k]`, for non-null non-undefined `x`.
Strings and arrays expose `length` and index access; any other miss yields
`undefined`.  (The source only reads properties of values it has checked to
be truthy or object-like, so the `null`/`undef` rows are never reached.) -/
def getProp : J → String → J
  | .obj fields, k => (lookupField fields k).getD .undef
  | .arr es, k =>
      if k = "length" then .num es.length
      else match decIdx k with
        | some n => if n < es.length then es.getD n .undef else .undef
        | none => .undef
  | .str s, k =>
      if k = "length" then .num s.length
      else match decIdx k with
        | some n =>
            if n < s.data.length then .str (String.mk [s.data.getD n ' '])
            else .undef
        | none => .undef
  | _, _ => (.undef)

/-- Replace the value of the first binding of `k`, keeping its position;
append if absent (JavaScript property assignment / object-literal update). -/
def upsertField : List (String × J) → String → J → List (String × J)
  | [], k, v => [(k, v)]
  | (k1, v1) :: t, k, v =>
      if k1 = k then (k1, v) :: t else (k1, v1) :: upsertField t k v

/-- Set element `n` of a list, when in range. -/
def setElem : List J → Nat → J → List J
  | [], _, _ => []
  | _ :: t, 0, v => v :: t
  | h :: t, n + 1, v => h :: setElem t n v

/-- Property assignment `x[k] = v` on objects and arrays (the source only
assigns to keys obtained from `for ... in`, hence existing ones). -/
def setProp : J → String → J → J
  | .obj fields, k, v => .obj (upsertField fields k v)
  | .arr es, k, v =>
      (match decIdx k with
        | some n => if n < es.length then .arr (setElem es n v) else .arr es
        | none => .arr es)
  | x, _, _ => x

/-- Insert a numeric key into a list sorted by numeric value (ascending). -/
def insertIdxKey (s : String) : List String → List String
  | [] => [s]
  | h :: t =>
      if ((decIdx s).getD 0) ≤ ((decIdx h).getD 0) then s :: h :: t
      else h :: insertIdxKey s t

/-- Sort integer-like keys ascending (insertion sort). -/
def sortIdxKeys : List String → List String
  | [] => []
  | h :: t => insertIdxKey h (sortIdxKeys t)

/-- `for (const key in x)` enumeration order: for arrays the indices in
order; for objects the integer-like keys ascending, then the remaining keys
in insertion order.  Primitives (and `null`/`undefined`) enumerate nothing
except strings, whose index keys the source never reaches a `for ... in`
with (its loops are guarded by `typeof x === "object"`), apart from the
composition helpers where the string case is modelled explicitly. -/
def keysOf : J → List String
  | .arr es => (List.range es.length).map encIdx
  | .obj fields =>
      sortIdxKeys ((fields.map Prod.fst).filter isCanonIdx)
        ++ (fields.map Prod.fst).filter (fun k => !isCanonIdx k)
  | _ => []

/-- Own enumerable fields contributed by object spread `{...x}`: an object's
bindings, an array's or string's indexed elements, nothing for primitives. -/
def spreadFields : J → List (String × J)
  | .obj fields => fields
  | .arr es => es.enum.map fun p => (encIdx p.1, p.2)
  | .str s => s.data.enum.map fun p => (encIdx p.1, J.str (String.mk [p.2]))
  | _ => []

/-- Fold a field list into an accumulator with JavaScript assignment
semantics (later bindings overwrite earlier ones in place). -/
def upsertAll (acc : List (String × J)) : List (String × J) → List (String × J)
  | [] => acc
  | (k, v) :: t => upsertAll (upsertField acc k v) t

/-- Remove every binding of key `k` (JavaScript `delete o[k]`; the objects
it is applied to have unique keys). -/
def removeField (fields : List (String × J)) (k : String) : List (String × J) :=
  fields.filter (fun f => f.1 ≠ k)

mutual
/-- Node count of a value; used as a fuel bound. -/
def szJ : J → Nat
  | .arr es => 1 + szList es
  | .obj fields => 1 + szFields fields
  | _ => 1

def szList : List J → Nat
  | [] => 1
  | h :: t => 1 + szJ h + szList t

def szFields : List (String × J) → Nat
  | [] => 1
  | (_, v) :: t => 1 + szJ v + szFields t
end

mutual
/-- No key `k` occurs anywhere in the tree. -/
def keyFree (k : String) : J → Bool
  | .obj fields => keyFreeFields k fields
  | .arr es => keyFreeList k es
  | _ => true

def keyFreeFields (k : String) : List (String × J) → Bool
  | [] => true
  | (k1, v) :: t => (k1 != k) && keyFree k v && keyFreeFields k t

def keyFreeList (k : String) : List J → Bool
  | [] => true
  | v :: t => keyFree k v && keyFreeList k t
end

mutual
/-- Every `$ref` binding anywhere in the tree has a falsy value (the
resolver only fires on truthy `$ref` values). -/
def noTruthyRef : J → Bool
  | .obj fields => noTruthyRefFields fields
  | .arr es => noTruthyRefList es
  | _ => true

def noTruthyRefFields : List (String × J) → Bool
  | [] => true
  | (k, v) :: t =>
      (if k = "$ref" then !truthy v else true) && noTruthyRef v && noTruthyRefFields t

def noTruthyRefList : List J → Bool
  | [] => true
  | v :: t => noTruthyRef v && noTruthyRefList t
end

mutual
/-- No binding of key `kw` anywhere in the tree carries an array value. -/
def noArrKey (kw : String) : J → Bool
  | .obj fields => noArrKeyFields kw fields
  | .arr es => noArrKeyList kw es
  | _ => true

def noArrKeyFields (kw : String) : List (String × J) → Bool
  | [] => true
  | (k, v) :: t =>
      (if k = kw then (match v with | .arr _ => false | _ => true) else true)
        && noArrKey kw v && noArrKeyFields kw t

def noArrKeyList (kw : String) : List J → Bool
  | [] => true
  | v :: t => noArrKey kw v && noArrKeyList kw t
end

/-- No string occurs twice in the list. -/
def nodupKeys : List String → Bool
  | [] => true
  | h :: t => (!t.contains h) && nodupKeys t

mutual
/-- Objects have unique keys at every level (true of any parsed JSON
document). -/
def wfJ : J → Bool
  | .obj fields => nodupKeys (fields.map Prod.fst) && wfFields fields
  | .arr es => wfList es
  | _ => true

def wfFields : List (String × J) → Bool
  | [] => true
  | (_, v) :: t => wfJ v && wfFields t

def wfList : List J → Bool
  | [] => true
  | v :: t => wfJ v && wfList t
end

/-! ## Pointer parsing and document paths -/

/-- `obj.$ref.replace(/^#\//, '')`: strip one leading `#/`. -/
def stripHash (s : String) : String :=
  match s.data with
  | '#' :: '/' :: rest => String.mk rest
  | _ => s

/-- `String.prototype.split('/')` on a character list: always non-empty,
`[""]` for the empty string, empty pieces kept around repeated slashes. -/
def splitSlash : List Char → List (List Char)
  | [] => [[]]
  | c :: cs =>
      match splitSlash cs with
      | [] => [[c]]
      | h :: t => if c = '/' then [] :: h :: t else (c :: h) :: t

/-- `obj.$ref.replace(/^#\//, '').split('/')`.  Always non-empty. -/
def parsePtr (s : String) : List String :=
  (splitSlash (stripHash s).data).map String.mk

/-- One step of a key path: the child of `v` under an object key or a
canonical array index (`none` on a scalar or a miss). -/
def childAt (v : J) (k : String) : Option J :=
  match v with
  | .obj fields => lookupField fields k
  | .arr es =>
      (match decIdx k with
        | some n => if n < es.length then some (es.getD n .undef) else none
        | none => none)
  | _ => none

/-- Read the node at a key path (object keys and canonical array indices).
Used to model both the JSONPath dot-path selection of `startAt` and the
location, inside the root document, of a node the resolver mutates. -/
def getAtPath : J → List String → Option J
  | v, [] => some v
  | .obj fields, k :: p => match lookupField fields k with
      | some w => getAtPath w p
      | none => none
  | .arr es, k :: p => (match decIdx k with
      | some n => if n < es.length then getAtPath (es.getD n .undef) p else none
      | none => none)
  | _, _ :: _ => none

/-- Replace the node at a key path; identity when the path is invalid. -/
def setAtPath : J → List String → J → J
  | _, [], r => r
  | .obj fields, k :: p, r => (match lookupField fields k with
      | some w => .obj (upsertField fields k (setAtPath w p r))
      | none => .obj fields)
  | .arr es, k :: p, r => (match decIdx k with
      | some n => if n < es.length
          then .arr (setElem es n (setAtPath (es.getD n .undef) p r)) else .arr es
      | none => .arr es)
  | v, _ :: _, _ => v

/-- Outcome of the pointer-walk loop in `resolveRef`:
`derefObj = derefObj[part]; if (!derefObj) throw ...`. -/
inductive WalkR where
  | found (v : J)
  | fellFalsy
  | typeErr
deriving Repr

/-- The pointer-walk loop.  Reading a property of `null`/`undefined` throws
a TypeError; a falsy lookup result throws the resolver's own `Error`. -/
def walkJ : J → List String → WalkR
  | v, [] => .found v
  | .null, _ :: _ => .typeErr
  | .undef, _ :: _ => .typeErr
  | v, k :: p =>
      let nxt := getProp v k
      if truthy nxt then walkJ nxt p else .fellFalsy

/-! ## The reference resolver (`resolveRef`) and `processSchema`

`resolveRef(obj, api)` is called by `processSchema` on reference nodes of
the cloned document and recursively on nodes *inside* `api` itself (the
original input document): the `obj[key] = await resolveRef(obj[key], api)`
loop then mutates `api` in place.  The state threading below mirrors this:
`resolveAtS`/`resolveAtFieldsS` operate on the node at a path inside the
current `api` value and return the updated `api`, while `resolveRefS`
handles a node passed by value (a clone node). -/

/-- Result of a run: value and current `api`, a thrown error, or fuel
exhaustion (`resolveRef` has no cycle detection and recurses unboundedly;
`.out` corresponds to runs that never return). -/
inductive RRes where
  | ok (v : J) (api : J)
  | thrown (msg : String)
  | out
deriving Repr

/-- The message of the resolver's `throw new Error(...)`. -/
def refErrMsg (ptr : String) : String :=
  "Could not resolve $ref path: " ++ ptr

mutual
/-- `resolveRef(obj, api)` for an `obj` passed by value (not aliased into
`api`).  `if (obj && obj.$ref)` resolves the pointer; otherwise an
object/array has each field resolved in place; primitives pass through. -/
def resolveRefS : Nat → J → J → RRes
  | 0, _, _ => .out
  | fuel + 1, api, v =>
      if truthy v && truthy (getProp v "$ref") then
        match getProp v "$ref" with
        | .str ptr => resolvePtrS fuel api ptr
        | _ => .thrown "TypeError"
      else if isObjLike v then
        resolveValFieldsS fuel api v (keysOf v)
      else .ok v api

/-- The `for (const key in obj) obj[key] = await resolveRef(obj[key], api)`
loop for a by-value `obj`. -/
def resolveValFieldsS : Nat → J → J → List String → RRes
  | 0, _, _, _ => .out
  | _ + 1, api, v, [] => .ok v api
  | fuel + 1, api, v, k :: ks =>
      match resolveRefS fuel api (getProp v k) with
      | .ok r api1 => resolveValFieldsS fuel api1 (setProp v k r) ks
      | e => e

/-- Pointer resolution: strip `#/`, split on `/`, walk `api`, then resolve
the reached node.  A non-scalar walk result is the node of `api` at the
walked path, so it is resolved in place there. -/
def resolvePtrS : Nat → J → String → RRes
  | 0, _, _ => .out
  | fuel + 1, api, ptr =>
      match walkJ api (parsePtr ptr) with
      | .typeErr => .thrown "TypeError"
      | .fellFalsy => .thrown (refErrMsg ptr)
      | .found w =>
          if isObjLike w then resolveAtS fuel api (parsePtr ptr)
          else .ok w api

/-- `resolveRef(obj, api)` for the node `obj` sitting at path `p` inside
`api`: mutations through `obj[key] = ...` update `api` at `p ++ [key]`. -/
def resolveAtS : Nat → J → List String → RRes
  | 0, _, _ => .out
  | fuel + 1, api, p =>
      match getAtPath api p with
      | none => .thrown "TypeError"
      | some w =>
          if truthy w && truthy (getProp w "$ref") then
            match getProp w "$ref" with
            | .str ptr => resolvePtrS fuel api ptr
            | _ => .thrown "TypeError"
          else if isObjLike w then
            resolveAtFieldsS fuel api p (keysOf w)
          else .ok w api

/-- The resolver's field loop for a node aliased into `api` at path `p`. -/
def resolveAtFieldsS : Nat → J → List String → List String → RRes
  | 0, _, _, _ => .out
  | _ + 1, api, p, [] => .ok ((getAtPath api p).getD .undef) api
  | fuel + 1, api, p, k :: ks =>
      match resolveAtS fuel api (p ++ [k]) with
      | .ok r api1 => resolveAtFieldsS fuel (setAtPath api1 (p ++ [k]) r) p ks
      | e => e
end

mutual
/-- `processSchema(schema)` from `dereferenceApi`: falsy schemas pass
through; a truthy `$ref` is resolved via `resolveRef(schema, apiDoc)`
against the *original* document; then objects/arrays have every field
processed recursively in place. -/
def processSchemaS : Nat → J → J → RRes
  | 0, _, _ => .out
  | fuel + 1, api, v =>
      if !truthy v then .ok v api
      else
        match (if truthy (getProp v "$ref") then resolveRefS fuel api v else .ok v api) with
        | .ok v1 api1 =>
            if isObjLike v1 then processFieldsS fuel api1 v1 (keysOf v1)
            else .ok v1 api1
        | e => e

/-- `for (const key in schema) schema[key] = await processSchema(schema[key])`. -/
def processFieldsS : Nat → J → J → List String → RRes
  | 0, _, _, _ => .out
  | _ + 1, api, v, [] => .ok v api
  | fuel + 1, api, v, k :: ks =>
      match processSchemaS fuel api (getProp v k) with
      | .ok r api1 => processFieldsS fuel api1 (setProp v k r) ks
      | e => e
end

/-- `dereferenceApi(apiDoc, startAt)`.  The function deep-copies `apiDoc`,
selects the first `startAt` match in the copy (warning and returning
`undefined` when there is none), runs `processSchema` on it — resolving
pointers against the *original* `apiDoc`, whose current value is threaded
through and returned as the second component — and returns the copy.  The
trailing `JSONPath` call passes `processedSection` through a per-result
`callback`, which `jsonpath-plus` does not write back, so the copy changes
only through `processSchema`'s in-place field assignments: when the matched
node is an object or array whose own `$ref` is not truthy, those
assignments amount to replacing the subtree at `startAt` with the processed
section; otherwise (`processSchema` rebinds its local variable, or the node
is a primitive) the copy is returned unchanged. -/
def dereferenceApiS (apiDoc : J) (startAt : List String) (fuel : Nat) : RRes :=
  match getAtPath apiDoc startAt with
  | none => .ok .undef apiDoc
  | some startNode =>
      match processSchemaS fuel apiDoc startNode with
      | .ok sec api1 =>
          if isObjLike startNode && !truthy (getProp startNode "$ref") then
            .ok (setAtPath apiDoc startAt sec) api1
          else .ok apiDoc api1
      | e => e

/-! ## The composition processors

`flattenAllOf`, `selectFirstOfOneOf` and `selectFirstOfAnyOf` clone the
document and run their recursive helper on the clone, using only the
helper's in-place effects (the return value of the top call is discarded).
The helpers never touch the original document, so these three operations
are modelled as pure functions of the clone's value. -/

/-- Result of a composition helper run: a value, a strict-mode TypeError
(`for (const key in s)` over a non-empty string followed by an assignment
to a read-only string index), or fuel exhaustion. -/
inductive TRes where
  | ok (v : J)
  | terr
  | out
deriving Repr

/-- One step of `schema.allOf.reduce(...)`:
`{...merged, ...subSchema, properties: {...(merged.properties || {}), ...(subSchema.properties || {})}}`. -/
def allOfStep (m sub : J) : J :=
  let mp := if truthy (getProp m "properties") then getProp m "properties" else J.obj []
  let sp := if truthy (getProp sub "properties") then getProp sub "properties" else J.obj []
  let props := J.obj (upsertAll (upsertAll [] (spreadFields mp)) (spreadFields sp))
  J.obj (upsertField (upsertAll (upsertAll [] (spreadFields m)) (spreadFields sub))
    "properties" props)

/-- `schema.allOf.reduce(step, {})` followed by `delete schema.allOf`. -/
def allOfMerge (members : List J) : J :=
  match members.foldl allOfStep (J.obj []) with
  | .obj fields => .obj (removeField fields "allOf")
  | v => v

mutual
/-- `processAllOf(schema)` from `flattenAllOf`: non-objects pass through;
an array-valued `allOf` is folded into a fresh merged object (its `allOf`
key deleted); then every field of the (possibly merged) node is processed
recursively. -/
def processAllOfP : Nat → J → TRes
  | 0, _ => .out
  | fuel + 1, v =>
      if !(truthy v && isObjLike v) then .ok v
      else
        match getProp v "allOf" with
        | .arr members => allOfFieldsP fuel (allOfMerge members) (keysOf (allOfMerge members))
        | _ => allOfFieldsP fuel v (keysOf v)

/-- `for (const key in schema) schema[key] = await processAllOf(schema[key])`. -/
def allOfFieldsP : Nat → J → List String → TRes
  | 0, _, _ => .out
  | _ + 1, v, [] => .ok v
  | fuel + 1, v, k :: ks =>
      match processAllOfP fuel (getProp v k) with
      | .ok r => allOfFieldsP fuel (setProp v k r) ks
      | e => e
end

mutual
/-- `processOneOf`/`processAnyOf` (they differ only in the keyword `kw`):
non-objects pass through; an array-valued `kw` replaces the node by the
array's first element (`undefined` when empty) *without re-checking the
replacement's own `kw`*; then the `for ... in` loop processes whatever the
local variable now holds. -/
def processPickP (kw : String) : Nat → J → TRes
  | 0, _ => .out
  | fuel + 1, v =>
      if !(truthy v && isObjLike v) then .ok v
      else
        match getProp v kw with
        | .arr members => pickLoopP kw fuel (members.headD J.undef)
        | _ => pickLoopP kw fuel v

/-- The `for (const key in schema)` loop applied to an arbitrary value:
objects and arrays have each field processed and reassigned; a non-empty
string enumerates its indices and the strict-mode assignment to a read-only
string index throws a TypeError; anything else enumerates nothing. -/
def pickLoopP (kw : String) : Nat → J → TRes
  | 0, _ => .out
  | _ + 1, .str st => if st = "" then .ok (.str st) else .terr
  | fuel + 1, .obj fields => pickFieldsP kw fuel (.obj fields) (keysOf (.obj fields))
  | fuel + 1, .arr es => pickFieldsP kw fuel (.arr es) (keysOf (.arr es))
  | _ + 1, w => .ok w

/-- `for (const key in schema) schema[key] = await processX(schema[key])`. -/
def pickFieldsP (kw : String) : Nat → J → List String → TRes
  | 0, _, _ => .out
  | _ + 1, v, [] => .ok v
  | fuel + 1, v, k :: ks =>
      match processPickP kw fuel (getProp v k) with
      | .ok r => pickFieldsP kw fuel (setProp v k r) ks
      | e => e
end

/-- `flattenAllOf(apiDoc)`: clone, run `processAllOf` on the clone, return
the clone (the helper's return value is discarded).  When the clone is not
an object the helper returns it untouched.  When the clone's root carries
an array-valued `allOf`, the helper rebinds its local `schema` to a
*fresh* merged object and recurses into that; the clone's root binding is
never reassigned and its root `allOf` key is never deleted.  This branch
is modelled as returning the clone unchanged: deep inside the `allOf`
members, nodes shared with the fresh merged object can additionally be
rewritten in place, which the model does not track — the model is exact
when the members hold no nested container values (as in the document the
branch is evaluated on below) and agrees with the source on the presence
of the root `allOf` key, the only fact the general theorem below uses of
this branch.  Otherwise the helper's loop reassigns each root field in
place, which is exactly the field-fold below. -/
def flattenAllOfS (apiDoc : J) (fuel : Nat) : TRes :=
  if !(truthy apiDoc && isObjLike apiDoc) then .ok apiDoc
  else
    match getProp apiDoc "allOf" with
    | .arr _ => .ok apiDoc
    | _ => allOfFieldsP fuel apiDoc (keysOf apiDoc)

/-- `selectFirstOfOneOf` / `selectFirstOfAnyOf` (parameterised by `kw`):
clone, run the helper on the clone, return the clone.  When the clone's
root carries an array-valued `kw`, the helper rebinds its local variable to
element 0 and the `for ... in` loop mutates *that element* in place; the
clone keeps its root `kw` key, with element 0's fields processed.  When the
root has no array-valued `kw`, the loop processes the root's fields in
place. -/
def selectFirstS (kw : String) (apiDoc : J) (fuel : Nat) : TRes :=
  if !(truthy apiDoc && isObjLike apiDoc) then .ok apiDoc
  else
    match getProp apiDoc kw with
    | .arr [] => .ok apiDoc
    | .arr (h :: t) =>
        (match h with
          | .obj _ =>
              (match pickLoopP kw fuel h with
                | .ok h1 => .ok (setProp apiDoc kw (.arr (h1 :: t)))
                | e => e)
          | .arr _ =>
              (match pickLoopP kw fuel h with
                | .ok h1 => .ok (setProp apiDoc kw (.arr (h1 :: t)))
                | e => e)
          | .str st => if st = "" then .ok apiDoc else .terr
          | _ => .ok apiDoc)
    | _ => pickFieldsP kw fuel apiDoc (keysOf apiDoc)

/-- `selectFirstOfOneOf(apiDoc)`. -/
def selectFirstOfOneOfS (apiDoc : J) (fuel : Nat) : TRes :=
  selectFirstS "oneOf" apiDoc fuel

/-- `selectFirstOfAnyOf(apiDoc)`. -/
def selectFirstOfAnyOfS (apiDoc : J) (fuel : Nat) : TRes :=
  selectFirstS "anyOf" apiDoc fuel

/-! ## Example documents -/

/-- `{a: {$ref: "#/b"}, b: {c: {$ref: "#/d"}}, d: 5}`: resolving `a`
forces the resolver to dereference the nested `$ref` inside the target
`b` — in place, inside the original input document. -/
def exMut : J :=
  .obj [("a", .obj [("$ref", .str "#/b")]),
        ("b", .obj [("c", .obj [("$ref", .str "#/d")])]),
        ("d", .num 5)]

/-- The document `dereferenceApi(exMut)` returns. -/
def exMutOut : J :=
  .obj [("a", .obj [("c", .num 5)]), ("b", .obj [("c", .num 5)]), ("d", .num 5)]

/-- The value of the *input* document after `dereferenceApi(exMut)`:
its `b.c` has been overwritten with `5`. -/
def exMutAfter : J :=
  .obj [("a", .obj [("$ref", .str "#/b")]),
        ("b", .obj [("c", .num 5)]),
        ("d", .num 5)]

/-- Observer distinguishing `exMutAfter` from `exMut`: is the node at
`b.c` a number? -/
def probeMut (d : J) : Bool :=
  match getAtPath d ["b", "c"] with
  | some (.num _) => true
  | _ => false

/-- `{"": {x: 1}, a: {$ref: ""}}`: the pointer `""` resolves (to the node
at key `""`), but the `if (schema.$ref)` truthiness test skips the falsy
pointer string, so the `$ref` key survives dereferencing. -/
def exFalsyRef : J :=
  .obj [("", .obj [("x", .num 1)]), ("a", .obj [("$ref", .str "")])]

/-- `{a: 0}`: the segment `a` exists but its value is falsy. -/
def exSeg : J := .obj [("a", .num 0)]

/-- A reference node pointing at `#/a`. -/
def exRefNode : J := .obj [("$ref", .str "#/a")]

/-- `{b: {$ref: "#/a"}, a: 0}`: dereferencing aborts on the falsy target. -/
def exAbort : J := .obj [("b", .obj [("$ref", .str "#/a")]), ("a", .num 0)]

/-- A document shaped like the billing fixture of the test suite: the
`components.x-stackQL-resources` subtree holds a `$ref` that resolves
nowhere. -/
def exBilling : J :=
  .obj [("components",
    .obj [("x-stackQL-resources",
            .obj [("r", .obj [("$ref", .str "#/components/schemas/Missing")])]),
          ("schemas", .obj [])])]

/-- `{allOf: [{a: 1}]}`: the composition keyword sits at the root. -/
def exRootAllOf : J := .obj [("allOf", .arr [.obj [("a", .num 1)]])]

/-- `{oneOf: [{x: 1}]}`. -/
def exRootOneOf : J := .obj [("oneOf", .arr [.obj [("x", .num 1)]])]

/-- `{anyOf: [{x: 1}]}`. -/
def exRootAnyOf : J := .obj [("anyOf", .arr [.obj [("x", .num 1)]])]

/-- `{allOf: [{properties: {a: {t: 1}}}, {properties: {b: {t: 2}}}]}`. -/
def exProps : J :=
  .obj [("allOf",
    .arr [.obj [("properties", .obj [("a", .obj [("t", .num 1)])])],
          .obj [("properties", .obj [("b", .obj [("t", .num 2)])])]])]

/-- The flattening of `exProps`: both `a` and `b` survive in
`properties`. -/
def exPropsOut : J :=
  .obj [("properties",
    .obj [("a", .obj [("t", .num 1)]), ("b", .obj [("t", .num 2)])])]

/-- `{A: {$ref: "#/B"}, B: {$ref: "#/C"}, C: {v: 42}}`: a two-hop chain. -/
def exChain : J :=
  .obj [("A", .obj [("$ref", .str "#/B")]),
        ("B", .obj [("$ref", .str "#/C")]),
        ("C", .obj [("v", .num 42)])]

/-- A `$ref`-free document. -/
def exRefFree : J :=
  .obj [("components",
          .obj [("schemas", .obj [("A", .obj [("type", .str "string")])])]),
        ("n", .num 3)]

/-- `{a: {$ref: "#/b"}, b: {x: 1}}`: one resolvable reference. -/
def exResolvable : J :=
  .obj [("a", .obj [("$ref", .str "#/b")]), ("b", .obj [("x", .num 1)])]

/-! ## Auxiliary predicates for the invariants -/

/-- A field is *resolved*: its value contains no truthy `$ref`, and if the
field itself is named `$ref` its value is falsy. -/
def goodF (k : String) (v : J) : Bool :=
  noTruthyRef v && (if k = "$ref" then !truthy v else true)

/-- Does `getProp d k` yield an array? -/
def hasArrProp (d : J) (k : String) : Bool :=
  match getProp d k with
  | .arr _ => true
  | _ => false

/-- Does the root node (an object) carry a binding of `k`? -/
def hasRootKey (d : J) (k : String) : Bool :=
  match d with
  | .obj fields => (lookupField fields k).isSome
  | _ => false

/-- Evolution of the root document under the resolver's in-place writes:
every write replaces the subtree at some path by a well-formed value with
no truthy `$ref` inside, and a write landing on a `$ref` field writes a
falsy value. -/
inductive Ev : J → J → Prop where
  | refl (a : J) : Ev a a
  | step (a b : J) (p : List String) (r : J) : Ev a b →
      wfJ r = true → noTruthyRef r = true →
      (p.getLast? = some "$ref" → truthy r = false) →
      Ev a (setAtPath b p r)

/-- Invariant of the resolver's field loop at path `p`: every field of the
node at `p` whose key is not among the still-to-process keys `ks` is
resolved, and every `$ref` field of that node is falsy. -/
def NodeInv (api : J) (p : List String) (ks : List String) : Prop :=
  ∀ w, getAtPath api p = some w →
    (∀ kv ∈ spreadFields w, kv.1 ∉ ks → goodF kv.1 kv.2 = true) ∧
    (∀ kv ∈ spreadFields w, kv.1 = "$ref" → truthy kv.2 = false)

mutual
/-- Domain on which `selectFirstOfOneOf`/`selectFirstOfAnyOf` eliminate
the keyword: every node carrying a `kw` binding has an array value whose
first element (when it exists) is entirely `kw`-free. -/
def okPick (kw : String) : J → Bool
  | .obj fields =>
      (match lookupField fields kw with
        | none => okPickFields kw fields
        | some (.arr []) => true
        | some (.arr (h :: _)) => keyFree kw h
        | some _ => false)
  | .arr es => okPickList kw es
  | _ => true

def okPickFields (kw : String) : List (String × J) → Bool
  | [] => true
  | (_, v) :: t => okPick kw v && okPickFields kw t

def okPickList (kw : String) : List J → Bool
  | [] => true
  | v :: t => okPick kw v && okPickList kw t
end

/-- Is the value a JavaScript array?  (`Array.isArray`.) -/
def isArrJ : J → Bool
  | .arr _ => true
  | _ => false

/-! ## Claims settled by direct evaluation -/

/-- **C2** (code bug).  The spec, the README and the test suite all
describe a third `ignorePaths` argument of `dereferenceApi` under which
`dereferenceApi(doc, "$", ["$.components.x-stackQL-resources"])` succeeds
even though that subtree contains an unresolvable `$ref`.  The function
in `src/dereferencer.ts` is declared with only two parameters
(`apiDoc`, `startAt`); a third argument is ignored, no path is ever
exempted, and the call throws on the unresolvable reference: on a
billing-shaped document the run aborts with the resolution error. -/
theorem claim_C2_ignore_paths_missing :
    dereferenceApiS exBilling [] 400 =
      .thrown (refErrMsg "#/components/schemas/Missing") := rfl

/-- **C3** (code bug).  `processSchema` passes the *original* `apiDoc` —
not the clone — to `resolveRef`, and `resolveRef` rewrites nested `$ref`
nodes of the resolution target in place.  On `exMut`, the call succeeds
but afterwards the input document's `b.c` has been overwritten with `5`:
the input does not deep-equal its pre-call value, contradicting the
"deep-copies before transforming, input never mutated" claim (and the
source's own `// Deep copy to avoid mutation` comment).  The other three
operations touch only their clone. -/
theorem claim_C3_input_mutated :
    dereferenceApiS exMut [] 100 = .ok exMutOut exMutAfter ∧ exMutAfter ≠ exMut :=
  ⟨rfl, fun h => absurd (congrArg probeMut h) (by decide)⟩

/-- **C1** (counterexample).  In `exFalsyRef`, the scope `$` matches, the
only `$ref` pointer (the empty string) resolves — `resolvePtrS` returns
the node at key `""` — and the reference graph is acyclic; yet
`dereferenceApi` returns the document unchanged, with the `$ref` key
still present reachable from the scope, because `if (schema.$ref)` skips
falsy pointer strings. -/
theorem claim_C1_counterexample :
    dereferenceApiS exFalsyRef [] 100 = .ok exFalsyRef exFalsyRef
      ∧ resolvePtrS 100 exFalsyRef "" = .ok (.obj [("x", .num 1)]) exFalsyRef
      ∧ keyFree "$ref" exFalsyRef = false :=
  ⟨rfl, rfl, rfl⟩

/-- **C6** (counterexample).  The resolver checks `if (!derefObj) throw`,
so it fails on any *falsy* lookup result, not only on missing segments:
in `exSeg` the segment `a` exists (its value is `0`), yet resolving
`#/a` throws the resolution error — refuting "fails exactly when some
segment of the pointer path does not exist". -/
theorem claim_C6_counterexample :
    resolveRefS 100 exSeg exRefNode = .thrown (refErrMsg "#/a")
      ∧ getAtPath exSeg ["a"] = some (.num 0) :=
  ⟨rfl, rfl⟩

/-- **C4** (counterexample).  `flattenAllOf` ignores the helper's return
value, so a root-level `allOf` survives: on `{allOf: [{a: 1}]}` the
output still contains an `allOf` key, refuting "no `allOf` key anywhere
in the tree". -/
theorem claim_C4_counterexample :
    flattenAllOfS exRootAllOf 100 = .ok exRootAllOf
      ∧ keyFree "allOf" exRootAllOf = false :=
  ⟨rfl, rfl⟩

/-- **C5** (counterexample).  `selectFirstOfOneOf`/`selectFirstOfAnyOf`
ignore the helper's return value, so a root-level `oneOf`/`anyOf`
survives: on `{oneOf: [{x: 1}]}` (resp. `{anyOf: [{x: 1}]}`) the output
still contains the keyword, refuting "no node in the returned document
contains a `oneOf` (resp. `anyOf`) key". -/
theorem claim_C5_counterexample :
    selectFirstOfOneOfS exRootOneOf 100 = .ok exRootOneOf
      ∧ keyFree "oneOf" exRootOneOf = false
      ∧ selectFirstOfAnyOfS exRootAnyOf 100 = .ok exRootAnyOf
      ∧ keyFree "anyOf" exRootAnyOf = false :=
  ⟨rfl, rfl, rfl, rfl⟩

/-! ## Decimal index strings: round trips -/

theorem decDigit_digitChar {d : Nat} (h : d < 10) : decDigit (digitChar d) = some d := by
  interval_cases d <;> rfl

theorem digitChar_of_decDigit {c : Char} {d : Nat} (h : decDigit c = some d) :
    digitChar d = c ∧ d < 10 := by
  unfold decDigit at h
  split_ifs at h <;> cases h <;> subst_vars <;> exact ⟨rfl, by omega⟩

theorem digitChar_ne_zero {d : Nat} (h : d < 10) (h0 : d ≠ 0) : digitChar d ≠ '0' := by
  interval_cases d <;> simp_all <;> decide

theorem encIdxAux_eq : ∀ {fuel n : Nat}, n ≤ fuel →
    encIdxAux fuel n = (Nat.digits 10 n).map digitChar := by
  intro fuel
  induction fuel with
  | zero => intro n h; interval_cases n; simp [encIdxAux]
  | succ f ih =>
      intro n h
      by_cases h0 : n = 0
      · subst h0; simp [encIdxAux]
      · have hdiv : n / 10 < n := Nat.div_lt_self (Nat.pos_of_ne_zero h0) (by norm_num)
        rw [encIdxAux, if_neg h0,
          Nat.digits_def' (b := 10) (by norm_num) (Nat.pos_of_ne_zero h0), List.map_cons]
        rw [ih (by omega)]

theorem decAux_map {D : List Nat} (hD : ∀ d ∈ D, d < 10) : ∀ acc : Nat,
    decAux (D.map digitChar) acc = some (acc * 10 ^ D.length + Nat.ofDigits 10 D.reverse) := by
  induction D with
  | nil => intro acc; simp [decAux, Nat.ofDigits]
  | cons d D ih =>
      intro acc
      rw [List.map_cons, decAux, decDigit_digitChar (hD d (.head _))]
      dsimp only
      rw [ih (fun x hx => hD x (.tail _ hx))]
      congr 1
      rw [List.reverse_cons, Nat.ofDigits_append]
      simp only [List.length_cons, List.length_reverse, Nat.ofDigits_singleton,
        Nat.ofDigits_nil]
      ring

theorem decAux_some : ∀ {cs : List Char} {acc n : Nat}, decAux cs acc = some n →
    ∃ D : List Nat, cs = D.map digitChar ∧ (∀ d ∈ D, d < 10) ∧
      n = acc * 10 ^ D.length + Nat.ofDigits 10 D.reverse := by
  intro cs
  induction cs with
  | nil =>
      intro acc n h
      refine ⟨[], rfl, by simp, ?_⟩
      simp only [decAux, Option.some.injEq] at h
      simp [← h, Nat.ofDigits]
  | cons c cs ih =>
      intro acc n h
      rw [decAux] at h
      cases hd : decDigit c with
      | none => rw [hd] at h; cases h
      | some d =>
          rw [hd] at h
          dsimp only at h
          obtain ⟨D, hcs, hlt, hn⟩ := ih h
          obtain ⟨hc, hdlt⟩ := digitChar_of_decDigit hd
          refine ⟨d :: D, by rw [List.map_cons, hc, hcs], ?_, ?_⟩
          · intro x hx
            rcases List.mem_cons.mp hx with h1 | h1
            · omega
            · exact hlt x h1
          · rw [hn, List.reverse_cons, Nat.ofDigits_append]
            simp only [List.length_cons, List.length_reverse, Nat.ofDigits_singleton,
              Nat.ofDigits_nil]
            ring

theorem decIdx_mk_nil : decIdx (String.mk []) = none := rfl

theorem decIdx_mk_cons (c : Char) (cs : List Char) :
    decIdx (String.mk (c :: cs)) =
      if c = '0' then (if cs = [] then some 0 else none) else decAux (c :: cs) 0 := rfl

theorem decIdx_encIdx (n : Nat) : decIdx (encIdx n) = some n := by
  by_cases h0 : n = 0
  · subst h0; rfl
  · rw [encIdx, if_neg h0, encIdxAux_eq le_rfl]
    have hne : (Nat.digits 10 n).reverse ≠ [] := by
      simp [Nat.digits_ne_nil_iff_ne_zero.mpr h0]
    obtain ⟨d0, D', hD⟩ := List.exists_cons_of_ne_nil hne
    have hmem0 : d0 ∈ Nat.digits 10 n := by
      rw [← List.mem_reverse, hD]; exact .head _
    have hnn : Nat.digits 10 n ≠ [] := Nat.digits_ne_nil_iff_ne_zero.mpr h0
    have hd0 : d0 ≠ 0 := by
      have h2 := Nat.getLast_digit_ne_zero 10 h0
      have h3 : (Nat.digits 10 n).getLast? = some d0 := by
        rw [List.getLast?_eq_head?_reverse, hD]; rfl
      have h4 := List.getLast?_eq_getLast (Nat.digits 10 n) hnn
      rw [h3] at h4
      have h5 : d0 = (Nat.digits 10 n).getLast hnn := by
        injection h4
      rw [h5]
      exact h2
    have hd0lt : d0 < 10 := Nat.digits_lt_base (by norm_num) hmem0
    have hmap : ((Nat.digits 10 n).map digitChar).reverse
        = digitChar d0 :: D'.map digitChar := by
      rw [← List.map_reverse, hD, List.map_cons]
    rw [hmap, decIdx_mk_cons, if_neg (digitChar_ne_zero hd0lt hd0)]
    have hall : ∀ d ∈ d0 :: D', d < 10 := by
      intro d hdm
      have hdm2 : d ∈ (Nat.digits 10 n).reverse := hD ▸ hdm
      exact Nat.digits_lt_base (by norm_num) (List.mem_reverse.mp hdm2)
    have hdm := decAux_map hall 0
    rw [List.map_cons] at hdm
    rw [hdm, ← hD, List.reverse_reverse, Nat.ofDigits_digits]
    simp

theorem encIdx_of_decIdx : ∀ {s : String} {n : Nat}, decIdx s = some n → s = encIdx n := by
  intro s n h
  obtain ⟨cs⟩ := s
  cases cs with
  | nil => rw [decIdx_mk_nil] at h; cases h
  | cons c cs =>
    rw [decIdx_mk_cons] at h
    by_cases hc : c = '0'
    · rw [if_pos hc] at h
      by_cases hcs : cs = []
      · rw [if_pos hcs] at h
        cases h
        subst hc hcs
        rfl
      · rw [if_neg hcs] at h; cases h
    · rw [if_neg hc] at h
      obtain ⟨D, hcs, hlt, hn⟩ := decAux_some h
      simp only [Nat.zero_mul, Nat.zero_add] at hn
      obtain ⟨d0, D', hD⟩ : ∃ d0 D', D = d0 :: D' := by
        cases D with
        | nil => cases hcs
        | cons a b => exact ⟨a, b, rfl⟩
      subst hD
      rw [List.map_cons] at hcs
      have hc0 : c = digitChar d0 := by injection hcs
      have hd0 : d0 ≠ 0 := by
        intro hz
        subst hz
        exact hc (hc0.trans rfl)
      have hnz : n ≠ 0 := by
        intro hz
        apply hd0
        have hzero : Nat.ofDigits 10 ((d0 :: D').reverse) = 0 := by rw [← hn, hz]
        exact Nat.digits_zero_of_eq_zero (by norm_num) hzero d0
          (List.mem_reverse.mpr (.head _))
      have hdig : Nat.digits 10 n = (d0 :: D').reverse := by
        rw [hn]
        refine Nat.digits_ofDigits 10 (by norm_num) _ ?_ ?_
        · intro l hl
          exact hlt l (List.mem_reverse.mp hl)
        · intro hne
          rw [List.getLast_reverse]
          exact hd0
      rw [encIdx, if_neg hnz, encIdxAux_eq le_rfl, hdig]
      rw [← List.map_reverse, List.reverse_reverse, List.map_cons, ← hcs]

theorem encIdx_inj {n m : Nat} (h : encIdx n = encIdx m) : n = m := by
  have h1 := decIdx_encIdx n
  rw [h, decIdx_encIdx m] at h1
  exact (Option.some.injEq .. ▸ h1).symm

theorem decIdx_inj {a b : String} {n : Nat} (ha : decIdx a = some n)
    (hb : decIdx b = some n) : a = b := by
  rw [encIdx_of_decIdx ha, encIdx_of_decIdx hb]

theorem encIdx_ne_length (n : Nat) : encIdx n ≠ "length" := by
  intro h
  have h1 := decIdx_encIdx n
  rw [h] at h1
  exact absurd h1 (by rw [show decIdx "length" = none from rfl]; simp)

theorem encIdx_ne_ref (n : Nat) : encIdx n ≠ "$ref" := by
  intro h
  have h1 := decIdx_encIdx n
  rw [h] at h1
  exact absurd h1 (by rw [show decIdx "$ref" = none from rfl]; simp)

/-! ## Association lists, elements, property access -/

theorem lookupField_upsert_self (fs : List (String × J)) (k : String) (v : J) :
    lookupField (upsertField fs k v) k = some v := by
  induction fs with
  | nil => simp [upsertField, lookupField]
  | cons f t ih =>
      obtain ⟨k1, v1⟩ := f
      by_cases h : k1 = k
      · subst h; simp [upsertField, lookupField]
      · simp [upsertField, lookupField, h, ih]

theorem lookupField_upsert_ne {k1 k : String} (h : k1 ≠ k) (fs : List (String × J)) (v : J) :
    lookupField (upsertField fs k v) k1 = lookupField fs k1 := by
  induction fs with
  | nil =>
      rw [upsertField, lookupField, lookupField, lookupField, if_neg (Ne.symm h)]
  | cons f t ih =>
      obtain ⟨k2, v2⟩ := f
      by_cases h2 : k2 = k
      · subst h2
        rw [upsertField, if_pos rfl, lookupField, lookupField,
          if_neg (Ne.symm h), if_neg (Ne.symm h)]
      · rw [upsertField, if_neg h2, lookupField, lookupField]
        by_cases h3 : k2 = k1
        · rw [if_pos h3, if_pos h3]
        · rw [if_neg h3, if_neg h3, ih]

theorem lookupField_mem {fs : List (String × J)} {k : String} {v : J}
    (h : lookupField fs k = some v) : (k, v) ∈ fs := by
  induction fs with
  | nil => cases h
  | cons f t ih =>
      obtain ⟨k1, v1⟩ := f
      rw [lookupField] at h
      by_cases h1 : k1 = k
      · rw [if_pos h1] at h
        cases h
        exact h1 ▸ .head _
      · rw [if_neg h1] at h
        exact .tail _ (ih h)

theorem lookupField_isSome_of_mem {fs : List (String × J)} {k : String}
    (h : k ∈ fs.map Prod.fst) : (lookupField fs k).isSome := by
  induction fs with
  | nil => cases h
  | cons f t ih =>
      obtain ⟨k1, v1⟩ := f
      rw [lookupField]
      by_cases h1 : k1 = k
      · simp [h1]
      · rw [if_neg h1]
        rcases List.mem_cons.mp h with h2 | h2
        · exact absurd h2.symm h1
        · exact ih h2

theorem upsertField_self_eq {fs : List (String × J)} {k : String} {v : J}
    (h : lookupField fs k = some v) : upsertField fs k v = fs := by
  induction fs with
  | nil => cases h
  | cons f t ih =>
      obtain ⟨k1, v1⟩ := f
      rw [lookupField] at h
      by_cases h1 : k1 = k
      · rw [if_pos h1] at h
        cases h
        rw [upsertField, if_pos h1]
      · rw [if_neg h1] at h
        rw [upsertField, if_neg h1, ih h]

theorem upsertField_keys {fs : List (String × J)} {k : String}
    (h : (lookupField fs k).isSome) (v : J) :
    (upsertField fs k v).map Prod.fst = fs.map Prod.fst := by
  induction fs with
  | nil => simp [lookupField] at h
  | cons f t ih =>
      obtain ⟨k1, v1⟩ := f
      rw [lookupField] at h
      by_cases h1 : k1 = k
      · rw [upsertField, if_pos h1]
        simp [h1]
      · rw [if_neg h1] at h
        rw [upsertField, if_neg h1]
        simp [ih h]

theorem length_setElem (l : List J) (n : Nat) (v : J) :
    (setElem l n v).length = l.length := by
  induction l generalizing n with
  | nil => rfl
  | cons h t ih =>
      cases n with
      | zero => rfl
      | succ m => simp [setElem, ih]

theorem setElem_self (l : List J) : ∀ n : Nat, n < l.length →
    ∀ d : J, setElem l n (l.getD n d) = l := by
  induction l with
  | nil => intro n h d; simp at h
  | cons x t ih =>
      intro n h d
      cases n with
      | zero => rfl
      | succ m =>
          rw [setElem]
          congr 1
          exact ih m (by simpa using h) d

theorem getD_setElem_self (l : List J) : ∀ n : Nat, n < l.length →
    ∀ v d : J, (setElem l n v).getD n d = v := by
  induction l with
  | nil => intro n h; simp at h
  | cons x t ih =>
      intro n h v d
      cases n with
      | zero => rfl
      | succ m => exact ih m (by simpa using h) v d

theorem getD_setElem_ne (l : List J) : ∀ n m : Nat, n ≠ m →
    ∀ v d : J, (setElem l n v).getD m d = l.getD m d := by
  induction l with
  | nil => intro n m h v d; rfl
  | cons x t ih =>
      intro n m h v d
      cases n with
      | zero =>
          cases m with
          | zero => exact absurd rfl h
          | succ m2 => rfl
      | succ n2 =>
          cases m with
          | zero => rfl
          | succ m2 => exact ih n2 m2 (by omega) v d

theorem getD_mem (l : List J) : ∀ n : Nat, n < l.length → ∀ d : J, l.getD n d ∈ l := by
  induction l with
  | nil => intro n h; simp at h
  | cons x t ih =>
      intro n h d
      cases n with
      | zero => exact .head _
      | succ m => exact .tail _ (ih m (by simpa using h) d)

theorem getProp_obj (fs : List (String × J)) (k : String) :
    getProp (.obj fs) k = (lookupField fs k).getD .undef := rfl

theorem getProp_arr_encIdx {es : List J} {n : Nat} (h : n < es.length) :
    getProp (.arr es) (encIdx n) = es.getD n .undef := by
  rw [getProp, if_neg (encIdx_ne_length n), decIdx_encIdx]
  dsimp only
  rw [if_pos h]

theorem setProp_arr_encIdx {es : List J} {n : Nat} (h : n < es.length) (v : J) :
    setProp (.arr es) (encIdx n) v = .arr (setElem es n v) := by
  rw [setProp, decIdx_encIdx]
  dsimp only
  rw [if_pos h]

/-! ## `keysOf` membership -/

theorem mem_insertIdxKey {a s : String} {l : List String} :
    a ∈ insertIdxKey s l ↔ a = s ∨ a ∈ l := by
  induction l with
  | nil => simp [insertIdxKey]
  | cons h t ih =>
      rw [insertIdxKey]
      split_ifs with hle
      · simp
      · simp only [List.mem_cons, ih]
        tauto

theorem mem_sortIdxKeys {a : String} {l : List String} :
    a ∈ sortIdxKeys l ↔ a ∈ l := by
  induction l with
  | nil => simp [sortIdxKeys]
  | cons h t ih => simp [sortIdxKeys, mem_insertIdxKey, ih]

theorem mem_keysOf_obj {k : String} {fs : List (String × J)} :
    k ∈ keysOf (.obj fs) ↔ k ∈ fs.map Prod.fst := by
  rw [keysOf]
  simp only [List.mem_append, mem_sortIdxKeys, List.mem_filter]
  constructor
  · rintro (⟨h, _⟩ | ⟨h, _⟩) <;> exact h
  · intro h
    by_cases hidx : isCanonIdx k
    · exact Or.inl ⟨h, hidx⟩
    · exact Or.inr ⟨h, by simp [hidx]⟩

theorem mem_keysOf_arr {k : String} {es : List J} :
    k ∈ keysOf (.arr es) ↔ ∃ n, n < es.length ∧ k = encIdx n := by
  rw [keysOf]
  simp only [List.mem_map, List.mem_range]
  constructor
  · rintro ⟨n, hn, rfl⟩; exact ⟨n, hn, rfl⟩
  · rintro ⟨n, hn, rfl⟩; exact ⟨n, hn, rfl⟩

/-! ## Path algebra -/

theorem childAt_obj (fs : List (String × J)) (k : String) :
    childAt (.obj fs) k = lookupField fs k := rfl

theorem childAt_arr (es : List J) (k : String) :
    childAt (.arr es) k =
      (match decIdx k with
        | some n => if n < es.length then some (es.getD n .undef) else none
        | none => none) := rfl

theorem setProp_obj_def (fs : List (String × J)) (k : String) (v : J) :
    setProp (.obj fs) k v = .obj (upsertField fs k v) := rfl

theorem setProp_arr_def (es : List J) (k : String) (v : J) :
    setProp (.arr es) k v =
      (match decIdx k with
        | some n => if n < es.length then .arr (setElem es n v) else .arr es
        | none => .arr es) := rfl

theorem getAtPath_nil (d : J) : getAtPath d [] = some d := by cases d <;> rfl

theorem setAtPath_nil (d r : J) : setAtPath d [] r = r := by cases d <;> rfl

theorem getAtPath_cons (d : J) (k : String) (p : List String) :
    getAtPath d (k :: p) = (childAt d k).bind (fun w => getAtPath w p) := by
  cases d with
  | obj fields =>
      rw [childAt, getAtPath]
      cases lookupField fields k <;> rfl
  | arr es =>
      rw [childAt, getAtPath]
      cases decIdx k with
      | none => rfl
      | some n =>
          dsimp only
          by_cases h : n < es.length
          · rw [if_pos h, if_pos h]; rfl
          · rw [if_neg h, if_neg h]; rfl
  | null => rfl
  | undef => rfl
  | bool b => rfl
  | num n => rfl
  | str s => rfl

theorem setAtPath_cons (d : J) (k : String) (p : List String) (r : J) :
    setAtPath d (k :: p) r =
      match childAt d k with
      | some w => setProp d k (setAtPath w p r)
      | none => d := by
  cases d with
  | obj fields =>
      rw [childAt, setAtPath]
      cases lookupField fields k <;> rfl
  | arr es =>
      rw [setAtPath, childAt_arr]
      cases hdk : decIdx k with
      | none => rfl
      | some n =>
          dsimp only
          by_cases h : n < es.length
          · rw [if_pos h, if_pos h]
            dsimp only
            rw [setProp_arr_def, hdk]
            dsimp only
            rw [if_pos h]
          · rw [if_neg h, if_neg h]
  | null => rfl
  | undef => rfl
  | bool b => rfl
  | num n => rfl
  | str s => rfl

theorem getAtPath_append (p : List String) : ∀ (q : List String) (d : J),
    getAtPath d (p ++ q) = (getAtPath d p).bind (fun w => getAtPath w q) := by
  induction p with
  | nil => intro q d; rw [List.nil_append, getAtPath_nil, Option.some_bind]
  | cons k p ih =>
      intro q d
      rw [List.cons_append, getAtPath_cons, getAtPath_cons]
      cases childAt d k with
      | none => rfl
      | some w => exact ih q w

theorem childAt_setProp_self {d : J} {k : String} {w : J}
    (h : childAt d k = some w) (v : J) : childAt (setProp d k v) k = some v := by
  cases d with
  | obj fields =>
      rw [setProp_obj_def, childAt_obj, lookupField_upsert_self]
  | arr es =>
      rw [childAt_arr] at h
      rw [setProp_arr_def]
      cases hdk : decIdx k with
      | none => rw [hdk] at h; cases h
      | some n =>
          rw [hdk] at h
          dsimp only at h ⊢
          by_cases hlt : n < es.length
          · rw [if_pos hlt, childAt_arr, hdk]
            dsimp only
            rw [if_pos (by rw [length_setElem]; exact hlt), getD_setElem_self es n hlt]
          · rw [if_neg hlt] at h; cases h
  | null => cases h
  | undef => cases h
  | bool b => cases h
  | num n => cases h
  | str s => cases h

theorem childAt_setProp_ne {k1 k : String} (hne : k1 ≠ k) (d : J) (v : J) :
    childAt (setProp d k v) k1 = childAt d k1 := by
  cases d with
  | obj fields => rw [setProp_obj_def, childAt_obj, childAt_obj, lookupField_upsert_ne hne]
  | arr es =>
      rw [setProp_arr_def]
      cases hdk : decIdx k with
      | none => rfl
      | some n =>
          dsimp only
          by_cases hlt : n < es.length
          · rw [if_pos hlt, childAt_arr, childAt_arr]
            cases hdk1 : decIdx k1 with
            | none => rfl
            | some m =>
                dsimp only
                have hnm : n ≠ m := by
                  intro hEq
                  subst hEq
                  exact hne (decIdx_inj hdk1 hdk)
                rw [length_setElem]
                by_cases hm : m < es.length
                · rw [if_pos hm, if_pos hm, getD_setElem_ne es n m hnm]
                · rw [if_neg hm, if_neg hm]
          · rw [if_neg hlt]
  | null => rfl
  | undef => rfl
  | bool b => rfl
  | num n => rfl
  | str s => rfl

theorem setProp_self {d : J} {k : String} {w : J} (h : childAt d k = some w) :
    setProp d k w = d := by
  cases d with
  | obj fields =>
      rw [childAt_obj] at h
      rw [setProp_obj_def, upsertField_self_eq h]
  | arr es =>
      rw [childAt_arr] at h
      rw [setProp_arr_def]
      cases hdk : decIdx k with
      | none => rfl
      | some n =>
          rw [hdk] at h
          dsimp only at h ⊢
          by_cases hlt : n < es.length
          · rw [if_pos hlt] at h
            cases h
            rw [if_pos hlt, setElem_self es n hlt]
          · rw [if_neg hlt]
  | null => rfl
  | undef => rfl
  | bool b => rfl
  | num n => rfl
  | str s => rfl

theorem getAtPath_setAtPath : ∀ (p : List String) (d : J) (w r : J),
    getAtPath d p = some w → getAtPath (setAtPath d p r) p = some r := by
  intro p
  induction p with
  | nil => intro d w r _; rw [setAtPath_nil, getAtPath_nil]
  | cons k p ih =>
      intro d w r h
      rw [getAtPath_cons] at h
      cases hc : childAt d k with
      | none => rw [hc] at h; cases h
      | some w0 =>
          rw [hc] at h
          rw [setAtPath_cons, hc]
          dsimp only
          rw [getAtPath_cons, childAt_setProp_self hc]
          exact ih w0 w r h

theorem setAtPath_self : ∀ (p : List String) (d : J) (w : J),
    getAtPath d p = some w → setAtPath d p w = d := by
  intro p
  induction p with
  | nil =>
      intro d w h
      rw [getAtPath_nil] at h
      cases h
      rw [setAtPath_nil]
  | cons k p ih =>
      intro d w h
      rw [getAtPath_cons] at h
      cases hc : childAt d k with
      | none => rw [hc] at h; cases h
      | some w0 =>
          rw [hc] at h
          rw [setAtPath_cons, hc]
          dsimp only
          rw [ih w0 w h, setProp_self hc]

theorem setAtPath_of_getAtPath_none : ∀ (p : List String) (d : J) (r : J),
    getAtPath d p = none → setAtPath d p r = d := by
  intro p
  induction p with
  | nil => intro d r h; rw [getAtPath_nil] at h; cases h
  | cons k p ih =>
      intro d r h
      rw [getAtPath_cons] at h
      rw [setAtPath_cons]
      cases hc : childAt d k with
      | none => rfl
      | some w0 =>
          rw [hc] at h
          dsimp only
          rw [ih w0 r h, setProp_self hc]

theorem getAtPath_setAtPath_extend : ∀ (p : List String) (t : List String) (d r : J),
    getAtPath (setAtPath d (p ++ t) r) p =
      match getAtPath d p with
      | some w => some (setAtPath w t r)
      | none => none := by
  intro p
  induction p with
  | nil => intro t d r; rw [List.nil_append, getAtPath_nil, getAtPath_nil]
  | cons k p ih =>
      intro t d r
      rw [List.cons_append, setAtPath_cons, getAtPath_cons]
      cases hc : childAt d k with
      | none => rw [getAtPath_cons, hc]; rfl
      | some w0 =>
          rw [getAtPath_cons, hc]
          dsimp only
          rw [childAt_setProp_self hc]
          exact ih t w0 r

theorem getAtPath_setAtPath_divergent {a b : String} (hne : a ≠ b) :
    ∀ (u : List String) (tp tq : List String) (d r : J),
      getAtPath (setAtPath d (u ++ a :: tp) r) (u ++ b :: tq)
        = getAtPath d (u ++ b :: tq) := by
  intro u
  induction u with
  | nil =>
      intro tp tq d r
      rw [List.nil_append, List.nil_append, setAtPath_cons]
      cases hc : childAt d a with
      | none => rfl
      | some w0 =>
          rw [getAtPath_cons, getAtPath_cons, childAt_setProp_ne (Ne.symm hne)]
  | cons k u ih =>
      intro tp tq d r
      rw [List.cons_append, List.cons_append, setAtPath_cons]
      cases hc : childAt d k with
      | none => rfl
      | some w0 =>
          rw [getAtPath_cons, getAtPath_cons, childAt_setProp_self hc, hc]
          rw [Option.some_bind, Option.some_bind, ih]

/-! ## Predicates under access and update -/

theorem noTruthyRef_scalar {v : J} (h : isObjLike v = false) : noTruthyRef v = true := by
  cases v <;> first | rfl | (rw [isObjLike] at h; cases h)

theorem falsy_not_objLike {v : J} (h : truthy v = false) : isObjLike v = false := by
  cases v <;> first | rfl | (rw [truthy] at h; cases h)

theorem setAtPath_scalar {v : J} (h : isObjLike v = false) (k : String)
    (p : List String) (r : J) : setAtPath v (k :: p) r = v := by
  cases v <;> first | rfl | (rw [isObjLike] at h; cases h)

theorem getLast?_cons_ne_nil {p : List String} (h : p ≠ []) (k : String) :
    (k :: p).getLast? = p.getLast? := by
  cases p with
  | nil => exact absurd rfl h
  | cons a t => exact List.getLast?_cons_cons ..

theorem noTruthyRefFields_mem : ∀ {fs : List (String × J)} {k : String} {v : J},
    noTruthyRefFields fs = true → (k, v) ∈ fs →
      noTruthyRef v = true ∧ (k = "$ref" → truthy v = false) := by
  intro fs
  induction fs with
  | nil => intro k v _ hm; cases hm
  | cons f t ih =>
      intro k v hf hm
      obtain ⟨k1, v1⟩ := f
      rw [noTruthyRefFields, Bool.and_eq_true, Bool.and_eq_true] at hf
      obtain ⟨⟨h1, h2⟩, h3⟩ := hf
      rcases List.mem_cons.mp hm with h4 | h4
      · cases h4
        refine ⟨h2, fun hr => ?_⟩
        rw [if_pos hr] at h1
        simpa using h1
      · exact ih h3 h4

theorem noTruthyRefFields_of_forall : ∀ {fs : List (String × J)},
    (∀ kv ∈ fs, noTruthyRef kv.2 = true ∧ (kv.1 = "$ref" → truthy kv.2 = false)) →
      noTruthyRefFields fs = true := by
  intro fs
  induction fs with
  | nil => intro _; rfl
  | cons f t ih =>
      intro h
      obtain ⟨k1, v1⟩ := f
      obtain ⟨h1, h2⟩ := h (k1, v1) (.head _)
      rw [noTruthyRefFields, Bool.and_eq_true, Bool.and_eq_true]
      refine ⟨⟨?_, h1⟩, ih fun kv hm => h kv (.tail _ hm)⟩
      by_cases hr : k1 = "$ref"
      · rw [if_pos hr, h2 hr]; rfl
      · rw [if_neg hr]

theorem noTruthyRefList_mem : ∀ {es : List J} {v : J},
    noTruthyRefList es = true → v ∈ es → noTruthyRef v = true := by
  intro es
  induction es with
  | nil => intro v _ hm; cases hm
  | cons e t ih =>
      intro v h hm
      rw [noTruthyRefList, Bool.and_eq_true] at h
      rcases List.mem_cons.mp hm with h4 | h4
      · exact h4 ▸ h.1
      · exact ih h.2 h4

theorem noTruthyRefList_of_forall : ∀ {es : List J},
    (∀ v ∈ es, noTruthyRef v = true) → noTruthyRefList es = true := by
  intro es
  induction es with
  | nil => intro _; rfl
  | cons e t ih =>
      intro h
      rw [noTruthyRefList, Bool.and_eq_true]
      exact ⟨h e (.head _), ih fun v hm => h v (.tail _ hm)⟩

theorem noTruthyRef_childAt {d : J} {k : String} {w : J}
    (hd : noTruthyRef d = true) (h : childAt d k = some w) : noTruthyRef w = true := by
  cases d with
  | obj fields =>
      rw [childAt_obj] at h
      exact (noTruthyRefFields_mem hd (lookupField_mem h)).1
  | arr es =>
      rw [childAt_arr] at h
      cases hdk : decIdx k with
      | none => rw [hdk] at h; cases h
      | some n =>
          rw [hdk] at h
          dsimp only at h
          by_cases hlt : n < es.length
          · rw [if_pos hlt] at h
            cases h
            exact noTruthyRefList_mem hd (getD_mem es n hlt .undef)
          · rw [if_neg hlt] at h; cases h
  | null => cases h
  | undef => cases h
  | bool b => cases h
  | num n => cases h
  | str s => cases h

theorem noTruthyRef_getAtPath : ∀ {p : List String} {d w : J},
    noTruthyRef d = true → getAtPath d p = some w → noTruthyRef w = true := by
  intro p
  induction p with
  | nil => intro d w hd h; rw [getAtPath_nil] at h; cases h; exact hd
  | cons k p ih =>
      intro d w hd h
      rw [getAtPath_cons] at h
      cases hc : childAt d k with
      | none => rw [hc] at h; cases h
      | some w0 =>
          rw [hc] at h
          exact ih (noTruthyRef_childAt hd hc) h

theorem ref_childAt_falsy {d : J} {w : J}
    (hd : noTruthyRef d = true) (h : childAt d "$ref" = some w) : truthy w = false := by
  cases d with
  | obj fields =>
      rw [childAt_obj] at h
      exact (noTruthyRefFields_mem hd (lookupField_mem h)).2 rfl
  | arr es =>
      rw [childAt_arr] at h
      rw [show decIdx "$ref" = none from rfl] at h
      cases h
  | null => cases h
  | undef => cases h
  | bool b => cases h
  | num n => cases h
  | str s => cases h

theorem noTruthyRefFields_upsert {fs : List (String × J)} {k : String} {v : J}
    (hfs : noTruthyRefFields fs = true) (hv : noTruthyRef v = true)
    (href : k = "$ref" → truthy v = false) :
    noTruthyRefFields (upsertField fs k v) = true := by
  induction fs with
  | nil =>
      rw [upsertField, noTruthyRefFields, noTruthyRefFields]
      simp only [Bool.and_true, Bool.and_eq_true]
      refine ⟨?_, hv⟩
      by_cases hr : k = "$ref"
      · rw [if_pos hr, href hr]; rfl
      · rw [if_neg hr]
  | cons f t ih =>
      obtain ⟨k1, v1⟩ := f
      rw [noTruthyRefFields, Bool.and_eq_true, Bool.and_eq_true] at hfs
      obtain ⟨⟨h1, h2⟩, h3⟩ := hfs
      rw [upsertField]
      by_cases hk : k1 = k
      · subst hk
        rw [if_pos rfl, noTruthyRefFields, Bool.and_eq_true, Bool.and_eq_true]
        refine ⟨⟨?_, hv⟩, h3⟩
        by_cases hr : k1 = "$ref"
        · rw [if_pos hr, href hr]; rfl
        · rw [if_neg hr]
      · rw [if_neg hk, noTruthyRefFields, Bool.and_eq_true, Bool.and_eq_true]
        exact ⟨⟨h1, h2⟩, ih h3⟩

theorem noTruthyRefList_setElem {es : List J} {v : J}
    (hes : noTruthyRefList es = true) (hv : noTruthyRef v = true) :
    ∀ n, noTruthyRefList (setElem es n v) = true := by
  induction es with
  | nil => intro n; rfl
  | cons e t ih =>
      intro n
      rw [noTruthyRefList, Bool.and_eq_true] at hes
      cases n with
      | zero =>
          rw [setElem, noTruthyRefList, Bool.and_eq_true]
          exact ⟨hv, hes.2⟩
      | succ m =>
          rw [setElem, noTruthyRefList, Bool.and_eq_true]
          exact ⟨hes.1, ih hes.2 m⟩

theorem noTruthyRef_setAtPath : ∀ {p : List String} {d r : J},
    noTruthyRef d = true → noTruthyRef r = true →
    (p.getLast? = some "$ref" → truthy r = false) →
    noTruthyRef (setAtPath d p r) = true := by
  intro p
  induction p with
  | nil => intro d r _ hr _; rw [setAtPath_nil]; exact hr
  | cons k p ih =>
      intro d r hd hr hlast
      rw [setAtPath_cons]
      cases hc : childAt d k with
      | none => exact hd
      | some w =>
          dsimp only
          have hw : noTruthyRef w = true := noTruthyRef_childAt hd hc
          have hv' : noTruthyRef (setAtPath w p r) = true := by
            apply ih hw hr

            intro hp
            apply hlast
            cases p with
            | nil => cases hp
            | cons a t => rw [getLast?_cons_ne_nil (by simp) k]; exact hp
          have href' : k = "$ref" → truthy (setAtPath w p r) = false := by
            intro hkr
            subst hkr
            have hwf : truthy w = false := ref_childAt_falsy hd hc
            cases p with
            | nil =>
                rw [setAtPath_nil]
                exact hlast rfl
            | cons a t =>
                rw [setAtPath_scalar (falsy_not_objLike hwf)]
                exact hwf
          cases d with
          | obj fields =>
              rw [setProp_obj_def]
              exact noTruthyRefFields_upsert hd hv' href'
          | arr es =>
              rw [setProp_arr_def]
              cases hdk : decIdx k with
              | none => exact hd
              | some n =>
                  dsimp only
                  by_cases hlt : n < es.length
                  · rw [if_pos hlt]
                    exact noTruthyRefList_setElem hd hv' n
                  · rw [if_neg hlt]; exact hd
          | null => cases hc
          | undef => cases hc
          | bool b => cases hc
          | num n => cases hc
          | str s => cases hc

/-! ## Well-formedness under access and update -/

theorem wf_scalar {v : J} (h : isObjLike v = false) : wfJ v = true := by
  cases v <;> first | rfl | (rw [isObjLike] at h; cases h)

theorem wfFields_mem : ∀ {fs : List (String × J)} {k : String} {v : J},
    wfFields fs = true → (k, v) ∈ fs → wfJ v = true := by
  intro fs
  induction fs with
  | nil => intro k v _ hm; cases hm
  | cons f t ih =>
      intro k v hf hm
      obtain ⟨k1, v1⟩ := f
      rw [wfFields, Bool.and_eq_true] at hf
      rcases List.mem_cons.mp hm with h4 | h4
      · cases h4; exact hf.1
      · exact ih hf.2 h4

theorem wfList_mem : ∀ {es : List J} {v : J},
    wfList es = true → v ∈ es → wfJ v = true := by
  intro es
  induction es with
  | nil => intro v _ hm; cases hm
  | cons e t ih =>
      intro v h hm
      rw [wfList, Bool.and_eq_true] at h
      rcases List.mem_cons.mp hm with h4 | h4
      · exact h4 ▸ h.1
      · exact ih h.2 h4

theorem wf_obj_parts {fs : List (String × J)} (h : wfJ (.obj fs) = true) :
    nodupKeys (fs.map Prod.fst) = true ∧ wfFields fs = true := by
  rw [wfJ, Bool.and_eq_true] at h
  exact h

theorem wf_childAt {d : J} {k : String} {w : J}
    (hd : wfJ d = true) (h : childAt d k = some w) : wfJ w = true := by
  cases d with
  | obj fields =>
      rw [childAt_obj] at h
      exact wfFields_mem (wf_obj_parts hd).2 (lookupField_mem h)
  | arr es =>
      rw [childAt_arr] at h
      cases hdk : decIdx k with
      | none => rw [hdk] at h; cases h
      | some n =>
          rw [hdk] at h
          dsimp only at h
          by_cases hlt : n < es.length
          · rw [if_pos hlt] at h
            cases h
            exact wfList_mem hd (getD_mem es n hlt .undef)
          · rw [if_neg hlt] at h; cases h
  | null => cases h
  | undef => cases h
  | bool b => cases h
  | num n => cases h
  | str s => cases h

theorem wf_getAtPath : ∀ {p : List String} {d w : J},
    wfJ d = true → getAtPath d p = some w → wfJ w = true := by
  intro p
  induction p with
  | nil => intro d w hd h; rw [getAtPath_nil] at h; cases h; exact hd
  | cons k p ih =>
      intro d w hd h
      rw [getAtPath_cons] at h
      cases hc : childAt d k with
      | none => rw [hc] at h; cases h
      | some w0 =>
          rw [hc] at h
          exact ih (wf_childAt hd hc) h

theorem wfFields_upsert {fs : List (String × J)} {k : String} {v : J}
    (hfs : wfFields fs = true) (hv : wfJ v = true) :
    wfFields (upsertField fs k v) = true := by
  induction fs with
  | nil =>
      rw [upsertField, wfFields, wfFields, hv]
      rfl
  | cons f t ih =>
      obtain ⟨k1, v1⟩ := f
      rw [wfFields, Bool.and_eq_true] at hfs
      rw [upsertField]
      by_cases hk : k1 = k
      · rw [if_pos hk, wfFields, Bool.and_eq_true]
        exact ⟨hv, hfs.2⟩
      · rw [if_neg hk, wfFields, Bool.and_eq_true]
        exact ⟨hfs.1, ih hfs.2⟩

theorem wfList_setElem {es : List J} {v : J}
    (hes : wfList es = true) (hv : wfJ v = true) :
    ∀ n, wfList (setElem es n v) = true := by
  induction es with
  | nil => intro n; rfl
  | cons e t ih =>
      intro n
      rw [wfList, Bool.and_eq_true] at hes
      cases n with
      | zero => rw [setElem, wfList, Bool.and_eq_true]; exact ⟨hv, hes.2⟩
      | succ m => rw [setElem, wfList, Bool.and_eq_true]; exact ⟨hes.1, ih hes.2 m⟩

theorem wf_setProp {d : J} {k : String} {w v : J}
    (hd : wfJ d = true) (hv : wfJ v = true) (hc : childAt d k = some w) :
    wfJ (setProp d k v) = true := by
  cases d with
  | obj fields =>
      rw [childAt_obj] at hc
      obtain ⟨h1, h2⟩ := wf_obj_parts hd
      rw [setProp_obj_def, wfJ, Bool.and_eq_true]
      rw [upsertField_keys (by rw [hc]; rfl)]
      exact ⟨h1, wfFields_upsert h2 hv⟩
  | arr es =>
      rw [childAt_arr] at hc
      rw [setProp_arr_def]
      cases hdk : decIdx k with
      | none => exact hd
      | some n =>
          dsimp only
          by_cases hlt : n < es.length
          · rw [if_pos hlt]
            exact wfList_setElem hd hv n
          · rw [if_neg hlt]; exact hd
  | null => cases hc
  | undef => cases hc
  | bool b => cases hc
  | num n => cases hc
  | str s => cases hc

theorem wf_setAtPath : ∀ {p : List String} {d r : J},
    wfJ d = true → wfJ r = true → wfJ (setAtPath d p r) = true := by
  intro p
  induction p with
  | nil => intro d r _ hr; rw [setAtPath_nil]; exact hr
  | cons k p ih =>
      intro d r hd hr
      rw [setAtPath_cons]
      cases hc : childAt d k with
      | none => exact hd
      | some w =>
          dsimp only
          exact wf_setProp hd (ih (wf_childAt hd hc) hr) hc

/-! ## Spread fields: membership and goodness -/

theorem get?_getD (l : List J) : ∀ n x, l.get? n = some x ↔
    (n < l.length ∧ x = l.getD n .undef) := by
  induction l with
  | nil =>
      intro n x
      constructor
      · intro h; cases n <;> cases h
      · intro h; simp at h
  | cons e t ih =>
      intro n x
      cases n with
      | zero =>
          constructor
          · intro h; cases h; exact ⟨by simp, rfl⟩
          · intro ⟨_, h2⟩; rw [h2]; rfl
      | succ m =>
          constructor
          · intro h
            obtain ⟨h1, h2⟩ := (ih m x).mp h
            exact ⟨by simpa using Nat.succ_lt_succ h1, h2⟩
          · intro ⟨h1, h2⟩
            exact (ih m x).mpr ⟨by simpa using h1, h2⟩

theorem mem_spread_arr {es : List J} {kv : String × J} :
    kv ∈ spreadFields (.arr es) ↔
      ∃ n, n < es.length ∧ kv = (encIdx n, es.getD n .undef) := by
  rw [spreadFields]
  simp only [List.mem_map]
  constructor
  · rintro ⟨⟨i, x⟩, hm, rfl⟩
    have h := List.mem_enum_iff_get?.mp hm
    obtain ⟨h1, h2⟩ := (get?_getD es i x).mp h
    exact ⟨i, h1, by rw [h2]⟩
  · rintro ⟨n, h1, rfl⟩
    refine ⟨(n, es.getD n .undef), ?_, rfl⟩
    exact List.mem_enum_iff_get?.mpr ((get?_getD es n _).mpr ⟨h1, rfl⟩)

theorem childAt_mem_spread {v : J} {k : String} {w : J}
    (h : childAt v k = some w) : (k, w) ∈ spreadFields v := by
  cases v with
  | obj fields =>
      rw [childAt_obj] at h
      rw [spreadFields]
      exact lookupField_mem h
  | arr es =>
      rw [childAt_arr] at h
      cases hdk : decIdx k with
      | none => rw [hdk] at h; cases h
      | some n =>
          rw [hdk] at h
          dsimp only at h
          by_cases hlt : n < es.length
          · rw [if_pos hlt] at h
            cases h
            exact mem_spread_arr.mpr ⟨n, hlt, by rw [encIdx_of_decIdx hdk]⟩
          · rw [if_neg hlt] at h; cases h
  | null => cases h
  | undef => cases h
  | bool b => cases h
  | num n => cases h
  | str s => cases h

theorem childAt_none_not_spread {v : J} {k : String} (hobj : isObjLike v = true)
    (h : childAt v k = none) : ∀ kv ∈ spreadFields v, kv.1 ≠ k := by
  intro kv hm hk
  cases v with
  | obj fields =>
      rw [childAt_obj] at h
      obtain ⟨k1, v1⟩ := kv
      cases hk
      rw [spreadFields] at hm
      have h2 := @lookupField_isSome_of_mem fields k1
        (List.mem_map.mpr ⟨(k1, v1), hm, rfl⟩)
      rw [h] at h2
      cases h2
  | arr es =>
      obtain ⟨n, hn, hkv⟩ := mem_spread_arr.mp hm
      rw [childAt_arr] at h
      cases hkv
      cases hk
      rw [decIdx_encIdx] at h
      dsimp only at h
      rw [if_pos hn] at h
      cases h
  | null => simp [isObjLike] at hobj
  | undef => simp [isObjLike] at hobj
  | bool b => simp [isObjLike] at hobj
  | num n => simp [isObjLike] at hobj
  | str s => simp [isObjLike] at hobj

theorem mem_getD (l : List J) : ∀ x, x ∈ l ↔
    ∃ n, n < l.length ∧ x = l.getD n .undef := by
  induction l with
  | nil =>
      intro x
      constructor
      · intro h; cases h
      · rintro ⟨n, hn, _⟩; simp at hn
  | cons e t ih =>
      intro x
      constructor
      · intro h
        rcases List.mem_cons.mp h with h1 | h1
        · exact ⟨0, by simp, h1⟩
        · obtain ⟨n, hn, hx⟩ := (ih x).mp h1
          exact ⟨n + 1, by simpa using Nat.succ_lt_succ hn, hx⟩
      · rintro ⟨n, hn, rfl⟩
        cases n with
        | zero => exact .head _
        | succ m => exact .tail _ ((ih _).mpr ⟨m, by simpa using hn, rfl⟩)

theorem goodF_parts {k : String} {v : J} (h : goodF k v = true) :
    noTruthyRef v = true ∧ (k = "$ref" → truthy v = false) := by
  rw [goodF, Bool.and_eq_true] at h
  refine ⟨h.1, fun hr => ?_⟩
  have h2 := h.2
  rw [if_pos hr] at h2
  simpa using h2

theorem goodF_intro {k : String} {v : J} (h1 : noTruthyRef v = true)
    (h2 : k = "$ref" → truthy v = false) : goodF k v = true := by
  rw [goodF, Bool.and_eq_true]
  refine ⟨h1, ?_⟩
  by_cases hr : k = "$ref"
  · rw [if_pos hr, h2 hr]; rfl
  · rw [if_neg hr]

theorem spread_good_of_noTruthyRef {r : J} (hr : noTruthyRef r = true) :
    ∀ kv ∈ spreadFields r, goodF kv.1 kv.2 = true := by
  intro kv hm
  cases r with
  | obj fields =>
      rw [spreadFields] at hm
      obtain ⟨k1, v1⟩ := kv
      obtain ⟨h1, h2⟩ := noTruthyRefFields_mem hr hm
      exact goodF_intro h1 h2
  | arr es =>
      obtain ⟨n, hn, hkv⟩ := mem_spread_arr.mp hm
      cases hkv
      refine goodF_intro (noTruthyRefList_mem hr (getD_mem es n hn .undef)) ?_
      intro hk
      exact absurd hk (encIdx_ne_ref n)
  | null => cases hm
  | undef => cases hm
  | bool b => cases hm
  | num n => cases hm
  | str s =>
      rw [spreadFields] at hm
      simp only [List.mem_map] at hm
      obtain ⟨⟨i, c⟩, _, heq⟩ := hm
      cases heq
      exact goodF_intro rfl (fun hk => absurd hk (encIdx_ne_ref i))

theorem noTruthyRef_of_spread {v : J} (hobj : isObjLike v = true)
    (h : ∀ kv ∈ spreadFields v, goodF kv.1 kv.2 = true) : noTruthyRef v = true := by
  cases v with
  | obj fields =>
      rw [noTruthyRef]
      apply noTruthyRefFields_of_forall
      intro kv hm
      exact goodF_parts (h kv hm)
  | arr es =>
      rw [noTruthyRef]
      apply noTruthyRefList_of_forall
      intro x hm
      obtain ⟨n, hn, hx⟩ := (mem_getD es x).mp hm
      have hmem : (encIdx n, x) ∈ spreadFields (.arr es) :=
        mem_spread_arr.mpr ⟨n, hn, by rw [hx]⟩
      exact (goodF_parts (h _ hmem)).1
  | null => simp [isObjLike] at hobj
  | undef => simp [isObjLike] at hobj
  | bool b => simp [isObjLike] at hobj
  | num n => simp [isObjLike] at hobj
  | str s => simp [isObjLike] at hobj

theorem path_trichotomy : ∀ (p q : List String),
    (∃ t, q = p ++ t) ∨ (∃ t, p = q ++ t) ∨
      (∃ u a b tp tq, a ≠ b ∧ p = u ++ a :: tp ∧ q = u ++ b :: tq) := by
  intro p
  induction p with
  | nil => intro q; exact Or.inl ⟨q, rfl⟩
  | cons x p ih =>
      intro q
      cases q with
      | nil => exact Or.inr (Or.inl ⟨x :: p, rfl⟩)
      | cons y q =>
          by_cases hxy : x = y
          · subst hxy
            rcases ih q with ⟨t, ht⟩ | ⟨t, ht⟩ | ⟨u, a, b, tp, tq, hab, hp, hq⟩
            · exact Or.inl ⟨t, by rw [ht]; rfl⟩
            · exact Or.inr (Or.inl ⟨t, by rw [ht]; rfl⟩)
            · exact Or.inr (Or.inr ⟨x :: u, a, b, tp, tq, hab,
                by rw [hp]; rfl, by rw [hq]; rfl⟩)
          · exact Or.inr (Or.inr ⟨[], x, y, p, q, hxy, rfl, rfl⟩)


/-! ## Miscellaneous helper lemmas -/

theorem truthy_of_objLike {v : J} (h : isObjLike v = true) : truthy v = true := by
  cases v <;> first | rfl | (simp [isObjLike] at h)

theorem childAt_isSome_objLike {v : J} {k : String} {w : J}
    (h : childAt v k = some w) : isObjLike v = true := by
  cases v <;> first | rfl | cases h

theorem lookupField_none_not_mem : ∀ {fs : List (String × J)} {k : String},
    lookupField fs k = none → k ∉ fs.map Prod.fst := by
  intro fs k h hm
  have h2 := lookupField_isSome_of_mem hm
  rw [h] at h2
  cases h2

theorem lookupField_of_mem_nodup : ∀ {fs : List (String × J)} {k : String} {v : J},
    nodupKeys (fs.map Prod.fst) = true → (k, v) ∈ fs → lookupField fs k = some v := by
  intro fs
  induction fs with
  | nil => intro k v _ hm; cases hm
  | cons f t ih =>
      intro k v hnd hm
      obtain ⟨k1, v1⟩ := f
      rw [List.map_cons, nodupKeys, Bool.and_eq_true] at hnd
      rcases List.mem_cons.mp hm with h1 | h1
      · cases h1
        rw [lookupField, if_pos rfl]
      · rw [lookupField]
        by_cases hk : k1 = k
        · subst hk
          exfalso
          have hmem : k1 ∈ t.map Prod.fst := List.mem_map.mpr ⟨(k1, v), h1, rfl⟩
          have := hnd.1
          rw [Bool.not_eq_true', ← Bool.not_eq_true] at this
          exact this (List.contains_iff_exists_mem_beq.mpr
            ⟨k1, hmem, by simp⟩)
        · rw [if_neg hk]
          exact ih hnd.2 h1

theorem spread_key_mem_keysOf {v : J} (hobj : isObjLike v = true) :
    ∀ kv ∈ spreadFields v, kv.1 ∈ keysOf v := by
  intro kv hm
  cases v with
  | obj fields =>
      rw [spreadFields] at hm
      exact mem_keysOf_obj.mpr (List.mem_map.mpr ⟨kv, hm, rfl⟩)
  | arr es =>
      obtain ⟨n, hn, hkv⟩ := mem_spread_arr.mp hm
      cases hkv
      exact mem_keysOf_arr.mpr ⟨n, hn, rfl⟩
  | null => simp [isObjLike] at hobj
  | undef => simp [isObjLike] at hobj
  | bool b => simp [isObjLike] at hobj
  | num n => simp [isObjLike] at hobj
  | str s => simp [isObjLike] at hobj

theorem wf_getProp {v : J} (hv : wfJ v = true) (k : String) :
    wfJ (getProp v k) = true := by
  cases v with
  | obj fields =>
      rw [getProp_obj]
      cases hl : lookupField fields k with
      | none => rfl
      | some w => exact wfFields_mem (wf_obj_parts hv).2 (lookupField_mem hl)
  | arr es =>
      rw [getProp]
      by_cases hlen : k = "length"
      · rw [if_pos hlen]; rfl
      · rw [if_neg hlen]
        cases decIdx k with
        | none => rfl
        | some n =>
            dsimp only
            by_cases hlt : n < es.length
            · rw [if_pos hlt]
              exact wfList_mem hv (getD_mem es n hlt .undef)
            · rw [if_neg hlt]; rfl
  | str s =>
      rw [getProp]
      by_cases hlen : k = "length"
      · rw [if_pos hlen]; rfl
      · rw [if_neg hlen]
        cases decIdx k with
        | none => rfl
        | some n =>
            dsimp only
            by_cases hlt : n < s.data.length
            · rw [if_pos hlt]; rfl
            · rw [if_neg hlt]; rfl
  | null => rfl
  | undef => rfl
  | bool b => rfl
  | num n => rfl

theorem nodupKeys_append_singleton {l : List String} {k : String}
    (hnd : nodupKeys l = true) (hk : k ∉ l) : nodupKeys (l ++ [k]) = true := by
  induction l with
  | nil => rfl
  | cons a t ih =>
      rw [List.cons_append, nodupKeys, Bool.and_eq_true]
      rw [nodupKeys, Bool.and_eq_true] at hnd
      refine ⟨?_, ih hnd.2 (fun hm => hk (.tail _ hm))⟩
      rw [Bool.not_eq_true', ← Bool.not_eq_true]
      intro hcon
      obtain ⟨x, hxm, hxe⟩ := List.contains_iff_exists_mem_beq.mp hcon
      have hax : a = x := by simpa using hxe
      subst hax
      rcases List.mem_append.mp hxm with h1 | h1
      · have := hnd.1
        rw [Bool.not_eq_true', ← Bool.not_eq_true] at this
        exact this (List.contains_iff_exists_mem_beq.mpr ⟨a, h1, by simp⟩)
      · rcases List.mem_singleton.mp h1 with rfl
        exact hk (.head _)

theorem upsertField_keys_absent : ∀ {fs : List (String × J)} {k : String},
    lookupField fs k = none → ∀ v,
      (upsertField fs k v).map Prod.fst = fs.map Prod.fst ++ [k] := by
  intro fs
  induction fs with
  | nil => intro k _ v; rfl
  | cons f t ih =>
      intro k h v
      obtain ⟨k1, v1⟩ := f
      rw [lookupField] at h
      by_cases hk : k1 = k
      · rw [if_pos hk] at h; cases h
      · rw [if_neg hk] at h
        rw [upsertField, if_neg hk, List.map_cons, List.map_cons, ih h v,
          List.cons_append]

theorem wf_setProp_total {d : J} {v : J} (hd : wfJ d = true) (hv : wfJ v = true)
    (k : String) : wfJ (setProp d k v) = true := by
  cases d with
  | obj fields =>
      obtain ⟨h1, h2⟩ := wf_obj_parts hd
      rw [setProp_obj_def, wfJ, Bool.and_eq_true]
      refine ⟨?_, wfFields_upsert h2 hv⟩
      cases hl : lookupField fields k with
      | none =>
          rw [upsertField_keys_absent hl v]
          exact nodupKeys_append_singleton h1 (lookupField_none_not_mem hl)
      | some w =>
          rw [upsertField_keys (by rw [hl]; rfl)]
          exact h1
  | arr es =>
      rw [setProp_arr_def]
      cases decIdx k with
      | none => exact hd
      | some n =>
          dsimp only
          by_cases hlt : n < es.length
          · rw [if_pos hlt]
            exact wfList_setElem hd hv n
          · rw [if_neg hlt]; exact hd
  | null => exact hd
  | undef => exact hd
  | bool b => exact hd
  | num n => exact hd
  | str s => exact hd

theorem isObjLike_setProp (d : J) (k : String) (v : J) :
    isObjLike (setProp d k v) = isObjLike d := by
  cases d with
  | obj fields => rfl
  | arr es =>
      rw [setProp_arr_def]
      cases decIdx k with
      | none => rfl
      | some n =>
          dsimp only
          by_cases hlt : n < es.length
          · rw [if_pos hlt]
            rfl
          · rw [if_neg hlt]
  | null => rfl
  | undef => rfl
  | bool b => rfl
  | num n => rfl
  | str s => rfl

theorem mem_upsert_nodup : ∀ {fs : List (String × J)} {k : String} {v : J}
    {kv : String × J}, nodupKeys (fs.map Prod.fst) = true →
    kv ∈ upsertField fs k v → (kv ∈ fs ∧ kv.1 ≠ k) ∨ kv = (k, v) := by
  intro fs
  induction fs with
  | nil =>
      intro k v kv _ hm
      rcases List.mem_singleton.mp hm with rfl
      exact Or.inr rfl
  | cons f t ih =>
      intro k v kv hnd hm
      obtain ⟨k1, v1⟩ := f
      rw [List.map_cons, nodupKeys, Bool.and_eq_true] at hnd
      rw [upsertField] at hm
      by_cases hk : k1 = k
      · subst hk
        rw [if_pos rfl] at hm
        rcases List.mem_cons.mp hm with h1 | h1
        · exact Or.inr h1
        · refine Or.inl ⟨.tail _ h1, ?_⟩
          intro hkk
          have hmem : k1 ∈ t.map Prod.fst := by
            rw [← hkk]
            exact List.mem_map.mpr ⟨kv, h1, rfl⟩
          have := hnd.1
          rw [Bool.not_eq_true', ← Bool.not_eq_true] at this
          exact this (List.contains_iff_exists_mem_beq.mpr ⟨k1, hmem, by simp⟩)
      · rw [if_neg hk] at hm
        rcases List.mem_cons.mp hm with h1 | h1
        · cases h1
          exact Or.inl ⟨.head _, hk⟩
        · rcases ih hnd.2 h1 with ⟨h2, h3⟩ | h2
          · exact Or.inl ⟨.tail _ h2, h3⟩
          · exact Or.inr h2

theorem mem_spread_setProp {v : J} {k : String} {r : J} (hv : wfJ v = true)
    (hobj : isObjLike v = true) :
    ∀ kv ∈ spreadFields (setProp v k r),
      (kv ∈ spreadFields v ∧ kv.1 ≠ k) ∨ kv = (k, r) := by
  intro kv hm
  cases v with
  | obj fields =>
      rw [setProp_obj_def, spreadFields] at hm
      rw [spreadFields]
      exact mem_upsert_nodup (wf_obj_parts hv).1 hm
  | arr es =>
      rw [setProp_arr_def] at hm
      cases hdk : decIdx k with
      | none =>
          rw [hdk] at hm
          refine Or.inl ⟨hm, ?_⟩
          obtain ⟨n, hn, hkv⟩ := mem_spread_arr.mp hm
          cases hkv
          intro hke
          rw [← hke, decIdx_encIdx] at hdk
          cases hdk
      | some n =>
          rw [hdk] at hm
          dsimp only at hm
          have hken : k = encIdx n := encIdx_of_decIdx hdk
          by_cases hlt : n < es.length
          · rw [if_pos hlt] at hm
            obtain ⟨i, hi, hkv⟩ := mem_spread_arr.mp hm
            cases hkv
            rw [length_setElem] at hi
            by_cases hin : i = n
            · subst hin
              rw [getD_setElem_self es i hi]
              exact Or.inr (by rw [hken])
            · rw [getD_setElem_ne es n i (fun hh => hin hh.symm)]
              refine Or.inl ⟨mem_spread_arr.mpr ⟨i, hi, rfl⟩, ?_⟩
              rw [hken]
              intro hh
              exact hin (encIdx_inj hh)
          · rw [if_neg hlt] at hm
            obtain ⟨i, hi, hkv⟩ := mem_spread_arr.mp hm
            cases hkv
            refine Or.inl ⟨hm, ?_⟩
            rw [hken]
            intro hh
            have := encIdx_inj hh
            omega
  | null => simp [isObjLike] at hobj
  | undef => simp [isObjLike] at hobj
  | bool b => simp [isObjLike] at hobj
  | num n => simp [isObjLike] at hobj
  | str s => simp [isObjLike] at hobj

theorem getProp_ref_falsy {v : J}
    (h : ∀ kv ∈ spreadFields v, kv.1 = "$ref" → truthy kv.2 = false) :
    truthy (getProp v "$ref") = false := by
  cases v with
  | obj fields =>
      rw [getProp_obj]
      cases hl : lookupField fields "$ref" with
      | none => rfl
      | some w =>
          exact h ("$ref", w) (by rw [spreadFields]; exact lookupField_mem hl) rfl
  | arr es =>
      rw [getProp, if_neg (by decide), show decIdx "$ref" = none from rfl]
      rfl
  | str s =>
      rw [getProp, if_neg (by decide), show decIdx "$ref" = none from rfl]
      rfl
  | null => rfl
  | undef => rfl
  | bool b => rfl
  | num n => rfl

theorem spread_ref_falsy_of_getProp {v : J} (hv : wfJ v = true)
    (h : truthy (getProp v "$ref") = false) :
    ∀ kv ∈ spreadFields v, kv.1 = "$ref" → truthy kv.2 = false := by
  intro kv hm hrk
  cases v with
  | obj fields =>
      obtain ⟨k1, v1⟩ := kv
      cases hrk
      rw [spreadFields] at hm
      have hl := lookupField_of_mem_nodup (wf_obj_parts hv).1 hm
      rw [getProp_obj, hl] at h
      exact h
  | arr es =>
      obtain ⟨n, hn, hkv⟩ := mem_spread_arr.mp hm
      cases hkv
      exact absurd hrk (encIdx_ne_ref n)
  | str s =>
      rw [spreadFields] at hm
      simp only [List.mem_map] at hm
      obtain ⟨⟨i, c⟩, _, heq⟩ := hm
      cases heq
      exact absurd hrk (encIdx_ne_ref i)
  | null => cases hm
  | undef => cases hm
  | bool b => cases hm
  | num n => cases hm

/-! ## Evolution of the root document under resolver writes -/

theorem Ev_trans {a b c : J} (h1 : Ev a b) (h2 : Ev b c) : Ev a c := by
  induction h2 with
  | refl => exact h1
  | step y q r hev hwf hntr hlast ih => exact .step _ _ q r ih hwf hntr hlast

theorem Ev_wf {a b : J} (h : Ev a b) (ha : wfJ a = true) : wfJ b = true := by
  induction h with
  | refl => exact ha
  | step y q r hev hwf hntr hlast ih => exact wf_setAtPath ih hwf

theorem NodeInv_write {b : J} {p ks q : List String} {r : J}
    (hwfb : wfJ b = true)
    (hinv : NodeInv b p ks) (hntr : noTruthyRef r = true) (hwfr : wfJ r = true)
    (hlast : q.getLast? = some "$ref" → truthy r = false) :
    NodeInv (setAtPath b q r) p ks := by
  rcases path_trichotomy q p with ⟨t, hpt⟩ | ⟨t, hqt⟩ | ⟨u, a, c, tp, tq, hac, hq, hp⟩
  · -- the write lands at `q`, an ancestor (or equal): the node at `p` is
    -- inside the written value `r`, which is fully resolved
    subst hpt
    intro w hw
    cases hga : getAtPath b q with
    | none =>
        rw [setAtPath_of_getAtPath_none q b r hga] at hw
        exact hinv w hw
    | some w0 =>
        rw [getAtPath_append, getAtPath_setAtPath q b w0 r hga, Option.some_bind] at hw
        have hwn : noTruthyRef w = true := noTruthyRef_getAtPath hntr hw
        constructor
        · intro kv hm _
          exact spread_good_of_noTruthyRef hwn kv hm
        · intro kv hm hrk
          exact (goodF_parts (spread_good_of_noTruthyRef hwn kv hm)).2 hrk
  · -- the write lands at or below `p`
    subst hqt
    cases t with
    | nil =>
        rw [List.append_nil]
        intro w hw
        cases hga : getAtPath b p with
        | none =>
            rw [setAtPath_of_getAtPath_none p b r hga] at hw
            exact hinv w hw
        | some w0 =>
            rw [getAtPath_setAtPath p b w0 r hga] at hw
            cases hw
            constructor
            · intro kv hm _
              exact spread_good_of_noTruthyRef hntr kv hm
            · intro kv hm hrk
              exact (goodF_parts (spread_good_of_noTruthyRef hntr kv hm)).2 hrk
    | cons k0 t' =>
        intro w hw
        rw [getAtPath_setAtPath_extend p (k0 :: t') b r] at hw
        cases hga : getAtPath b p with
        | none => rw [hga] at hw; cases hw
        | some w0 =>
            rw [hga] at hw
            dsimp only at hw
            cases hw
            rw [setAtPath_cons]
            obtain ⟨hgood, href⟩ := hinv w0 hga
            cases hc : childAt w0 k0 with
            | none => exact hinv w0 hga
            | some u =>
                dsimp only
                have hwf0 : wfJ w0 = true := wf_getAtPath hwfb hga
                have hobj0 : isObjLike w0 = true := childAt_isSome_objLike hc
                have humem : (k0, u) ∈ spreadFields w0 := childAt_mem_spread hc
                have hufalsy : k0 = "$ref" → truthy u = false :=
                  fun hk => href _ humem hk
                have hv'ref : k0 = "$ref" → truthy (setAtPath u t' r) = false := by
                  intro hk
                  cases t' with
                  | nil =>
                      rw [setAtPath_nil]
                      apply hlast
                      rw [show p ++ k0 :: ([] : List String) = p ++ [k0] from rfl,
                        List.getLast?_concat, hk]
                  | cons a' t'' =>
                      rw [setAtPath_scalar (falsy_not_objLike (hufalsy hk))]
                      exact hufalsy hk
                have hlast' : t'.getLast? = some "$ref" → truthy r = false := by
                  intro ht
                  apply hlast
                  have ht' : t' ≠ [] := by
                    intro hh
                    rw [hh] at ht
                    cases ht
                  rw [List.getLast?_append_of_ne_nil _ (by simp),
                    getLast?_cons_ne_nil ht' k0]
                  exact ht
                constructor
                · intro kv hm hks
                  rcases mem_spread_setProp hwf0 hobj0 kv hm with ⟨hold, hne⟩ | heq
                  · exact hgood kv hold hks
                  · cases heq
                    refine goodF_intro ?_ hv'ref
                    cases t' with
                    | nil => rw [setAtPath_nil]; exact hntr
                    | cons a' t'' =>
                        have hu_ntr : noTruthyRef u = true :=
                          (goodF_parts (hgood _ humem hks)).1
                        exact noTruthyRef_setAtPath hu_ntr hntr hlast'
                · intro kv hm hrk
                  rcases mem_spread_setProp hwf0 hobj0 kv hm with ⟨hold, hne⟩ | heq
                  · exact href kv hold hrk
                  · cases heq
                    exact hv'ref hrk
  · -- the write diverges from `p`: the node at `p` is untouched
    subst hq hp
    intro w hw
    rw [getAtPath_setAtPath_divergent hac u tp tq b r] at hw
    exact hinv w hw

theorem Ev_NodeInv {a b : J} {p ks : List String} (h : Ev a b)
    (hwfa : wfJ a = true) (hinv : NodeInv a p ks) : NodeInv b p ks := by
  induction h with
  | refl => exact hinv
  | step y q r hev hwf hntr hlast ih =>
      exact NodeInv_write (Ev_wf hev hwfa) ih hntr hwf hlast

theorem NodeInv_shift {api : J} {p : List String} {k : String} {ks : List String} {r : J}
    (hwf : wfJ api = true) (hinv : NodeInv api p (k :: ks))
    (hgf : goodF k r = true) :
    NodeInv (setAtPath api (p ++ [k]) r) p ks := by
  intro w hw
  rw [getAtPath_setAtPath_extend p [k] api r] at hw
  cases hga : getAtPath api p with
  | none => rw [hga] at hw; cases hw
  | some w1 =>
      rw [hga] at hw
      dsimp only at hw
      cases hw
      rw [setAtPath_cons]
      obtain ⟨hgood, href⟩ := hinv w1 hga
      cases hc : childAt w1 k with
      | none =>
          by_cases hobj : isObjLike w1 = true
          · have hnk := childAt_none_not_spread hobj hc
            constructor
            · intro kv hm hks
              refine hgood kv hm ?_
              intro hmm
              rcases List.mem_cons.mp hmm with h1 | h1
              · exact hnk kv hm h1
              · exact hks h1
            · exact href
          · have hntr1 : noTruthyRef w1 = true := by
              apply noTruthyRef_scalar
              rw [Bool.not_eq_true] at hobj
              exact hobj
            constructor
            · intro kv hm _
              exact spread_good_of_noTruthyRef hntr1 kv hm
            · intro kv hm hrk
              exact (goodF_parts (spread_good_of_noTruthyRef hntr1 kv hm)).2 hrk
      | some u =>
          dsimp only
          rw [setAtPath_nil]
          have hwf1 : wfJ w1 = true := wf_getAtPath hwf hga
          have hobj1 : isObjLike w1 = true := childAt_isSome_objLike hc
          constructor
          · intro kv hm hks
            rcases mem_spread_setProp hwf1 hobj1 kv hm with ⟨hold, hne⟩ | heq
            · refine hgood kv hold ?_
              intro hmm
              rcases List.mem_cons.mp hmm with h1 | h1
              · exact hne h1
              · exact hks h1
            · cases heq
              exact hgf
          · intro kv hm hrk
            rcases mem_spread_setProp hwf1 hobj1 kv hm with ⟨hold, hne⟩ | heq
            · exact href kv hold hrk
            · cases heq
              exact (goodF_parts hgf).2 hrk

/-! ## Falsy values pass through the resolver unchanged -/

theorem band_right_false {x y : Bool} (h : ¬((x && y) = true)) (hx : x = true) :
    y = false := by
  cases hy : y
  · rfl
  · exact absurd (by rw [hx, hy]; rfl) h

theorem resolveRefS_falsy : ∀ {fuel : Nat} {api c r api2 : J},
    truthy c = false → resolveRefS fuel api c = .ok r api2 →
    r = c ∧ api2 = api := by
  intro fuel api c r api2 hc h
  cases fuel with
  | zero => rw [resolveRefS] at h; cases h
  | succ f =>
      rw [resolveRefS, hc] at h
      rw [if_neg (by simp), if_neg (by rw [falsy_not_objLike hc]; simp)] at h
      cases h
      exact ⟨rfl, rfl⟩

theorem resolveAtS_ok_getAtPath : ∀ {fuel : Nat} {api : J} {q : List String}
    {r api2 : J}, resolveAtS fuel api q = .ok r api2 →
    ∃ c, getAtPath api q = some c := by
  intro fuel api q r api2 h
  cases fuel with
  | zero => rw [resolveAtS] at h; cases h
  | succ f =>
      rw [resolveAtS] at h
      cases hga : getAtPath api q with
      | none => rw [hga] at h; cases h
      | some c => exact ⟨c, rfl⟩

theorem resolveAtS_falsy : ∀ {fuel : Nat} {api : J} {q : List String} {c r api2 : J},
    resolveAtS fuel api q = .ok r api2 → getAtPath api q = some c →
    truthy c = false → r = c ∧ api2 = api := by
  intro fuel api q c r api2 h hga hc
  cases fuel with
  | zero => rw [resolveAtS] at h; cases h
  | succ f =>
      rw [resolveAtS, hga] at h
      dsimp only at h
      rw [hc] at h
      rw [if_neg (by simp), if_neg (by rw [falsy_not_objLike hc]; simp)] at h
      cases h
      exact ⟨rfl, rfl⟩

/-! ## The resolver invariant: successful runs are fully resolved and the
root document evolves only by in-place writes of resolved values -/

theorem resolver_inv : ∀ fuel : Nat,
    (∀ api v r api2, wfJ api = true → wfJ v = true →
        resolveRefS fuel api v = .ok r api2 →
        noTruthyRef r = true ∧ wfJ r = true ∧ Ev api api2)
  ∧ (∀ api v ks r api2, wfJ api = true → wfJ v = true → isObjLike v = true →
        (∀ kv ∈ spreadFields v, kv.1 ∉ ks → goodF kv.1 kv.2 = true) →
        (∀ kv ∈ spreadFields v, kv.1 = "$ref" → truthy kv.2 = false) →
        resolveValFieldsS fuel api v ks = .ok r api2 →
        noTruthyRef r = true ∧ wfJ r = true ∧ Ev api api2)
  ∧ (∀ api ptr r api2, wfJ api = true →
        resolvePtrS fuel api ptr = .ok r api2 →
        noTruthyRef r = true ∧ wfJ r = true ∧ Ev api api2)
  ∧ (∀ api p r api2, wfJ api = true →
        resolveAtS fuel api p = .ok r api2 →
        noTruthyRef r = true ∧ wfJ r = true ∧ Ev api api2)
  ∧ (∀ api p ks r api2, wfJ api = true → NodeInv api p ks →
        resolveAtFieldsS fuel api p ks = .ok r api2 →
        noTruthyRef r = true ∧ wfJ r = true ∧ Ev api api2) := by
  intro fuel
  induction fuel with
  | zero =>
      refine ⟨?_, ?_, ?_, ?_, ?_⟩
      · intro api v r api2 _ _ h; rw [resolveRefS] at h; cases h
      · intro api v ks r api2 _ _ _ _ _ h; rw [resolveValFieldsS] at h; cases h
      · intro api ptr r api2 _ h; rw [resolvePtrS] at h; cases h
      · intro api p r api2 _ h; rw [resolveAtS] at h; cases h
      · intro api p ks r api2 _ _ h; rw [resolveAtFieldsS] at h; cases h
  | succ f ih =>
      obtain ⟨ihA, ihB, ihC, ihD, ihE⟩ := ih
      refine ⟨?_, ?_, ?_, ?_, ?_⟩
      · -- resolveRefS
        intro api v r api2 hwfapi hwfv h
        rw [resolveRefS] at h
        by_cases hcond : (truthy v && truthy (getProp v "$ref")) = true
        · rw [if_pos hcond] at h
          cases hpr : getProp v "$ref" with
          | str ptr => rw [hpr] at h; exact ihC api ptr r api2 hwfapi h
          | null => rw [hpr] at h; cases h
          | undef => rw [hpr] at h; cases h
          | bool b => rw [hpr] at h; cases h
          | num n => rw [hpr] at h; cases h
          | arr es => rw [hpr] at h; cases h
          | obj fs => rw [hpr] at h; cases h
        · rw [if_neg hcond] at h
          by_cases hobj : isObjLike v = true
          · rw [if_pos hobj] at h
            have href : ∀ kv ∈ spreadFields v, kv.1 = "$ref" → truthy kv.2 = false := by
              apply spread_ref_falsy_of_getProp hwfv
              exact band_right_false hcond (truthy_of_objLike hobj)
            refine ihB api v (keysOf v) r api2 hwfapi hwfv hobj ?_ href h
            intro kv hm hnk
            exact absurd (spread_key_mem_keysOf hobj kv hm) hnk
          · rw [if_neg hobj] at h
            cases h
            refine ⟨noTruthyRef_scalar ?_, hwfv, .refl _⟩
            rw [Bool.not_eq_true] at hobj
            exact hobj
      · -- resolveValFieldsS
        intro api v ks r api2 hwfapi hwfv hobj hgood href h
        cases ks with
        | nil =>
            rw [resolveValFieldsS] at h
            cases h
            exact ⟨noTruthyRef_of_spread hobj (fun kv hm => hgood kv hm (by simp)),
              hwfv, .refl _⟩
        | cons k ks2 =>
            rw [resolveValFieldsS] at h
            cases hr1 : resolveRefS f api (getProp v k) with
            | thrown m => rw [hr1] at h; cases h
            | out => rw [hr1] at h; cases h
            | ok r1 api1 =>
                rw [hr1] at h
                dsimp only at h
                obtain ⟨hntr1, hwf1, hev1⟩ :=
                  ihA api (getProp v k) r1 api1 hwfapi (wf_getProp hwfv k) hr1
                have hrefk : k = "$ref" → truthy r1 = false := by
                  intro hk
                  subst hk
                  have hcf : truthy (getProp v "$ref") = false := getProp_ref_falsy href
                  obtain ⟨hre, _⟩ := resolveRefS_falsy hcf hr1
                  rw [hre]
                  exact hcf
                have hgood1 : ∀ kv ∈ spreadFields (setProp v k r1), kv.1 ∉ ks2 →
                    goodF kv.1 kv.2 = true := by
                  intro kv hm hks
                  rcases mem_spread_setProp hwfv hobj kv hm with ⟨hold, hne⟩ | heq
                  · refine hgood kv hold ?_
                    intro hmm
                    rcases List.mem_cons.mp hmm with h1 | h1
                    · exact hne h1
                    · exact hks h1
                  · cases heq
                    exact goodF_intro hntr1 hrefk
                have href1 : ∀ kv ∈ spreadFields (setProp v k r1), kv.1 = "$ref" →
                    truthy kv.2 = false := by
                  intro kv hm hrk
                  rcases mem_spread_setProp hwfv hobj kv hm with ⟨hold, hne⟩ | heq
                  · exact href kv hold hrk
                  · cases heq
                    exact hrefk hrk
                obtain ⟨hA2, hB2, hC2⟩ := ihB api1 (setProp v k r1) ks2 r api2
                  (Ev_wf hev1 hwfapi) (wf_setProp_total hwfv hwf1 k)
                  (by rw [isObjLike_setProp]; exact hobj) hgood1 href1 h
                exact ⟨hA2, hB2, Ev_trans hev1 hC2⟩
      · -- resolvePtrS
        intro api ptr r api2 hwfapi h
        rw [resolvePtrS] at h
        cases hw : walkJ api (parsePtr ptr) with
        | typeErr => rw [hw] at h; cases h
        | fellFalsy => rw [hw] at h; cases h
        | found w =>
            rw [hw] at h
            dsimp only at h
            by_cases hobj : isObjLike w = true
            · rw [if_pos hobj] at h
              exact ihD api (parsePtr ptr) r api2 hwfapi h
            · rw [if_neg hobj] at h
              cases h
              rw [Bool.not_eq_true] at hobj
              exact ⟨noTruthyRef_scalar hobj, wf_scalar hobj, .refl _⟩
      · -- resolveAtS
        intro api p r api2 hwfapi h
        rw [resolveAtS] at h
        cases hga : getAtPath api p with
        | none => rw [hga] at h; cases h
        | some w =>
            rw [hga] at h
            dsimp only at h
            by_cases hcond : (truthy w && truthy (getProp w "$ref")) = true
            · rw [if_pos hcond] at h
              cases hpr : getProp w "$ref" with
              | str ptr => rw [hpr] at h; exact ihC api ptr r api2 hwfapi h
              | null => rw [hpr] at h; cases h
              | undef => rw [hpr] at h; cases h
              | bool b => rw [hpr] at h; cases h
              | num n => rw [hpr] at h; cases h
              | arr es => rw [hpr] at h; cases h
              | obj fs => rw [hpr] at h; cases h
            · rw [if_neg hcond] at h
              by_cases hobj : isObjLike w = true
              · rw [if_pos hobj] at h
                have hwfw := wf_getAtPath hwfapi hga
                refine ihE api p (keysOf w) r api2 hwfapi ?_ h
                intro w2 hw2
                rw [hga] at hw2
                cases hw2
                constructor
                · intro kv hm hnk
                  exact absurd (spread_key_mem_keysOf hobj kv hm) hnk
                · apply spread_ref_falsy_of_getProp hwfw
                  exact band_right_false hcond (truthy_of_objLike hobj)
              · rw [if_neg hobj] at h
                cases h
                rw [Bool.not_eq_true] at hobj
                exact ⟨noTruthyRef_scalar hobj, wf_getAtPath hwfapi hga, .refl _⟩
      · -- resolveAtFieldsS
        intro api p ks r api2 hwfapi hinv h
        cases ks with
        | nil =>
            rw [resolveAtFieldsS] at h
            cases h
            refine ⟨?_, ?_, .refl _⟩
            · cases hga : getAtPath api p with
              | none => rfl
              | some w =>
                  obtain ⟨hgood, _⟩ := hinv w hga
                  by_cases hobj : isObjLike w = true
                  · exact noTruthyRef_of_spread hobj (fun kv hm => hgood kv hm (by simp))
                  · rw [Bool.not_eq_true] at hobj
                    exact noTruthyRef_scalar hobj
            · cases hga : getAtPath api p with
              | none => rfl
              | some w => exact wf_getAtPath hwfapi hga
        | cons k ks2 =>
            rw [resolveAtFieldsS] at h
            cases hr1 : resolveAtS f api (p ++ [k]) with
            | thrown m => rw [hr1] at h; cases h
            | out => rw [hr1] at h; cases h
            | ok r1 api1 =>
                rw [hr1] at h
                dsimp only at h
                obtain ⟨hntr1, hwf1, hev1⟩ := ihD api (p ++ [k]) r1 api1 hwfapi hr1
                have hwf_api1 : wfJ api1 = true := Ev_wf hev1 hwfapi
                have hrefk : k = "$ref" → truthy r1 = false := by
                  intro hk
                  subst hk
                  obtain ⟨c, hc⟩ := resolveAtS_ok_getAtPath hr1
                  have hdec : ∃ w1, getAtPath api p = some w1 ∧ childAt w1 "$ref" = some c := by
                    rw [getAtPath_append] at hc
                    cases hw1 : getAtPath api p with
                    | none => rw [hw1] at hc; cases hc
                    | some w1 =>
                        rw [hw1, Option.some_bind, getAtPath_cons] at hc
                        cases hch : childAt w1 "$ref" with
                        | none => rw [hch] at hc; cases hc
                        | some c2 =>
                            rw [hch, Option.some_bind, getAtPath_nil] at hc
                            cases hc
                            exact ⟨w1, rfl, hch⟩
                  obtain ⟨w1, hw1, hchild⟩ := hdec
                  have hcfalsy : truthy c = false :=
                    (hinv w1 hw1).2 _ (childAt_mem_spread hchild) rfl
                  obtain ⟨hre, _⟩ := resolveAtS_falsy hr1 hc hcfalsy
                  rw [hre]
                  exact hcfalsy
                have hev2 : Ev api1 (setAtPath api1 (p ++ [k]) r1) := by
                  refine .step _ _ _ _ (.refl _) hwf1 hntr1 ?_
                  intro hlq
                  rw [List.getLast?_concat] at hlq
                  refine hrefk ?_
                  injection hlq
                have hinv2 : NodeInv (setAtPath api1 (p ++ [k]) r1) p ks2 :=
                  NodeInv_shift hwf_api1 (Ev_NodeInv hev1 hwfapi hinv)
                    (goodF_intro hntr1 hrefk)
                obtain ⟨hA2, hB2, hC2⟩ := ihE (setAtPath api1 (p ++ [k]) r1) p ks2 r api2
                  (wf_setAtPath hwf_api1 hwf1) hinv2 h
                exact ⟨hA2, hB2, Ev_trans (Ev_trans hev1 hev2) hC2⟩

/-! ## Size bookkeeping for identity runs -/

theorem szJ_pos : ∀ v : J, 1 ≤ szJ v := by
  intro v
  cases v <;> first
    | exact Nat.le_refl 1
    | exact Nat.le_add_right 1 _

theorem szFields_ge_length : ∀ fs : List (String × J), fs.length + 1 ≤ szFields fs := by
  intro fs
  induction fs with
  | nil => rw [szFields]; simp
  | cons f t ih =>
      obtain ⟨k, v⟩ := f
      rw [szFields, List.length_cons]
      have h := szJ_pos v
      omega

theorem szList_ge_length : ∀ es : List J, es.length + 1 ≤ szList es := by
  intro es
  induction es with
  | nil => rw [szList]; simp
  | cons e t ih =>
      rw [szList, List.length_cons]
      have h := szJ_pos e
      omega

theorem szFields_mem_bound : ∀ {fs : List (String × J)} {k : String} {v : J},
    (k, v) ∈ fs → szJ v + fs.length + 1 ≤ szFields fs := by
  intro fs
  induction fs with
  | nil => intro k v hm; cases hm
  | cons f t ih =>
      intro k v hm
      obtain ⟨k1, v1⟩ := f
      rw [szFields, List.length_cons]
      rcases List.mem_cons.mp hm with h1 | h1
      · cases h1
        have h := szFields_ge_length t
        omega
      · have h2 := ih h1
        have h3 := szJ_pos v1
        omega

theorem szList_getD_bound : ∀ {es : List J} {n : Nat}, n < es.length →
    szJ (es.getD n .undef) + es.length + 1 ≤ szList es := by
  intro es
  induction es with
  | nil => intro n h; simp at h
  | cons e t ih =>
      intro n h
      rw [szList, List.length_cons]
      cases n with
      | zero =>
          have h2 := szList_ge_length t
          show szJ e + (t.length + 1) + 1 ≤ 1 + szJ e + szList t
          omega
      | succ m =>
          have h2 := ih (by simpa using h)
          have h3 := szJ_pos e
          show szJ (t.getD m .undef) + (t.length + 1) + 1 ≤ 1 + szJ e + szList t
          omega

theorem length_insertIdxKey : ∀ (s : String) (l : List String),
    (insertIdxKey s l).length = l.length + 1 := by
  intro s l
  induction l with
  | nil => rfl
  | cons h t ih =>
      rw [insertIdxKey]
      split_ifs with hle
      · rfl
      · rw [List.length_cons, ih, List.length_cons]

theorem length_sortIdxKeys : ∀ l : List String,
    (sortIdxKeys l).length = l.length := by
  intro l
  induction l with
  | nil => rfl
  | cons h t ih => rw [sortIdxKeys, length_insertIdxKey, ih, List.length_cons]

theorem length_filter_partition : ∀ (l : List String) (p : String → Bool),
    (l.filter p).length + (l.filter (fun x => !p x)).length = l.length := by
  intro l p
  induction l with
  | nil => rfl
  | cons h t ih =>
      by_cases hp : p h = true
      · rw [List.filter_cons_of_pos hp, List.filter_cons_of_neg (by simp [hp])]
        rw [List.length_cons, List.length_cons]
        omega
      · rw [List.filter_cons_of_neg hp,
          List.filter_cons_of_pos (by simp [Bool.not_eq_true] at hp ⊢; exact hp)]
        rw [List.length_cons, List.length_cons]
        omega

theorem keysOf_obj_length (fs : List (String × J)) :
    (keysOf (.obj fs)).length = fs.length := by
  rw [keysOf, List.length_append, length_sortIdxKeys, length_filter_partition,
    List.length_map]

theorem keysOf_arr_length (es : List J) :
    (keysOf (.arr es)).length = es.length := by
  rw [keysOf, List.length_map, List.length_range]

theorem szJ_childAt {w : J} {k : String} {c : J} (h : childAt w k = some c) :
    szJ c + (keysOf w).length + 2 ≤ szJ w := by
  cases w with
  | obj fields =>
      rw [childAt_obj] at h
      rw [keysOf_obj_length, szJ]
      have h2 := szFields_mem_bound (lookupField_mem h)
      omega
  | arr es =>
      rw [childAt_arr] at h
      cases hdk : decIdx k with
      | none => rw [hdk] at h; cases h
      | some n =>
          rw [hdk] at h
          dsimp only at h
          by_cases hlt : n < es.length
          · rw [if_pos hlt] at h
            cases h
            rw [keysOf_arr_length, szJ]
            have h2 := szList_getD_bound hlt
            omega
          · rw [if_neg hlt] at h; cases h
  | null => cases h
  | undef => cases h
  | bool b => cases h
  | num n => cases h
  | str s => cases h

theorem keysOf_len_bound {w : J} (hobj : isObjLike w = true) :
    (keysOf w).length + 2 ≤ szJ w := by
  cases w with
  | obj fields =>
      rw [keysOf_obj_length, szJ]
      have h := szFields_ge_length fields
      omega
  | arr es =>
      rw [keysOf_arr_length, szJ]
      have h := szList_ge_length es
      omega
  | null => simp [isObjLike] at hobj
  | undef => simp [isObjLike] at hobj
  | bool b => simp [isObjLike] at hobj
  | num n => simp [isObjLike] at hobj
  | str s => simp [isObjLike] at hobj

theorem childAt_getProp {v : J} {k : String} {c : J}
    (h : childAt v k = some c) : getProp v k = c := by
  cases v with
  | obj fields =>
      rw [childAt_obj] at h
      rw [getProp_obj, h]
      rfl
  | arr es =>
      rw [childAt_arr] at h
      cases hdk : decIdx k with
      | none => rw [hdk] at h; cases h
      | some n =>
          rw [hdk] at h
          dsimp only at h
          by_cases hlt : n < es.length
          · rw [if_pos hlt] at h
            cases h
            have hkn : k = encIdx n := encIdx_of_decIdx hdk
            rw [hkn]
            exact getProp_arr_encIdx hlt
          · rw [if_neg hlt] at h; cases h
  | null => cases h
  | undef => cases h
  | bool b => cases h
  | num n => cases h
  | str s => cases h

theorem mem_keysOf_childAt {v : J} {k : String} (hobj : isObjLike v = true)
    (hm : k ∈ keysOf v) : ∃ c, childAt v k = some c := by
  cases v with
  | obj fields =>
      rw [childAt_obj]
      have h2 := lookupField_isSome_of_mem (mem_keysOf_obj.mp hm)
      cases hl : lookupField fields k with
      | none => rw [hl] at h2; cases h2
      | some c => exact ⟨c, rfl⟩
  | arr es =>
      obtain ⟨n, hn, rfl⟩ := mem_keysOf_arr.mp hm
      rw [childAt_arr, decIdx_encIdx]
      dsimp only
      rw [if_pos hn]
      exact ⟨_, rfl⟩
  | null => simp [isObjLike] at hobj
  | undef => simp [isObjLike] at hobj
  | bool b => simp [isObjLike] at hobj
  | num n => simp [isObjLike] at hobj
  | str s => simp [isObjLike] at hobj

/-! ## Identity runs: reference-free nodes pass through unchanged -/

theorem noTruthyRef_ref_falsy {w : J} (h : noTruthyRef w = true) :
    truthy (getProp w "$ref") = false :=
  getProp_ref_falsy
    (fun kv hm hrk => (goodF_parts (spread_good_of_noTruthyRef h kv hm)).2 hrk)

theorem resolveAt_id : ∀ fuel : Nat,
    (∀ api p w, getAtPath api p = some w → noTruthyRef w = true →
        4 * szJ w < fuel → resolveAtS fuel api p = .ok w api)
    ∧ (∀ api p w m ks, getAtPath api p = some w → noTruthyRef w = true →
        isObjLike w = true →
        (∀ k ∈ ks, ∃ c, childAt w k = some c ∧ szJ c ≤ m) →
        ks.length + 4 * m + 4 < fuel →
        resolveAtFieldsS fuel api p ks = .ok w api) := by
  intro fuel
  induction fuel with
  | zero =>
      refine ⟨?_, ?_⟩
      · intro api p w _ _ hf; omega
      · intro api p w m ks _ _ _ _ hf; omega
  | succ F ih =>
      obtain ⟨ihAt, ihLoop⟩ := ih
      refine ⟨?_, ?_⟩
      · intro api p w hg hntr hf
        rw [resolveAtS, hg]
        dsimp only
        rw [noTruthyRef_ref_falsy hntr, Bool.and_false,
          if_neg (by simp)]
        cases hobj : isObjLike w with
        | false => rfl
        | true =>
            rw [if_pos rfl]
            have hkb := keysOf_len_bound hobj
            refine ihLoop api p w (szJ w - (keysOf w).length - 2) (keysOf w)
              hg hntr hobj ?_ ?_
            · intro k hk
              obtain ⟨c, hc⟩ := mem_keysOf_childAt hobj hk
              refine ⟨c, hc, ?_⟩
              have := szJ_childAt hc
              omega
            · omega
      · intro api p w m ks hg hntr hobj hch hf
        cases ks with
        | nil =>
            rw [resolveAtFieldsS, hg]
            rfl
        | cons k ks2 =>
            rw [resolveAtFieldsS]
            obtain ⟨c, hc, hcm⟩ := hch k (List.mem_cons_self k ks2)
            have hgc : getAtPath api (p ++ [k]) = some c := by
              rw [getAtPath_append, hg, Option.some_bind, getAtPath_cons, hc,
                Option.some_bind, getAtPath_nil]
            have hcr := ihAt api (p ++ [k]) c hgc (noTruthyRef_childAt hntr hc)
              (by omega)
            rw [hcr]
            dsimp only
            rw [setAtPath_self _ _ _ hgc]
            refine ihLoop api p w m ks2 hg hntr hobj
              (fun k2 hk2 => hch k2 (List.mem_cons_of_mem k hk2)) (by
                simp only [List.length_cons] at hf
                omega)

theorem processSchema_id : ∀ fuel : Nat,
    (∀ api v, noTruthyRef v = true → 4 * szJ v < fuel →
        processSchemaS fuel api v = .ok v api)
    ∧ (∀ api v m ks, noTruthyRef v = true → isObjLike v = true →
        (∀ k ∈ ks, ∃ c, childAt v k = some c ∧ szJ c ≤ m) →
        ks.length + 4 * m + 4 < fuel →
        processFieldsS fuel api v ks = .ok v api) := by
  intro fuel
  induction fuel with
  | zero =>
      refine ⟨?_, ?_⟩
      · intro api v _ hf; omega
      · intro api v m ks _ _ _ hf; omega
  | succ F ih =>
      obtain ⟨ihP, ihLoop⟩ := ih
      refine ⟨?_, ?_⟩
      · intro api v hntr hf
        rw [processSchemaS]
        cases ht : truthy v with
        | false => rw [Bool.not_false, if_pos rfl]
        | true =>
            rw [Bool.not_true, if_neg (by simp)]
            rw [noTruthyRef_ref_falsy hntr, if_neg (by simp)]
            dsimp only
            cases hobj : isObjLike v with
            | false => rfl
            | true =>
                rw [if_pos rfl]
                have hkb := keysOf_len_bound hobj
                refine ihLoop api v (szJ v - (keysOf v).length - 2) (keysOf v)
                  hntr hobj ?_ ?_
                · intro k hk
                  obtain ⟨c, hc⟩ := mem_keysOf_childAt hobj hk
                  refine ⟨c, hc, ?_⟩
                  have := szJ_childAt hc
                  omega
                · omega
      · intro api v m ks hntr hobj hch hf
        cases ks with
        | nil => rw [processFieldsS]
        | cons k ks2 =>
            rw [processFieldsS]
            obtain ⟨c, hc, hcm⟩ := hch k (List.mem_cons_self k ks2)
            rw [childAt_getProp hc,
              ihP api c (noTruthyRef_childAt hntr hc) (by omega)]
            dsimp only
            rw [setProp_self hc]
            refine ihLoop api v m ks2 hntr hobj
              (fun k2 hk2 => hch k2 (List.mem_cons_of_mem k hk2)) (by
                simp only [List.length_cons] at hf
                omega)

/-! ## Invariant for `processSchema` -/

theorem processSchemaS_falsy : ∀ {fuel : Nat} {api c r api2 : J},
    truthy c = false → processSchemaS fuel api c = .ok r api2 →
    r = c ∧ api2 = api := by
  intro fuel api c r api2 hc h
  cases fuel with
  | zero => rw [processSchemaS] at h; cases h
  | succ F =>
      rw [processSchemaS, hc, Bool.not_false, if_pos rfl] at h
      cases h
      exact ⟨rfl, rfl⟩

theorem process_inv : ∀ fuel : Nat,
    (∀ api v r api2, wfJ api = true → wfJ v = true →
        processSchemaS fuel api v = .ok r api2 →
        noTruthyRef r = true ∧ wfJ r = true ∧ Ev api api2)
    ∧ (∀ api v ks r api2, wfJ api = true → wfJ v = true → isObjLike v = true →
        (∀ kv ∈ spreadFields v, kv.1 ∉ ks → goodF kv.1 kv.2 = true) →
        (∀ kv ∈ spreadFields v, kv.1 = "$ref" → truthy kv.2 = false) →
        processFieldsS fuel api v ks = .ok r api2 →
        noTruthyRef r = true ∧ wfJ r = true ∧ Ev api api2) := by
  intro fuel
  induction fuel with
  | zero =>
      refine ⟨?_, ?_⟩
      · intro api v r api2 _ _ h; rw [processSchemaS] at h; cases h
      · intro api v ks r api2 _ _ _ _ _ h; rw [processFieldsS] at h; cases h
  | succ F ih =>
      obtain ⟨ihP, ihQ⟩ := ih
      refine ⟨?_, ?_⟩
      · intro api v r api2 hwfapi hwfv h
        rw [processSchemaS] at h
        by_cases ht : truthy v = true
        · rw [ht, Bool.not_true, if_neg (by simp)] at h
          by_cases hrt : truthy (getProp v "$ref") = true
          · rw [if_pos hrt] at h
            cases hr : resolveRefS F api v with
            | thrown m => rw [hr] at h; cases h
            | out => rw [hr] at h; cases h
            | ok v1 api1 =>
                rw [hr] at h
                dsimp only at h
                obtain ⟨hntr1, hwf1, hev1⟩ :=
                  (resolver_inv F).1 api v v1 api1 hwfapi hwfv hr
                by_cases hobj1 : isObjLike v1 = true
                · rw [if_pos hobj1] at h
                  obtain ⟨hA2, hB2, hC2⟩ := ihQ api1 v1 (keysOf v1) r api2
                    (Ev_wf hev1 hwfapi) hwf1 hobj1
                    (fun kv hm _ => spread_good_of_noTruthyRef hntr1 kv hm)
                    (fun kv hm hrk =>
                      (goodF_parts (spread_good_of_noTruthyRef hntr1 kv hm)).2 hrk)
                    h
                  exact ⟨hA2, hB2, Ev_trans hev1 hC2⟩
                · rw [if_neg hobj1] at h
                  cases h
                  exact ⟨hntr1, hwf1, hev1⟩
          · rw [if_neg hrt] at h
            dsimp only at h
            rw [Bool.not_eq_true] at hrt
            by_cases hobj : isObjLike v = true
            · rw [if_pos hobj] at h
              exact ihQ api v (keysOf v) r api2 hwfapi hwfv hobj
                (fun kv hm hnk =>
                  absurd (spread_key_mem_keysOf hobj kv hm) hnk)
                (spread_ref_falsy_of_getProp hwfv hrt) h
            · rw [if_neg hobj] at h
              cases h
              rw [Bool.not_eq_true] at hobj
              exact ⟨noTruthyRef_scalar hobj, hwfv, .refl _⟩
        · rw [Bool.not_eq_true] at ht
          rw [ht, Bool.not_false, if_pos rfl] at h
          cases h
          exact ⟨noTruthyRef_scalar (falsy_not_objLike ht), hwfv, .refl _⟩
      · intro api v ks r api2 hwfapi hwfv hobj hgood href h
        cases ks with
        | nil =>
            rw [processFieldsS] at h
            cases h
            exact ⟨noTruthyRef_of_spread hobj (fun kv hm => hgood kv hm (by simp)),
              hwfv, .refl _⟩
        | cons k ks2 =>
            rw [processFieldsS] at h
            cases hr1 : processSchemaS F api (getProp v k) with
            | thrown m => rw [hr1] at h; cases h
            | out => rw [hr1] at h; cases h
            | ok r1 api1 =>
                rw [hr1] at h
                dsimp only at h
                obtain ⟨hntr1, hwf1, hev1⟩ :=
                  ihP api (getProp v k) r1 api1 hwfapi (wf_getProp hwfv k) hr1
                have hrefk : k = "$ref" → truthy r1 = false := by
                  intro hk
                  subst hk
                  have hcf : truthy (getProp v "$ref") = false := getProp_ref_falsy href
                  obtain ⟨hre, _⟩ := processSchemaS_falsy hcf hr1
                  rw [hre]
                  exact hcf
                have hgood1 : ∀ kv ∈ spreadFields (setProp v k r1), kv.1 ∉ ks2 →
                    goodF kv.1 kv.2 = true := by
                  intro kv hm hks
                  rcases mem_spread_setProp hwfv hobj kv hm with ⟨hold, hne⟩ | heq
                  · refine hgood kv hold ?_
                    intro hmm
                    rcases List.mem_cons.mp hmm with h1 | h1
                    · exact hne h1
                    · exact hks h1
                  · cases heq
                    exact goodF_intro hntr1 hrefk
                have href1 : ∀ kv ∈ spreadFields (setProp v k r1), kv.1 = "$ref" →
                    truthy kv.2 = false := by
                  intro kv hm hrk
                  rcases mem_spread_setProp hwfv hobj kv hm with ⟨hold, hne⟩ | heq
                  · exact href kv hold hrk
                  · cases heq
                    exact hrefk hrk
                obtain ⟨hA2, hB2, hC2⟩ := ihQ api1 (setProp v k r1) ks2 r api2
                  (Ev_wf hev1 hwfapi) (wf_setProp_total hwfv hwf1 k)
                  (by rw [isObjLike_setProp]; exact hobj) hgood1 href1 h
                exact ⟨hA2, hB2, Ev_trans hev1 hC2⟩

/-! ## `$ref`-free documents -/

theorem keyFree_noTruthy_aux : ∀ n : Nat,
    (∀ v, szJ v ≤ n → keyFree "$ref" v = true → noTruthyRef v = true)
    ∧ (∀ fs, szFields fs ≤ n → keyFreeFields "$ref" fs = true →
        noTruthyRefFields fs = true)
    ∧ (∀ es, szList es ≤ n → keyFreeList "$ref" es = true →
        noTruthyRefList es = true) := by
  intro n
  induction n with
  | zero =>
      refine ⟨?_, ?_, ?_⟩
      · intro v hs _; have := szJ_pos v; omega
      · intro fs hs _; have := szFields_ge_length fs; omega
      · intro es hs _; have := szList_ge_length es; omega
  | succ m ih =>
      obtain ⟨ihV, ihF, ihL⟩ := ih
      refine ⟨?_, ?_, ?_⟩
      · intro v hs hk
        cases v with
        | obj fields =>
            rw [keyFree] at hk
            rw [noTruthyRef]
            rw [szJ] at hs
            exact ihF fields (by omega) hk
        | arr es =>
            rw [keyFree] at hk
            rw [noTruthyRef]
            rw [szJ] at hs
            exact ihL es (by omega) hk
        | null => rfl
        | undef => rfl
        | bool b => rfl
        | num k => rfl
        | str s => rfl
      · intro fs hs hk
        cases fs with
        | nil => rfl
        | cons f t =>
            obtain ⟨k1, v1⟩ := f
            rw [keyFreeFields, Bool.and_eq_true, Bool.and_eq_true] at hk
            obtain ⟨⟨hne, hkv⟩, ht⟩ := hk
            rw [szFields] at hs
            have hne2 : k1 ≠ "$ref" := by simpa using hne
            rw [noTruthyRefFields, Bool.and_eq_true, Bool.and_eq_true,
              if_neg hne2]
            have h1 := szFields_ge_length t
            have h2 := szJ_pos v1
            exact ⟨⟨rfl, ihV v1 (by omega) hkv⟩, ihF t (by omega) ht⟩
      · intro es hs hk
        cases es with
        | nil => rfl
        | cons e t =>
            rw [keyFreeList, Bool.and_eq_true] at hk
            obtain ⟨hkv, ht⟩ := hk
            rw [szList] at hs
            rw [noTruthyRefList, Bool.and_eq_true]
            have h1 := szList_ge_length t
            have h2 := szJ_pos e
            exact ⟨ihV e (by omega) hkv, ihL t (by omega) ht⟩

theorem noTruthyRef_of_keyFree {v : J} (h : keyFree "$ref" v = true) :
    noTruthyRef v = true :=
  (keyFree_noTruthy_aux (szJ v)).1 v (Nat.le_refl _) h

theorem keyFreeFields_mem {k : String} : ∀ {fs : List (String × J)} {k1 : String}
    {v : J}, keyFreeFields k fs = true → (k1, v) ∈ fs → keyFree k v = true := by
  intro fs
  induction fs with
  | nil => intro k1 v _ hm; cases hm
  | cons f t ih =>
      intro k1 v hk hm
      obtain ⟨k2, v2⟩ := f
      rw [keyFreeFields, Bool.and_eq_true, Bool.and_eq_true] at hk
      rcases List.mem_cons.mp hm with h1 | h1
      · cases h1; exact hk.1.2
      · exact ih hk.2 h1

theorem keyFreeList_mem {k : String} : ∀ {es : List J} {v : J},
    keyFreeList k es = true → v ∈ es → keyFree k v = true := by
  intro es
  induction es with
  | nil => intro v _ hm; cases hm
  | cons e t ih =>
      intro v hk hm
      rw [keyFreeList, Bool.and_eq_true] at hk
      rcases List.mem_cons.mp hm with h1 | h1
      · cases h1; exact hk.1
      · exact ih hk.2 h1

theorem keyFree_childAt {d : J} {k k1 : String} {w : J}
    (hd : keyFree k d = true) (h : childAt d k1 = some w) : keyFree k w = true := by
  cases d with
  | obj fields =>
      rw [childAt_obj] at h
      rw [keyFree] at hd
      exact keyFreeFields_mem hd (lookupField_mem h)
  | arr es =>
      rw [childAt_arr] at h
      rw [keyFree] at hd
      cases hdk : decIdx k1 with
      | none => rw [hdk] at h; cases h
      | some n =>
          rw [hdk] at h
          dsimp only at h
          by_cases hlt : n < es.length
          · rw [if_pos hlt] at h
            cases h
            exact keyFreeList_mem hd (getD_mem es n hlt .undef)
          · rw [if_neg hlt] at h; cases h
  | null => cases h
  | undef => cases h
  | bool b => cases h
  | num n => cases h
  | str s => cases h

theorem keyFree_getAtPath {k : String} : ∀ {p : List String} {d w : J},
    keyFree k d = true → getAtPath d p = some w → keyFree k w = true := by
  intro p
  induction p with
  | nil => intro d w hd h; rw [getAtPath_nil] at h; cases h; exact hd
  | cons k1 p ih =>
      intro d w hd h
      rw [getAtPath_cons] at h
      cases hc : childAt d k1 with
      | none => rw [hc] at h; cases h
      | some w0 =>
          rw [hc] at h
          exact ih (keyFree_childAt hd hc) h

/-- **C9** (confirmed).  On a document with no `$ref` key anywhere and a
scope path that matches a node, `dereferenceApi` returns a document
deep-equal to its input (and leaves the original untouched: both
components of the result are the input itself).  Since the output equals
the ref-free input, re-running `dereferenceApi` on the output with the
same scope is the very same instance of this statement, giving the
claimed idempotence. -/
theorem claim_C9_noop_on_ref_free (D : J) (S : List String) (sn : J) (fuel : Nat)
    (hkf : keyFree "$ref" D = true) (hsn : getAtPath D S = some sn)
    (hfuel : 4 * szJ sn < fuel) :
    dereferenceApiS D S fuel = .ok D D := by
  have hntr : noTruthyRef sn = true :=
    noTruthyRef_of_keyFree (keyFree_getAtPath hkf hsn)
  rw [dereferenceApiS, hsn]
  dsimp only
  rw [(processSchema_id fuel).1 D sn hntr hfuel]
  dsimp only
  cases hobj : isObjLike sn with
  | true =>
      rw [noTruthyRef_ref_falsy hntr]
      rw [if_pos (by decide)]
      rw [setAtPath_self S D sn hsn]
  | false =>
      rw [Bool.false_and, if_neg (by simp)]

/-- Witness for C9: the ref-free document `exRefFree` with scope `$`. -/
theorem claim_C9_noop_on_ref_free_witness :
    dereferenceApiS exRefFree [] 100 = .ok exRefFree exRefFree :=
  claim_C9_noop_on_ref_free exRefFree [] exRefFree 100 rfl rfl (by decide)

/-! ## The pointer walk versus document paths -/

theorem getProp_scalar_scalar {v : J} (h : isObjLike v = false) (k : String) :
    isObjLike (getProp v k) = false := by
  cases v with
  | str s =>
      rw [getProp]
      by_cases hl : k = "length"
      · rw [if_pos hl]; rfl
      · rw [if_neg hl]
        cases hdk : decIdx k with
        | none => rfl
        | some n =>
            dsimp only
            by_cases hn : n < s.data.length
            · rw [if_pos hn]; rfl
            · rw [if_neg hn]; rfl
  | arr es => simp [isObjLike] at h
  | obj fields => simp [isObjLike] at h
  | null => rfl
  | undef => rfl
  | bool b => rfl
  | num n => rfl

theorem walkJ_cons_obj (fields : List (String × J)) (k : String) (p : List String) :
    walkJ (.obj fields) (k :: p) =
      if truthy (getProp (.obj fields) k) then walkJ (getProp (.obj fields) k) p
      else .fellFalsy := rfl

theorem walkJ_cons_arr (es : List J) (k : String) (p : List String) :
    walkJ (.arr es) (k :: p) =
      if truthy (getProp (.arr es) k) then walkJ (getProp (.arr es) k) p
      else .fellFalsy := rfl

theorem walkJ_cons_str (s : String) (k : String) (p : List String) :
    walkJ (.str s) (k :: p) =
      if truthy (getProp (.str s) k) then walkJ (getProp (.str s) k) p
      else .fellFalsy := rfl

theorem walk_scalar : ∀ {path : List String} {v w : J}, isObjLike v = false →
    walkJ v path = .found w → isObjLike w = false := by
  intro path
  induction path with
  | nil =>
      intro v w hv h
      rw [walkJ] at h
      cases h
      exact hv
  | cons k p ih =>
      intro v w hv h
      cases v with
      | null => rw [walkJ] at h; cases h
      | undef => rw [walkJ] at h; cases h
      | bool b => rw [show walkJ (.bool b) (k :: p) = .fellFalsy from rfl] at h; cases h
      | num n => rw [show walkJ (.num n) (k :: p) = .fellFalsy from rfl] at h; cases h
      | str s =>
          rw [walkJ_cons_str] at h
          by_cases ht : truthy (getProp (.str s) k) = true
          · rw [if_pos ht] at h
            exact ih (getProp_scalar_scalar (by rfl) k) h
          · rw [if_neg ht] at h; cases h
      | arr es => simp [isObjLike] at hv
      | obj fields => simp [isObjLike] at hv

theorem walk_found_objLike_getAtPath : ∀ {path : List String} {api w : J},
    walkJ api path = .found w → isObjLike w = true → getAtPath api path = some w := by
  intro path
  induction path with
  | nil =>
      intro api w h _
      rw [walkJ] at h
      cases h
      rw [getAtPath_nil]
  | cons k p ih =>
      intro api w h hobj
      cases api with
      | null => rw [walkJ] at h; cases h
      | undef => rw [walkJ] at h; cases h
      | bool b =>
          rw [show walkJ (.bool b) (k :: p) = .fellFalsy from rfl] at h; cases h
      | num n =>
          rw [show walkJ (.num n) (k :: p) = .fellFalsy from rfl] at h; cases h
      | str s =>
          have := walk_scalar (show isObjLike (J.str s) = false from rfl) h
          rw [hobj] at this
          cases this
      | obj fields =>
          rw [walkJ_cons_obj] at h
          by_cases ht : truthy (getProp (.obj fields) k) = true
          · rw [if_pos ht] at h
            rw [getAtPath_cons]
            cases hl : lookupField fields k with
            | none =>
                rw [getProp_obj, hl] at ht
                cases ht
            | some nxt =>
                have hg : getProp (.obj fields) k = nxt := by
                  rw [getProp_obj, hl]
                  rfl
                rw [hg] at h
                rw [childAt_obj, hl, Option.some_bind]
                exact ih h hobj
          · rw [if_neg ht] at h; cases h
      | arr es =>
          rw [walkJ_cons_arr] at h
          by_cases ht : truthy (getProp (.arr es) k) = true
          · rw [if_pos ht] at h
            by_cases hl : k = "length"
            · rw [hl] at h ht
              rw [show getProp (.arr es) "length" = .num es.length from rfl] at h
              have := walk_scalar
                (show isObjLike (J.num es.length) = false from rfl) h
              rw [hobj] at this
              cases this
            · rw [getAtPath_cons, childAt_arr]
              rw [show getProp (.arr es) k =
                  (if k = "length" then .num es.length
                    else match decIdx k with
                      | some n => if n < es.length then es.getD n .undef else .undef
                      | none => .undef) from rfl, if_neg hl] at h ht
              cases hdk : decIdx k with
              | none =>
                  rw [hdk] at ht
                  cases ht
              | some n =>
                  rw [hdk] at h ht
                  dsimp only at h ht ⊢
                  by_cases hn : n < es.length
                  · rw [if_pos hn] at h
                    rw [if_pos hn, Option.some_bind]
                    exact ih h hobj
                  · rw [if_neg hn] at ht
                    cases ht
          · rw [if_neg ht] at h; cases h

/-- **C7** (confirmed).  For a two-hop chain `A→B→C` — a reference node
`a` whose pointer walks (from the root of the original document `api`) to
the reference node `b`, whose pointer in turn walks (again from the root
of the same original document) to a concrete node `c` containing no
truthy `$ref` — `resolveRef(a, api)` returns exactly `c`'s content, with
no intermediate `$ref` in the result and the document unchanged. -/
theorem claim_C7_chain_resolves_to_target (api a b c : J) (pa pb : String)
    (fuel : Nat)
    (hta : truthy a = true) (hra : getProp a "$ref" = .str pa)
    (hpa : truthy (J.str pa) = true)
    (hwa : walkJ api (parsePtr pa) = .found b)
    (hobjb : isObjLike b = true)
    (hrb : getProp b "$ref" = .str pb) (hpb : truthy (J.str pb) = true)
    (hwb : walkJ api (parsePtr pb) = .found c)
    (hntc : noTruthyRef c = true)
    (hfuel : 4 * szJ c + 4 < fuel) :
    resolveRefS fuel api a = .ok c api := by
  cases fuel with
  | zero => omega
  | succ f1 =>
  cases f1 with
  | zero => omega
  | succ f2 =>
  cases f2 with
  | zero => omega
  | succ f3 =>
  cases f3 with
  | zero => omega
  | succ f4 =>
  rw [resolveRefS, hra, hta, hpa, if_pos (by decide)]
  dsimp only
  rw [resolvePtrS, hwa]
  dsimp only
  rw [if_pos hobjb]
  have hgb : getAtPath api (parsePtr pa) = some b :=
    walk_found_objLike_getAtPath hwa hobjb
  rw [resolveAtS, hgb]
  dsimp only
  rw [hrb, truthy_of_objLike hobjb, hpb, if_pos (by decide)]
  dsimp only
  rw [resolvePtrS, hwb]
  dsimp only
  cases hobjc : isObjLike c with
  | false => rw [if_neg (by simp)]
  | true =>
      rw [if_pos rfl]
      exact (resolveAt_id f4).1 api (parsePtr pb) c
        (walk_found_objLike_getAtPath hwb hobjc) hntc (by omega)

/-- Witness for C7: the chain `A → B → C` of `exChain`. -/
theorem claim_C7_chain_resolves_to_target_witness :
    resolveRefS 100 exChain (J.obj [("$ref", J.str "#/B")]) =
      .ok (J.obj [("v", J.num 42)]) exChain :=
  claim_C7_chain_resolves_to_target exChain
    (J.obj [("$ref", J.str "#/B")]) (J.obj [("$ref", J.str "#/C")])
    (J.obj [("v", J.num 42)]) "#/B" "#/C" 100
    rfl rfl rfl rfl rfl rfl rfl rfl rfl (by decide)

/-! ## Failure of pointer resolution -/

theorem refErrMsg_ne_typeError (ptr : String) : refErrMsg ptr ≠ "TypeError" := by
  intro h
  have h2 := congrArg String.length h
  rw [refErrMsg, String.length_append] at h2
  rw [show ("Could not resolve $ref path: ").length = 29 from rfl,
    show ("TypeError").length = 9 from rfl] at h2
  omega

/-- **C6** (corrected).  The resolver's loop checks `if (!derefObj) throw`
after each step, so resolution of a `$ref` pointer fails with the error
carrying the literal pointer string exactly when the pointer walk from
the root document *reaches a falsy value* — a missing segment reads as
`undefined`, which is falsy, but a present segment whose value is falsy
(`0`, `""`, `null`, `false`) equally throws, which is weaker than the
claimed "exactly when some segment does not exist".  The equivalence
holds whenever the walk's target (if any) is itself fully resolved; the
second conjunct shows the error propagating out of `dereferenceApi`,
which aborts with the error and returns no document. -/
theorem claim_C6_error_iff_falsy_walk (api o : J) (ptr : String) (fuel : Nat)
    (hto : truthy o = true) (href : getProp o "$ref" = .str ptr)
    (hptr : truthy (J.str ptr) = true)
    (hfound : ∀ w, walkJ api (parsePtr ptr) = .found w →
        noTruthyRef w = true ∧ 4 * szJ w + 2 < fuel)
    (hf2 : 2 ≤ fuel) :
    (resolveRefS fuel api o = .thrown (refErrMsg ptr) ↔
      walkJ api (parsePtr ptr) = .fellFalsy)
    ∧ dereferenceApiS exAbort [] 100 = .thrown (refErrMsg "#/a") := by
  refine ⟨?_, rfl⟩
  cases fuel with
  | zero => omega
  | succ f1 =>
  cases f1 with
  | zero => omega
  | succ f2 =>
  rw [resolveRefS, href, hto, hptr, if_pos (by decide)]
  dsimp only
  rw [resolvePtrS]
  cases hw : walkJ api (parsePtr ptr) with
  | fellFalsy => simp
  | typeErr =>
      dsimp only
      constructor
      · intro h
        exact absurd (RRes.thrown.inj h).symm (refErrMsg_ne_typeError ptr)
      · intro h; cases h
  | found w =>
      dsimp only
      obtain ⟨hntw, hfw⟩ := hfound w hw
      cases hobjw : isObjLike w with
      | false =>
          rw [if_neg (by simp)]
          constructor
          · intro h; cases h
          · intro h; cases h
      | true =>
          rw [if_pos rfl,
            (resolveAt_id f2).1 api (parsePtr ptr) w
              (walk_found_objLike_getAtPath hw hobjw) hntw (by omega)]
          constructor
          · intro h; cases h
          · intro h; cases h

/-- Witness for C6: in `exSeg` the pointer `#/a` walks onto the falsy
value `0`, and the resolver throws the error carrying the pointer. -/
theorem claim_C6_error_iff_falsy_walk_witness :
    (resolveRefS 100 exSeg exRefNode = .thrown (refErrMsg "#/a") ↔
      walkJ exSeg (parsePtr "#/a") = .fellFalsy)
    ∧ dereferenceApiS exAbort [] 100 = .thrown (refErrMsg "#/a") :=
  claim_C6_error_iff_falsy_walk exSeg exRefNode "#/a" 100 rfl rfl rfl
    (fun w hw =>
      absurd (hw.symm.trans (show walkJ exSeg (parsePtr "#/a") = .fellFalsy from rfl))
        (fun hh => WalkR.noConfusion hh))
    (by decide)

/-- **C1** (corrected).  `dereferenceApi` takes no `ignorePaths`
parameter, and falsy `$ref` values are skipped rather than resolved, so
the claim is amended to: for a well-formed document `D` and scope `S`
matching an object or array node whose own `$ref` is not truthy, if
`dereferenceApi(D, S)` returns, then the scope subtree of the returned
document contains no *truthy* `$ref` anywhere — every reference
reachable from the scope has been resolved away. -/
theorem claim_C1_scope_subtree_resolved (D : J) (S : List String) (fuel : Nat)
    (A A2 sn : J) (hwf : wfJ D = true)
    (hsn : getAtPath D S = some sn) (hobj : isObjLike sn = true)
    (href : truthy (getProp sn "$ref") = false)
    (hrun : dereferenceApiS D S fuel = .ok A A2) :
    ∃ sec, getAtPath A S = some sec ∧ noTruthyRef sec = true := by
  rw [dereferenceApiS, hsn] at hrun
  dsimp only at hrun
  cases hp : processSchemaS fuel D sn with
  | thrown m => rw [hp] at hrun; cases hrun
  | out => rw [hp] at hrun; cases hrun
  | ok sec api1 =>
      rw [hp] at hrun
      dsimp only at hrun
      rw [hobj, href, if_pos (by decide)] at hrun
      cases hrun
      obtain ⟨hntr, _, _⟩ :=
        (process_inv fuel).1 D sn sec A2 hwf (wf_getAtPath hwf hsn) hp
      exact ⟨sec, getAtPath_setAtPath S D sn sec hsn, hntr⟩

/-- Witness for C1: dereferencing `exResolvable` from the root scope. -/
theorem claim_C1_scope_subtree_resolved_witness :
    ∃ sec, getAtPath (J.obj [("a", J.obj [("x", J.num 1)]),
        ("b", J.obj [("x", J.num 1)])]) [] = some sec
      ∧ noTruthyRef sec = true :=
  claim_C1_scope_subtree_resolved exResolvable [] 100
    (J.obj [("a", J.obj [("x", J.num 1)]), ("b", J.obj [("x", J.num 1)])])
    exResolvable exResolvable rfl rfl rfl rfl rfl

/-! ## Root composition keywords survive the wrapper functions -/

theorem hasRootKey_setProp_obj (fs : List (String × J)) (k : String) (v : J) :
    hasRootKey (setProp (.obj fs) k v) k = true := by
  rw [setProp_obj_def, hasRootKey, lookupField_upsert_self]
  rfl

theorem getProp_arr_val_is_obj {D : J} {kw : String} {members : List J}
    (hdk : decIdx kw = none) (hlen : kw ≠ "length")
    (hg : getProp D kw = .arr members) :
    ∃ fs, D = .obj fs ∧ lookupField fs kw = some (.arr members) := by
  cases D with
  | obj fields =>
      rw [getProp_obj] at hg
      cases hl : lookupField fields kw with
      | none => rw [hl] at hg; cases hg
      | some w =>
          rw [hl] at hg
          cases hg
          exact ⟨fields, rfl, hl⟩
  | arr es => rw [getProp, if_neg hlen, hdk] at hg; cases hg
  | str s => rw [getProp, if_neg hlen, hdk] at hg; cases hg
  | null => cases hg
  | undef => cases hg
  | bool b => cases hg
  | num n => cases hg

theorem selectFirst_root_kw {D out : J} {kw : String} {fuel : Nat}
    (hdk : decIdx kw = none) (hlen : kw ≠ "length")
    (hprop : hasArrProp D kw = true)
    (hrun : selectFirstS kw D fuel = .ok out) : hasRootKey out kw = true := by
  rw [hasArrProp] at hprop
  cases hg : getProp D kw with
  | arr members =>
      obtain ⟨fs, rfl, hl⟩ := getProp_arr_val_is_obj hdk hlen hg
      rw [selectFirstS, if_neg (by simp [truthy, isObjLike]), hg] at hrun
      cases members with
      | nil =>
          cases hrun
          rw [hasRootKey, hl]
          rfl
      | cons h t =>
          dsimp only at hrun
          cases h with
          | obj hf =>
              cases hpl : pickLoopP kw fuel (.obj hf) with
              | ok h1 =>
                  rw [hpl] at hrun
                  cases hrun
                  exact hasRootKey_setProp_obj fs kw _
              | terr => rw [hpl] at hrun; cases hrun
              | out => rw [hpl] at hrun; cases hrun
          | arr hes =>
              cases hpl : pickLoopP kw fuel (.arr hes) with
              | ok h1 =>
                  rw [hpl] at hrun
                  cases hrun
                  exact hasRootKey_setProp_obj fs kw _
              | terr => rw [hpl] at hrun; cases hrun
              | out => rw [hpl] at hrun; cases hrun
          | str st =>
              dsimp only at hrun
              by_cases hst : st = ""
              · rw [if_pos hst] at hrun
                cases hrun
                rw [hasRootKey, hl]
                rfl
              · rw [if_neg hst] at hrun
                cases hrun
          | null =>
              dsimp only at hrun
              cases hrun
              rw [hasRootKey, hl]
              rfl
          | undef =>
              dsimp only at hrun
              cases hrun
              rw [hasRootKey, hl]
              rfl
          | bool b =>
              dsimp only at hrun
              cases hrun
              rw [hasRootKey, hl]
              rfl
          | num n =>
              dsimp only at hrun
              cases hrun
              rw [hasRootKey, hl]
              rfl
  | obj fields => rw [hg] at hprop; cases hprop
  | str s => rw [hg] at hprop; cases hprop
  | null => rw [hg] at hprop; cases hprop
  | undef => rw [hg] at hprop; cases hprop
  | bool b => rw [hg] at hprop; cases hprop
  | num n => rw [hg] at hprop; cases hprop

/-- **C10** (confirmed).  Each wrapper discards its recursive helper's
return value, so when the root node itself carries the targeted keyword
with an array value, the replacement computed for the root is lost and
the returned document's root still contains that keyword key. -/
theorem claim_C10_root_keyword_survives (D : J) (fuel : Nat) :
    (∀ out, hasArrProp D "allOf" = true → flattenAllOfS D fuel = .ok out →
        hasRootKey out "allOf" = true)
    ∧ (∀ out, hasArrProp D "oneOf" = true → selectFirstOfOneOfS D fuel = .ok out →
        hasRootKey out "oneOf" = true)
    ∧ (∀ out, hasArrProp D "anyOf" = true → selectFirstOfAnyOfS D fuel = .ok out →
        hasRootKey out "anyOf" = true) := by
  refine ⟨?_, ?_, ?_⟩
  · intro out hprop hrun
    rw [hasArrProp] at hprop
    cases hg : getProp D "allOf" with
    | arr members =>
        obtain ⟨fs, rfl, hl⟩ := getProp_arr_val_is_obj (by decide) (by decide) hg
        rw [flattenAllOfS, if_neg (by simp [truthy, isObjLike]), hg] at hrun
        cases hrun
        rw [hasRootKey, hl]
        rfl
    | obj fields => rw [hg] at hprop; cases hprop
    | str s => rw [hg] at hprop; cases hprop
    | null => rw [hg] at hprop; cases hprop
    | undef => rw [hg] at hprop; cases hprop
    | bool b => rw [hg] at hprop; cases hprop
    | num n => rw [hg] at hprop; cases hprop
  · intro out hprop hrun
    exact selectFirst_root_kw (by decide) (by decide) hprop hrun
  · intro out hprop hrun
    exact selectFirst_root_kw (by decide) (by decide) hprop hrun

/-- Witness for C10: the three root-keyword documents. -/
theorem claim_C10_root_keyword_survives_witness :
    hasRootKey exRootAllOf "allOf" = true
    ∧ hasRootKey exRootOneOf "oneOf" = true
    ∧ hasRootKey exRootAnyOf "anyOf" = true :=
  ⟨(claim_C10_root_keyword_survives exRootAllOf 100).1 exRootAllOf rfl rfl,
   (claim_C10_root_keyword_survives exRootOneOf 100).2.1 exRootOneOf rfl rfl,
   (claim_C10_root_keyword_survives exRootAnyOf 100).2.2 exRootAnyOf rfl rfl⟩

/-! ## The `allOf` merge step -/

theorem not_mem_lookupField_none : ∀ {fs : List (String × J)} {k : String},
    k ∉ fs.map Prod.fst → lookupField fs k = none := by
  intro fs
  induction fs with
  | nil => intro k _; rfl
  | cons f t ih =>
      intro k h
      obtain ⟨k1, v1⟩ := f
      rw [List.map_cons] at h
      rw [lookupField, if_neg (fun hk => h (by rw [hk]; exact List.mem_cons_self _ _))]
      exact ih (fun hm => h (List.mem_cons_of_mem _ hm))

theorem lookupField_none_keys : ∀ {fs : List (String × J)} {k : String},
    lookupField fs k = none → ∀ kv ∈ fs, kv.1 ≠ k := by
  intro fs k h kv hm hk
  exact absurd (List.mem_map.mpr ⟨kv, hm, hk⟩) (lookupField_none_not_mem h)

theorem nodup_head : ∀ {k1 : String} {ks : List String},
    nodupKeys (k1 :: ks) = true → k1 ∉ ks ∧ nodupKeys ks = true := by
  intro k1 ks h
  rw [nodupKeys, Bool.and_eq_true] at h
  refine ⟨fun hm => ?_, h.2⟩
  have h1 := h.1
  rw [Bool.not_eq_true'] at h1
  rw [List.contains_iff_exists_mem_beq.mpr ⟨k1, hm, by simp⟩] at h1
  cases h1

theorem lookup_upsertAll_untouched : ∀ (kvs : List (String × J))
    (base : List (String × J)) (k : String), (∀ kv ∈ kvs, kv.1 ≠ k) →
    lookupField (upsertAll base kvs) k = lookupField base k := by
  intro kvs
  induction kvs with
  | nil => intro base k _; rfl
  | cons f t ih =>
      intro base k h
      obtain ⟨k1, v1⟩ := f
      rw [upsertAll, ih (upsertField base k1 v1) k
        (fun kv hm => h kv (List.mem_cons_of_mem _ hm))]
      exact lookupField_upsert_ne (Ne.symm (h (k1, v1) (List.mem_cons_self _ _))) base v1

theorem lookup_upsertAll_last : ∀ (kvs : List (String × J))
    (base : List (String × J)) (k : String) (v : J),
    nodupKeys (kvs.map Prod.fst) = true → lookupField kvs k = some v →
    lookupField (upsertAll base kvs) k = some v := by
  intro kvs
  induction kvs with
  | nil => intro base k v _ h; cases h
  | cons f t ih =>
      intro base k v hnd hl
      obtain ⟨k1, v1⟩ := f
      rw [List.map_cons] at hnd
      obtain ⟨hnm, hnd2⟩ := nodup_head hnd
      rw [lookupField] at hl
      by_cases hk : k1 = k
      · rw [if_pos hk] at hl
        cases hl
        subst hk
        rw [upsertAll, lookup_upsertAll_untouched t (upsertField base k1 v) k1
          (fun kv hm hkk => hnm (List.mem_map.mpr ⟨kv, hm, hkk⟩))]
        exact lookupField_upsert_self base k1 v
      · rw [if_neg hk] at hl
        rw [upsertAll]
        exact ih (upsertField base k1 v1) k v hnd2 hl

theorem allOfStep_eq (m sub : J) :
    allOfStep m sub = .obj (upsertField
      (upsertAll (upsertAll [] (spreadFields m)) (spreadFields sub)) "properties"
      (.obj (upsertAll (upsertAll [] (spreadFields
          (if truthy (getProp m "properties") then getProp m "properties"
            else J.obj [])))
        (spreadFields
          (if truthy (getProp sub "properties") then getProp sub "properties"
            else J.obj []))))) := rfl

/-- **C8** (confirmed).  `allOf` members are folded in array order
(`allOfMerge` is the left fold of `allOfStep` from `{}` followed by
`delete schema.allOf`).  One merge step `allOfStep m sub` satisfies: on a
key other than `properties`, a binding of `sub` wins (first conjunct) and
a binding of `m` survives when `sub` lacks the key (second conjunct); the
`properties` key holds the key-union of both members' `properties`, where
`sub`'s entries overwrite same-named entries of `m` (third conjunct) and
entries absent from `sub` survive (fourth conjunct).  On the claim's own
example `{allOf: [{properties: {a}}, {properties: {b}}]}`, `flattenAllOf`
produces a `properties` object containing both `a` and `b` (final
conjuncts). -/
theorem claim_C8_allOf_merge_semantics :
    (∀ m sf k v, k ≠ "properties" → nodupKeys (sf.map Prod.fst) = true →
      lookupField sf k = some v →
      ∃ F, allOfStep m (.obj sf) = .obj F ∧ lookupField F k = some v)
    ∧ (∀ mf sf k v, k ≠ "properties" → nodupKeys (mf.map Prod.fst) = true →
      lookupField sf k = none → lookupField mf k = some v →
      ∃ F, allOfStep (.obj mf) (.obj sf) = .obj F ∧ lookupField F k = some v)
    ∧ (∀ mf sf mp sp q w, lookupField mf "properties" = some (.obj mp) →
      lookupField sf "properties" = some (.obj sp) →
      nodupKeys (sp.map Prod.fst) = true → lookupField sp q = some w →
      ∃ F P, allOfStep (.obj mf) (.obj sf) = .obj F
        ∧ lookupField F "properties" = some (.obj P)
        ∧ lookupField P q = some w)
    ∧ (∀ mf sf mp sp q w, lookupField mf "properties" = some (.obj mp) →
      lookupField sf "properties" = some (.obj sp) →
      nodupKeys (mp.map Prod.fst) = true → lookupField sp q = none →
      lookupField mp q = some w →
      ∃ F P, allOfStep (.obj mf) (.obj sf) = .obj F
        ∧ lookupField F "properties" = some (.obj P)
        ∧ lookupField P q = some w)
    ∧ processAllOfP 100 exProps = .ok exPropsOut
    ∧ getProp (getProp exPropsOut "properties") "a" = .obj [("t", .num 1)]
    ∧ getProp (getProp exPropsOut "properties") "b" = .obj [("t", .num 2)] := by
  refine ⟨?_, ?_, ?_, ?_, rfl, rfl, rfl⟩
  · intro m sf k v hk hnd hl
    refine ⟨_, allOfStep_eq m (.obj sf), ?_⟩
    rw [lookupField_upsert_ne hk]
    exact lookup_upsertAll_last sf _ k v hnd hl
  · intro mf sf k v hk hnd hls hlm
    refine ⟨_, allOfStep_eq (.obj mf) (.obj sf), ?_⟩
    rw [lookupField_upsert_ne hk]
    rw [show spreadFields (J.obj sf) = sf from rfl,
      lookup_upsertAll_untouched sf _ k (lookupField_none_keys hls)]
    exact lookup_upsertAll_last mf _ k v hnd hlm
  · intro mf sf mp sp q w hlm hls hnd hq
    refine ⟨_, upsertAll (upsertAll [] mp) sp,
      allOfStep_eq (.obj mf) (.obj sf), ?_, ?_⟩
    · rw [lookupField_upsert_self,
        show getProp (J.obj sf) "properties" = .obj sp from by
          rw [getProp_obj, hls]; rfl,
        show getProp (J.obj mf) "properties" = .obj mp from by
          rw [getProp_obj, hlm]; rfl,
        if_pos (show truthy (J.obj mp) = true from rfl),
        if_pos (show truthy (J.obj sp) = true from rfl)]
      rfl
    · exact lookup_upsertAll_last sp _ q w hnd hq
  · intro mf sf mp sp q w hlm hls hnd hqs hqm
    refine ⟨_, upsertAll (upsertAll [] mp) sp,
      allOfStep_eq (.obj mf) (.obj sf), ?_, ?_⟩
    · rw [lookupField_upsert_self,
        show getProp (J.obj sf) "properties" = .obj sp from by
          rw [getProp_obj, hls]; rfl,
        show getProp (J.obj mf) "properties" = .obj mp from by
          rw [getProp_obj, hlm]; rfl,
        if_pos (show truthy (J.obj mp) = true from rfl),
        if_pos (show truthy (J.obj sp) = true from rfl)]
      rfl
    · rw [lookup_upsertAll_untouched sp _ q (lookupField_none_keys hqs)]
      exact lookup_upsertAll_last mp _ q w hnd hqm

/-! ## Keyword elimination by `selectFirstOfOneOf` / `selectFirstOfAnyOf` -/

theorem keyFree_scalar {v : J} (h : isObjLike v = false) (k : String) :
    keyFree k v = true := by
  cases v with
  | obj fields => simp [isObjLike] at h
  | arr es => simp [isObjLike] at h
  | null => rfl
  | undef => rfl
  | bool b => rfl
  | num n => rfl
  | str s => rfl

theorem okPick_scalar {v : J} (h : isObjLike v = false) (kw : String) :
    okPick kw v = true := by
  cases v with
  | obj fields => simp [isObjLike] at h
  | arr es => simp [isObjLike] at h
  | null => rfl
  | undef => rfl
  | bool b => rfl
  | num n => rfl
  | str s => rfl

theorem keyFreeFields_keys {kw : String} : ∀ {fs : List (String × J)} {k1 : String}
    {v : J}, keyFreeFields kw fs = true → (k1, v) ∈ fs → k1 ≠ kw := by
  intro fs
  induction fs with
  | nil => intro k1 v _ hm; cases hm
  | cons f t ih =>
      intro k1 v hk hm
      obtain ⟨k2, v2⟩ := f
      rw [keyFreeFields, Bool.and_eq_true, Bool.and_eq_true] at hk
      rcases List.mem_cons.mp hm with h1 | h1
      · cases h1
        simpa using hk.1.1
      · exact ih hk.2 h1

theorem encIdx_ne_of_decIdx_none {kw : String} (hdk : decIdx kw = none)
    (n : Nat) : encIdx n ≠ kw := by
  intro h
  rw [← h, decIdx_encIdx] at hdk
  cases hdk

theorem keyFree_spread_values {kw : String} (hdk : decIdx kw = none) {u : J}
    (hk : keyFree kw u = true) :
    ∀ kv ∈ spreadFields u, kv.1 ≠ kw ∧ keyFree kw kv.2 = true := by
  intro kv hm
  cases u with
  | obj fields =>
      rw [spreadFields] at hm
      obtain ⟨k1, v1⟩ := kv
      rw [keyFree] at hk
      exact ⟨keyFreeFields_keys hk hm, keyFreeFields_mem hk hm⟩
  | arr es =>
      obtain ⟨n, hn, hkv⟩ := mem_spread_arr.mp hm
      cases hkv
      rw [keyFree] at hk
      exact ⟨encIdx_ne_of_decIdx_none hdk n,
        keyFreeList_mem hk (getD_mem es n hn .undef)⟩
  | str s =>
      rw [spreadFields] at hm
      simp only [List.mem_map] at hm
      obtain ⟨⟨i, c⟩, _, heq⟩ := hm
      cases heq
      exact ⟨encIdx_ne_of_decIdx_none hdk i, rfl⟩
  | null => cases hm
  | undef => cases hm
  | bool b => cases hm
  | num n => cases hm

theorem keyFreeFields_of_forall {kw : String} : ∀ {fs : List (String × J)},
    (∀ kv ∈ fs, kv.1 ≠ kw ∧ keyFree kw kv.2 = true) → keyFreeFields kw fs = true := by
  intro fs
  induction fs with
  | nil => intro _; rfl
  | cons f t ih =>
      intro h
      obtain ⟨k1, v1⟩ := f
      obtain ⟨hne, hkv⟩ := h (k1, v1) (List.mem_cons_self _ _)
      rw [keyFreeFields, Bool.and_eq_true, Bool.and_eq_true]
      exact ⟨⟨by simpa using hne, hkv⟩, ih (fun kv hm => h kv (List.mem_cons_of_mem _ hm))⟩

theorem keyFreeList_of_forall {kw : String} : ∀ {es : List J},
    (∀ x ∈ es, keyFree kw x = true) → keyFreeList kw es = true := by
  intro es
  induction es with
  | nil => intro _; rfl
  | cons e t ih =>
      intro h
      rw [keyFreeList, Bool.and_eq_true]
      exact ⟨h e (List.mem_cons_self _ _), ih (fun x hm => h x (List.mem_cons_of_mem _ hm))⟩

theorem keyFree_of_spread {kw : String} {v : J} (hobj : isObjLike v = true)
    (h : ∀ kv ∈ spreadFields v, kv.1 ≠ kw ∧ keyFree kw kv.2 = true) :
    keyFree kw v = true := by
  cases v with
  | obj fields =>
      rw [keyFree]
      exact keyFreeFields_of_forall h
  | arr es =>
      rw [keyFree]
      apply keyFreeList_of_forall
      intro x hm
      obtain ⟨n, hn, hx⟩ := (mem_getD es x).mp hm
      exact (h (encIdx n, x) (mem_spread_arr.mpr ⟨n, hn, by rw [hx]⟩)).2
  | null => simp [isObjLike] at hobj
  | undef => simp [isObjLike] at hobj
  | bool b => simp [isObjLike] at hobj
  | num n => simp [isObjLike] at hobj
  | str s => simp [isObjLike] at hobj

theorem okPickFields_mem {kw : String} : ∀ {fs : List (String × J)} {k1 : String}
    {v : J}, okPickFields kw fs = true → (k1, v) ∈ fs → okPick kw v = true := by
  intro fs
  induction fs with
  | nil => intro k1 v _ hm; cases hm
  | cons f t ih =>
      intro k1 v hk hm
      obtain ⟨k2, v2⟩ := f
      rw [okPickFields, Bool.and_eq_true] at hk
      rcases List.mem_cons.mp hm with h1 | h1
      · cases h1; exact hk.1
      · exact ih hk.2 h1

theorem okPickList_mem {kw : String} : ∀ {es : List J} {v : J},
    okPickList kw es = true → v ∈ es → okPick kw v = true := by
  intro es
  induction es with
  | nil => intro v _ hm; cases hm
  | cons e t ih =>
      intro v hk hm
      rw [okPickList, Bool.and_eq_true] at hk
      rcases List.mem_cons.mp hm with h1 | h1
      · cases h1; exact hk.1
      · exact ih hk.2 h1

theorem okPick_keyFree_aux (kw : String) : ∀ n : Nat,
    (∀ v, szJ v ≤ n → keyFree kw v = true → okPick kw v = true)
    ∧ (∀ fs, szFields fs ≤ n → keyFreeFields kw fs = true →
        okPickFields kw fs = true)
    ∧ (∀ es, szList es ≤ n → keyFreeList kw es = true →
        okPickList kw es = true) := by
  intro n
  induction n with
  | zero =>
      refine ⟨?_, ?_, ?_⟩
      · intro v hs _; have := szJ_pos v; omega
      · intro fs hs _; have := szFields_ge_length fs; omega
      · intro es hs _; have := szList_ge_length es; omega
  | succ m ih =>
      obtain ⟨ihV, ihF, ihL⟩ := ih
      refine ⟨?_, ?_, ?_⟩
      · intro v hs hk
        cases v with
        | obj fields =>
            rw [keyFree] at hk
            have hl : lookupField fields kw = none := by
              apply not_mem_lookupField_none
              intro hm
              obtain ⟨⟨k1, v1⟩, hmem, hfst⟩ := List.mem_map.mp hm
              exact keyFreeFields_keys hk hmem hfst
            rw [okPick, hl]
            rw [szJ] at hs
            exact ihF fields (by omega) hk
        | arr es =>
            rw [keyFree] at hk
            rw [okPick]
            rw [szJ] at hs
            exact ihL es (by omega) hk
        | null => rfl
        | undef => rfl
        | bool b => rfl
        | num k => rfl
        | str s => rfl
      · intro fs hs hk
        cases fs with
        | nil => rfl
        | cons f t =>
            obtain ⟨k1, v1⟩ := f
            rw [keyFreeFields, Bool.and_eq_true, Bool.and_eq_true] at hk
            obtain ⟨⟨_, hkv⟩, ht⟩ := hk
            rw [szFields] at hs
            rw [okPickFields, Bool.and_eq_true]
            have h1 := szFields_ge_length t
            have h2 := szJ_pos v1
            exact ⟨ihV v1 (by omega) hkv, ihF t (by omega) ht⟩
      · intro es hs hk
        cases es with
        | nil => rfl
        | cons e t =>
            rw [keyFreeList, Bool.and_eq_true] at hk
            obtain ⟨hkv, ht⟩ := hk
            rw [szList] at hs
            rw [okPickList, Bool.and_eq_true]
            have h1 := szList_ge_length t
            have h2 := szJ_pos e
            exact ⟨ihV e (by omega) hkv, ihL t (by omega) ht⟩

theorem okPick_of_keyFree {kw : String} {v : J} (h : keyFree kw v = true) :
    okPick kw v = true :=
  (okPick_keyFree_aux kw (szJ v)).1 v (Nat.le_refl _) h

theorem okPick_getProp_of_spread {kw : String} {v : J}
    (h : ∀ kv ∈ spreadFields v, okPick kw kv.2 = true) (k : String) :
    okPick kw (getProp v k) = true := by
  cases v with
  | obj fields =>
      rw [getProp_obj]
      cases hl : lookupField fields k with
      | none => rfl
      | some w =>
          exact h (k, w) (by rw [spreadFields]; exact lookupField_mem hl)
  | arr es =>
      rw [getProp]
      by_cases hlen : k = "length"
      · rw [if_pos hlen]; rfl
      · rw [if_neg hlen]
        cases hdk : decIdx k with
        | none => rfl
        | some n =>
            dsimp only
            by_cases hn : n < es.length
            · rw [if_pos hn]
              exact h (encIdx n, es.getD n .undef)
                (mem_spread_arr.mpr ⟨n, hn, rfl⟩)
            · rw [if_neg hn]; rfl
  | str s =>
      exact okPick_scalar
        (getProp_scalar_scalar (show isObjLike (J.str s) = false from rfl) k) kw
  | null => rfl
  | undef => rfl
  | bool b => rfl
  | num n => rfl

theorem pick_inv (kw : String) (hdk : decIdx kw = none) : ∀ fuel : Nat,
    (∀ v r, wfJ v = true → okPick kw v = true → processPickP kw fuel v = .ok r →
        keyFree kw r = true ∧ wfJ r = true)
    ∧ (∀ u r, wfJ u = true →
        (∀ kv ∈ spreadFields u, kv.1 ≠ kw) →
        (∀ kv ∈ spreadFields u, okPick kw kv.2 = true) →
        pickLoopP kw fuel u = .ok r → keyFree kw r = true ∧ wfJ r = true)
    ∧ (∀ v ks r, wfJ v = true → isObjLike v = true →
        (∀ kv ∈ spreadFields v, kv.1 ≠ kw) →
        (∀ k1 ∈ ks, k1 ≠ kw) →
        (∀ kv ∈ spreadFields v, okPick kw kv.2 = true) →
        (∀ kv ∈ spreadFields v, kv.1 ∉ ks → keyFree kw kv.2 = true) →
        pickFieldsP kw fuel v ks = .ok r → keyFree kw r = true ∧ wfJ r = true) := by
  intro fuel
  induction fuel with
  | zero =>
      refine ⟨?_, ?_, ?_⟩
      · intro v r _ _ h; rw [processPickP] at h; cases h
      · intro u r _ _ _ h; rw [pickLoopP] at h; cases h
      · intro v ks r _ _ _ _ _ _ h; rw [pickFieldsP] at h; cases h
  | succ f ih =>
      obtain ⟨ihP, ihL, ihF⟩ := ih
      refine ⟨?_, ?_, ?_⟩
      · -- processPickP
        intro v r hwf hok h
        rw [processPickP] at h
        by_cases hc : (truthy v && isObjLike v) = true
        · rw [hc, Bool.not_true, if_neg (by simp)] at h
          have hobj : isObjLike v = true := (Bool.and_eq_true _ _ |>.mp hc).2
          cases v with
          | obj fields =>
              cases hl : lookupField fields kw with
              | none =>
                  have hg : getProp (J.obj fields) kw = .undef := by
                    rw [getProp_obj, hl]
                    rfl
                  rw [hg] at h
                  dsimp only at h
                  rw [okPick, hl] at hok
                  refine ihL (.obj fields) r hwf (lookupField_none_keys hl) ?_ h
                  intro kv hm
                  obtain ⟨k1, v1⟩ := kv
                  exact okPickFields_mem hok hm
              | some w =>
                  have hg : getProp (J.obj fields) kw = w := by
                    rw [getProp_obj, hl]
                    rfl
                  rw [hg] at h
                  rw [okPick, hl] at hok
                  cases w with
                  | arr members =>
                      dsimp only at h hok
                      cases members with
                      | nil =>
                          dsimp only [List.headD] at h
                          exact ihL .undef r rfl
                            (fun kv hm => absurd hm (List.not_mem_nil kv))
                            (fun kv hm => absurd hm (List.not_mem_nil kv)) h
                      | cons h1 t =>
                          dsimp only [List.headD] at h
                          have hwfm : wfJ (J.arr (h1 :: t)) = true := by
                            have h2 := wf_getProp hwf kw
                            rw [hg] at h2
                            exact h2
                          rw [wfJ, wfList, Bool.and_eq_true] at hwfm
                          have hkv := keyFree_spread_values hdk hok
                          exact ihL h1 r hwfm.1
                            (fun kv hm => (hkv kv hm).1)
                            (fun kv hm => okPick_of_keyFree (hkv kv hm).2) h
                  | obj wf2 => dsimp only at hok; cases hok
                  | str s => dsimp only at hok; cases hok
                  | null => dsimp only at hok; cases hok
                  | undef => dsimp only at hok; cases hok
                  | bool b => dsimp only at hok; cases hok
                  | num n => dsimp only at hok; cases hok
          | arr es =>
              rw [okPick] at hok
              have hone : pickLoopP kw f (J.arr es) = .ok r := by
                by_cases hlen : kw = "length"
                · rw [show getProp (J.arr es) kw = .num es.length from by
                    rw [getProp, if_pos hlen]] at h
                  exact h
                · rw [show getProp (J.arr es) kw = .undef from by
                    rw [getProp, if_neg hlen, hdk]] at h
                  exact h
              refine ihL (.arr es) r hwf ?_ ?_ hone
              · intro kv hm
                obtain ⟨n, hn, hkv⟩ := mem_spread_arr.mp hm
                cases hkv
                exact encIdx_ne_of_decIdx_none hdk n
              · intro kv hm
                obtain ⟨n, hn, hkv⟩ := mem_spread_arr.mp hm
                cases hkv
                exact okPickList_mem hok (getD_mem es n hn .undef)
          | null => simp [isObjLike] at hobj
          | undef => simp [isObjLike] at hobj
          | bool b => simp [isObjLike] at hobj
          | num n => simp [isObjLike] at hobj
          | str s => simp [isObjLike] at hobj
        · have hobj : isObjLike v = false := by
            cases ho : isObjLike v with
            | false => rfl
            | true =>
                exact absurd (by rw [truthy_of_objLike ho, ho]; rfl) hc
          rw [if_pos (by rw [Bool.not_eq_true']; rw [Bool.eq_false_iff]; exact hc)] at h
          cases h
          exact ⟨keyFree_scalar hobj kw, hwf⟩
      · -- pickLoopP
        intro u r hwf hks hok h
        cases u with
        | str st =>
            rw [pickLoopP] at h
            by_cases hst : st = ""
            · rw [if_pos hst] at h
              cases h
              exact ⟨rfl, rfl⟩
            · rw [if_neg hst] at h
              cases h
        | obj fields =>
            rw [pickLoopP] at h
            have hobj : isObjLike (J.obj fields) = true := rfl
            refine ihF (.obj fields) (keysOf (.obj fields)) r hwf rfl hks ?_ hok ?_ h
            · intro k1 hk1
              obtain ⟨c, hc⟩ := mem_keysOf_childAt hobj hk1
              exact hks (k1, c) (childAt_mem_spread hc)
            · intro kv hm hnk
              exact absurd (spread_key_mem_keysOf hobj kv hm) hnk
        | arr es =>
            rw [pickLoopP] at h
            have hobj : isObjLike (J.arr es) = true := rfl
            refine ihF (.arr es) (keysOf (.arr es)) r hwf rfl hks ?_ hok ?_ h
            · intro k1 hk1
              obtain ⟨c, hc⟩ := mem_keysOf_childAt hobj hk1
              exact hks (k1, c) (childAt_mem_spread hc)
            · intro kv hm hnk
              exact absurd (spread_key_mem_keysOf hobj kv hm) hnk
        | null =>
            rw [show pickLoopP kw (f + 1) J.null = .ok J.null from rfl] at h
            cases h
            exact ⟨rfl, rfl⟩
        | undef =>
            rw [show pickLoopP kw (f + 1) J.undef = .ok J.undef from rfl] at h
            cases h
            exact ⟨rfl, rfl⟩
        | bool b =>
            rw [show pickLoopP kw (f + 1) (J.bool b) = .ok (J.bool b) from rfl] at h
            cases h
            exact ⟨rfl, rfl⟩
        | num n =>
            rw [show pickLoopP kw (f + 1) (J.num n) = .ok (J.num n) from rfl] at h
            cases h
            exact ⟨rfl, rfl⟩
      · -- pickFieldsP
        intro v ks r hwf hobj hks hkls hok hdone h
        cases ks with
        | nil =>
            rw [pickFieldsP] at h
            cases h
            exact ⟨keyFree_of_spread hobj
              (fun kv hm => ⟨hks kv hm, hdone kv hm (by simp)⟩), hwf⟩
        | cons k ks2 =>
            rw [pickFieldsP] at h
            cases hr1 : processPickP kw f (getProp v k) with
            | terr => rw [hr1] at h; cases h
            | out => rw [hr1] at h; cases h
            | ok r1 =>
                rw [hr1] at h
                dsimp only at h
                obtain ⟨hkf1, hwf1⟩ := ihP (getProp v k) r1 (wf_getProp hwf k)
                  (okPick_getProp_of_spread hok k) hr1
                refine ihF (setProp v k r1) ks2 r
                  (wf_setProp_total hwf hwf1 k)
                  (by rw [isObjLike_setProp]; exact hobj) ?_ 
                  (fun k1 hk1 => hkls k1 (List.mem_cons_of_mem k hk1)) ?_ ?_ h
                · intro kv hm
                  rcases mem_spread_setProp hwf hobj kv hm with ⟨hold, _⟩ | heq
                  · exact hks kv hold
                  · cases heq
                    exact hkls k (List.mem_cons_self k ks2)
                · intro kv hm
                  rcases mem_spread_setProp hwf hobj kv hm with ⟨hold, _⟩ | heq
                  · exact hok kv hold
                  · cases heq
                    exact okPick_of_keyFree hkf1
                · intro kv hm hnk
                  rcases mem_spread_setProp hwf hobj kv hm with ⟨hold, hne⟩ | heq
                  · refine hdone kv hold ?_
                    intro hmm
                    rcases List.mem_cons.mp hmm with h1 | h1
                    · exact hne h1
                    · exact hnk h1
                  · cases heq
                    exact hkf1

theorem selectFirst_keyFree {kw : String} (hdk : decIdx kw = none)
    (hlen : kw ≠ "length") {D r : J} {fuel : Nat}
    (hwf : wfJ D = true) (hok : okPick kw D = true)
    (hroot : hasRootKey D kw = false)
    (hrun : selectFirstS kw D fuel = .ok r) : keyFree kw r = true := by
  rw [selectFirstS] at hrun
  by_cases hc : (truthy D && isObjLike D) = true
  · rw [hc, Bool.not_true, if_neg (by simp)] at hrun
    have hobj : isObjLike D = true := (Bool.and_eq_true _ _ |>.mp hc).2
    cases D with
    | obj fields =>
        rw [hasRootKey] at hroot
        cases hl : lookupField fields kw with
        | some w =>
            rw [hl] at hroot
            cases hroot
        | none =>
            rw [show getProp (J.obj fields) kw = .undef from by
              rw [getProp_obj, hl]; rfl] at hrun
            dsimp only at hrun
            rw [okPick, hl] at hok
            refine ((pick_inv kw hdk fuel).2.2 (.obj fields)
              (keysOf (.obj fields)) r hwf rfl
              (lookupField_none_keys hl) ?_ ?_ ?_ hrun).1
            · intro k1 hk1
              obtain ⟨c, hc2⟩ := mem_keysOf_childAt hobj hk1
              exact lookupField_none_keys hl (k1, c) (childAt_mem_spread hc2)
            · intro kv hm
              obtain ⟨k1, v1⟩ := kv
              exact okPickFields_mem hok hm
            · intro kv hm hnk
              exact absurd (spread_key_mem_keysOf hobj kv hm) hnk
    | arr es =>
        rw [okPick] at hok
        have hne : ∀ kv ∈ spreadFields (J.arr es), kv.1 ≠ kw := by
          intro kv hm
          obtain ⟨n, hn, hkv⟩ := mem_spread_arr.mp hm
          cases hkv
          exact encIdx_ne_of_decIdx_none hdk n
        rw [show getProp (J.arr es) kw = .undef from by
          rw [getProp, if_neg hlen, hdk]] at hrun
        dsimp only at hrun
        refine ((pick_inv kw hdk fuel).2.2 (.arr es) (keysOf (.arr es)) r hwf
          rfl hne ?_ ?_ ?_ hrun).1
        · intro k1 hk1
          obtain ⟨c, hc2⟩ := mem_keysOf_childAt hobj hk1
          exact hne (k1, c) (childAt_mem_spread hc2)
        · intro kv hm
          obtain ⟨n, hn, hkv⟩ := mem_spread_arr.mp hm
          cases hkv
          exact okPickList_mem hok (getD_mem es n hn .undef)
        · intro kv hm hnk
          exact absurd (spread_key_mem_keysOf hobj kv hm) hnk
    | null => simp [isObjLike] at hobj
    | undef => simp [isObjLike] at hobj
    | bool b => simp [isObjLike] at hobj
    | num n => simp [isObjLike] at hobj
    | str s => simp [isObjLike] at hobj
  · have hobj : isObjLike D = false := by
      cases ho : isObjLike D with
      | false => rfl
      | true => exact absurd (by rw [truthy_of_objLike ho, ho]; rfl) hc
    rw [if_pos (by rw [Bool.not_eq_true', Bool.eq_false_iff]; exact hc)] at hrun
    cases hrun
    exact keyFree_scalar hobj kw

/-- **C5** (corrected).  A root-level keyword survives (the helper's
return value is discarded; see the counterexample), and a replacement's
own top-level keyword is never re-examined.  The claim is amended to:
for a well-formed document whose root carries no `oneOf` (resp. `anyOf`)
binding and in which every `oneOf` (resp. `anyOf`) binding is an array
whose first element is free of the keyword, the document returned by
`selectFirstOfOneOf` (resp. `selectFirstOfAnyOf`) contains no `oneOf`
(resp. `anyOf`) key anywhere. -/
theorem claim_C5_keyword_elimination :
    (∀ D r fuel, wfJ D = true → okPick "oneOf" D = true →
        hasRootKey D "oneOf" = false → selectFirstOfOneOfS D fuel = .ok r →
        keyFree "oneOf" r = true)
    ∧ (∀ D r fuel, wfJ D = true → okPick "anyOf" D = true →
        hasRootKey D "anyOf" = false → selectFirstOfAnyOfS D fuel = .ok r →
        keyFree "anyOf" r = true) := by
  constructor
  · intro D r fuel hwf hok hroot hrun
    exact selectFirst_keyFree (by decide) (by decide) hwf hok hroot hrun
  · intro D r fuel hwf hok hroot hrun
    exact selectFirst_keyFree (by decide) (by decide) hwf hok hroot hrun

/-- Witness for C5: a document holding a `oneOf` (resp. `anyOf`) node
below the root loses the keyword. -/
theorem claim_C5_keyword_elimination_witness :
    keyFree "oneOf"
      (J.obj [("w", J.obj [("x", J.num 1)])]) = true
    ∧ keyFree "anyOf"
      (J.obj [("w", J.obj [("x", J.num 1)])]) = true :=
  ⟨claim_C5_keyword_elimination.1
      (J.obj [("w", J.obj [("oneOf", J.arr [J.obj [("x", J.num 1)]])])])
      (J.obj [("w", J.obj [("x", J.num 1)])]) 100 rfl rfl rfl rfl,
   claim_C5_keyword_elimination.2
      (J.obj [("w", J.obj [("anyOf", J.arr [J.obj [("x", J.num 1)]])])])
      (J.obj [("w", J.obj [("x", J.num 1)])]) 100 rfl rfl rfl rfl⟩

/-! ## `allOf` elimination: well-formedness of the merge -/

theorem contains_eq_mem {l : List String} {k : String} :
    l.contains k = true ↔ k ∈ l := by
  constructor
  · intro h
    obtain ⟨a, ha, hbeq⟩ := List.contains_iff_exists_mem_beq.mp h
    rw [show k = a from by simpa using hbeq]
    exact ha
  · intro h
    exact List.contains_iff_exists_mem_beq.mpr ⟨k, h, by simp⟩

theorem nodupKeys_filter (p : String × J → Bool) : ∀ {fs : List (String × J)},
    nodupKeys (fs.map Prod.fst) = true →
    nodupKeys ((fs.filter p).map Prod.fst) = true := by
  intro fs
  induction fs with
  | nil => intro _; rfl
  | cons f t ih =>
      intro h
      rw [List.map_cons, nodupKeys, Bool.and_eq_true] at h
      by_cases hp : p f = true
      · rw [List.filter_cons_of_pos hp, List.map_cons, nodupKeys,
          Bool.and_eq_true]
        refine ⟨?_, ih h.2⟩
        rw [Bool.not_eq_true']
        cases hcon : ((t.filter p).map Prod.fst).contains f.1 with
        | false => rfl
        | true =>
            exfalso
            have hmem := contains_eq_mem.mp hcon
            obtain ⟨kv, hkv, hfst⟩ := List.mem_map.mp hmem
            have h2 : f.1 ∈ t.map Prod.fst :=
              List.mem_map.mpr ⟨kv, List.mem_of_mem_filter hkv, hfst⟩
            have h3 := h.1
            rw [Bool.not_eq_true', contains_eq_mem.mpr h2] at h3
            cases h3
      · rw [List.filter_cons_of_neg hp]
        exact ih h.2

theorem wfFields_filter (p : String × J → Bool) : ∀ {fs : List (String × J)},
    wfFields fs = true → wfFields (fs.filter p) = true := by
  intro fs
  induction fs with
  | nil => intro _; rfl
  | cons f t ih =>
      intro h
      obtain ⟨k1, v1⟩ := f
      rw [wfFields, Bool.and_eq_true] at h
      by_cases hp : p (k1, v1) = true
      · rw [List.filter_cons_of_pos hp, wfFields, Bool.and_eq_true]
        exact ⟨h.1, ih h.2⟩
      · rw [List.filter_cons_of_neg hp]
        exact ih h.2

theorem mem_removeField {fs : List (String × J)} {k : String}
    {kv : String × J} (h : kv ∈ removeField fs k) : kv ∈ fs ∧ kv.1 ≠ k := by
  rw [removeField] at h
  obtain ⟨h1, h2⟩ := List.mem_filter.mp h
  exact ⟨h1, by simpa using h2⟩

theorem wf_removeField {fs : List (String × J)} {k : String}
    (h : wfJ (.obj fs) = true) : wfJ (.obj (removeField fs k)) = true := by
  obtain ⟨h1, h2⟩ := wf_obj_parts h
  rw [wfJ, Bool.and_eq_true, removeField]
  exact ⟨nodupKeys_filter _ h1, wfFields_filter _ h2⟩

theorem wf_spread_values {v : J} (hv : wfJ v = true) :
    ∀ kv ∈ spreadFields v, wfJ kv.2 = true := by
  intro kv hm
  cases v with
  | obj fields =>
      rw [spreadFields] at hm
      obtain ⟨k1, v1⟩ := kv
      exact wfFields_mem (wf_obj_parts hv).2 hm
  | arr es =>
      obtain ⟨n, hn, hkv⟩ := mem_spread_arr.mp hm
      cases hkv
      rw [wfJ] at hv
      exact wfList_mem hv (getD_mem es n hn .undef)
  | str s =>
      rw [spreadFields] at hm
      simp only [List.mem_map] at hm
      obtain ⟨⟨i, c⟩, _, heq⟩ := hm
      cases heq
      rfl
  | null => cases hm
  | undef => cases hm
  | bool b => cases hm
  | num n => cases hm

theorem wf_upsertAll : ∀ (kvs : List (String × J)) (base : List (String × J)),
    nodupKeys (base.map Prod.fst) = true → wfFields base = true →
    (∀ kv ∈ kvs, wfJ kv.2 = true) →
    nodupKeys ((upsertAll base kvs).map Prod.fst) = true
      ∧ wfFields (upsertAll base kvs) = true := by
  intro kvs
  induction kvs with
  | nil => intro base h1 h2 _; exact ⟨h1, h2⟩
  | cons f t ih =>
      intro base h1 h2 h3
      obtain ⟨k1, v1⟩ := f
      rw [upsertAll]
      refine ih (upsertField base k1 v1) ?_
        (wfFields_upsert h2 (h3 (k1, v1) (List.mem_cons_self _ _)))
        (fun kv hm => h3 kv (List.mem_cons_of_mem _ hm))
      cases hl : lookupField base k1 with
      | some w =>
          rw [upsertField_keys (by rw [hl]; rfl)]
          exact h1
      | none =>
          rw [upsertField_keys_absent hl v1]
          exact nodupKeys_append_singleton h1 (lookupField_none_not_mem hl)

theorem wf_obj_upsert2 {a b : J} (ha : wfJ a = true) (hb : wfJ b = true) :
    wfJ (.obj (upsertAll (upsertAll [] (spreadFields a))
      (spreadFields b))) = true := by
  obtain ⟨h1, h2⟩ := wf_upsertAll (spreadFields a) [] rfl rfl (wf_spread_values ha)
  obtain ⟨h3, h4⟩ := wf_upsertAll (spreadFields b) _ h1 h2 (wf_spread_values hb)
  rw [wfJ, Bool.and_eq_true]
  exact ⟨h3, h4⟩

theorem wf_allOfStep {m sub : J} (hm : wfJ m = true) (hsub : wfJ sub = true) :
    wfJ (allOfStep m sub) = true := by
  rw [allOfStep_eq]
  have hmp : wfJ (if truthy (getProp m "properties") then getProp m "properties"
      else J.obj []) = true := by
    by_cases h : truthy (getProp m "properties") = true
    · rw [if_pos h]; exact wf_getProp hm "properties"
    · rw [if_neg h]; rfl
  have hsp : wfJ (if truthy (getProp sub "properties") then getProp sub "properties"
      else J.obj []) = true := by
    by_cases h : truthy (getProp sub "properties") = true
    · rw [if_pos h]; exact wf_getProp hsub "properties"
    · rw [if_neg h]; rfl
  have hprops := wf_obj_upsert2 hmp hsp
  have hinner := wf_obj_upsert2 hm hsub
  have h2 := wf_setProp_total hinner hprops "properties"
  rw [setProp_obj_def] at h2
  exact h2

theorem foldl_allOfStep_obj_wf : ∀ (members : List J) (z : J),
    wfJ z = true → (∃ zfs, z = .obj zfs) → (∀ x ∈ members, wfJ x = true) →
    ∃ fs0, members.foldl allOfStep z = .obj fs0 ∧ wfJ (.obj fs0) = true := by
  intro members
  induction members with
  | nil =>
      intro z hz hobj _
      obtain ⟨zfs, rfl⟩ := hobj
      exact ⟨zfs, rfl, hz⟩
  | cons m t ih =>
      intro z hz _ hall
      rw [List.foldl_cons]
      refine ih (allOfStep z m) (wf_allOfStep hz (hall m (List.mem_cons_self _ _)))
        ⟨_, allOfStep_eq z m⟩ (fun x hm => hall x (List.mem_cons_of_mem _ hm))

theorem allOfMerge_obj {members : List J} (hall : ∀ x ∈ members, wfJ x = true) :
    ∃ fs0, allOfMerge members = .obj (removeField fs0 "allOf")
      ∧ wfJ (allOfMerge members) = true := by
  obtain ⟨fs0, hf, hwf⟩ := foldl_allOfStep_obj_wf members (.obj []) rfl ⟨[], rfl⟩ hall
  rw [allOfMerge, hf]
  exact ⟨fs0, rfl, wf_removeField hwf⟩

/-! ## `allOf` elimination below the root -/

theorem noArrKey_scalar {v : J} (h : isObjLike v = false) (kw : String) :
    noArrKey kw v = true := by
  cases v with
  | obj fields => simp [isObjLike] at h
  | arr es => simp [isObjLike] at h
  | null => rfl
  | undef => rfl
  | bool b => rfl
  | num n => rfl
  | str s => rfl

theorem notArr_match {v : J} (h : isArrJ v = false) :
    (match v with | J.arr _ => false | _ => true) = true := by
  cases v with
  | arr es => rw [isArrJ] at h; cases h
  | obj fields => rfl
  | null => rfl
  | undef => rfl
  | bool b => rfl
  | num n => rfl
  | str s => rfl

theorem noArrKeyFields_of_forall {kw : String} : ∀ {fs : List (String × J)},
    (∀ kv ∈ fs, (kv.1 = kw → isArrJ kv.2 = false) ∧ noArrKey kw kv.2 = true) →
    noArrKeyFields kw fs = true := by
  intro fs
  induction fs with
  | nil => intro _; rfl
  | cons f t ih =>
      intro h
      obtain ⟨k1, v1⟩ := f
      obtain ⟨hk, hv⟩ := h (k1, v1) (List.mem_cons_self _ _)
      cases v1 with
      | arr es =>
          have hkk : k1 ≠ kw := fun hh => by cases hk hh
          rw [show noArrKeyFields kw ((k1, J.arr es) :: t) =
              ((if k1 = kw then false else true) && noArrKey kw (J.arr es)
                && noArrKeyFields kw t) from rfl,
            if_neg hkk, Bool.true_and, Bool.and_eq_true]
          exact ⟨hv, ih (fun kv hm => h kv (List.mem_cons_of_mem _ hm))⟩
      | obj fs1 =>
          rw [show noArrKeyFields kw ((k1, (J.obj fs1)) :: t) =
              ((if k1 = kw then true else true) && noArrKey kw (J.obj fs1)
                && noArrKeyFields kw t) from rfl,
            ite_self, Bool.true_and, Bool.and_eq_true]
          exact ⟨hv, ih (fun kv hm => h kv (List.mem_cons_of_mem _ hm))⟩
      | null =>
          rw [show noArrKeyFields kw ((k1, J.null) :: t) =
              ((if k1 = kw then true else true) && noArrKey kw J.null
                && noArrKeyFields kw t) from rfl,
            ite_self, Bool.true_and, Bool.and_eq_true]
          exact ⟨hv, ih (fun kv hm => h kv (List.mem_cons_of_mem _ hm))⟩
      | undef =>
          rw [show noArrKeyFields kw ((k1, J.undef) :: t) =
              ((if k1 = kw then true else true) && noArrKey kw J.undef
                && noArrKeyFields kw t) from rfl,
            ite_self, Bool.true_and, Bool.and_eq_true]
          exact ⟨hv, ih (fun kv hm => h kv (List.mem_cons_of_mem _ hm))⟩
      | bool b =>
          rw [show noArrKeyFields kw ((k1, (J.bool b)) :: t) =
              ((if k1 = kw then true else true) && noArrKey kw (J.bool b)
                && noArrKeyFields kw t) from rfl,
            ite_self, Bool.true_and, Bool.and_eq_true]
          exact ⟨hv, ih (fun kv hm => h kv (List.mem_cons_of_mem _ hm))⟩
      | num n =>
          rw [show noArrKeyFields kw ((k1, (J.num n)) :: t) =
              ((if k1 = kw then true else true) && noArrKey kw (J.num n)
                && noArrKeyFields kw t) from rfl,
            ite_self, Bool.true_and, Bool.and_eq_true]
          exact ⟨hv, ih (fun kv hm => h kv (List.mem_cons_of_mem _ hm))⟩
      | str s =>
          rw [show noArrKeyFields kw ((k1, (J.str s)) :: t) =
              ((if k1 = kw then true else true) && noArrKey kw (J.str s)
                && noArrKeyFields kw t) from rfl,
            ite_self, Bool.true_and, Bool.and_eq_true]
          exact ⟨hv, ih (fun kv hm => h kv (List.mem_cons_of_mem _ hm))⟩

theorem noArrKeyList_of_forall {kw : String} : ∀ {es : List J},
    (∀ x ∈ es, noArrKey kw x = true) → noArrKeyList kw es = true := by
  intro es
  induction es with
  | nil => intro _; rfl
  | cons e t ih =>
      intro h
      rw [noArrKeyList, Bool.and_eq_true]
      exact ⟨h e (List.mem_cons_self _ _),
        ih (fun x hm => h x (List.mem_cons_of_mem _ hm))⟩

theorem noArrKey_of_spread {kw : String} {v : J} (hobj : isObjLike v = true)
    (h : ∀ kv ∈ spreadFields v,
      (kv.1 = kw → isArrJ kv.2 = false) ∧ noArrKey kw kv.2 = true) :
    noArrKey kw v = true := by
  cases v with
  | obj fields =>
      rw [noArrKey]
      exact noArrKeyFields_of_forall h
  | arr es =>
      rw [noArrKey]
      apply noArrKeyList_of_forall
      intro x hm
      obtain ⟨n, hn, hx⟩ := (mem_getD es x).mp hm
      exact (h (encIdx n, x) (mem_spread_arr.mpr ⟨n, hn, by rw [hx]⟩)).2
  | null => simp [isObjLike] at hobj
  | undef => simp [isObjLike] at hobj
  | bool b => simp [isObjLike] at hobj
  | num n => simp [isObjLike] at hobj
  | str s => simp [isObjLike] at hobj

theorem isArrJ_setProp (d : J) (k : String) (v : J) :
    isArrJ (setProp d k v) = isArrJ d := by
  cases d with
  | obj fields => rfl
  | arr es =>
      rw [setProp_arr_def]
      cases decIdx k with
      | none => rfl
      | some n =>
          dsimp only
          by_cases hlt : n < es.length
          · rw [if_pos hlt]
            rfl
          · rw [if_neg hlt]
  | null => rfl
  | undef => rfl
  | bool b => rfl
  | num n => rfl
  | str s => rfl

theorem isArr_getProp_allOf_false {v : J} (hobj : isObjLike v = true)
    (h : ∀ kv ∈ spreadFields v, kv.1 = "allOf" → isArrJ kv.2 = false)
    (hwf : wfJ v = true) :
    isArrJ (getProp v "allOf") = false := by
  cases v with
  | obj fields =>
      rw [getProp_obj]
      cases hlk : lookupField fields "allOf" with
      | none => rfl
      | some w => exact h ("allOf", w) (lookupField_mem hlk) rfl
  | arr es =>
      rw [getProp, if_neg (by decide),
        show decIdx "allOf" = none from by decide]
      rfl
  | null => simp [isObjLike] at hobj
  | undef => simp [isObjLike] at hobj
  | bool b => simp [isObjLike] at hobj
  | num n => simp [isObjLike] at hobj
  | str s => simp [isObjLike] at hobj

theorem allOf_inv : ∀ fuel : Nat,
    (∀ v r, wfJ v = true → processAllOfP fuel v = .ok r →
        noArrKey "allOf" r = true ∧ wfJ r = true ∧ isArrJ r = isArrJ v)
    ∧ (∀ v ks r, wfJ v = true → isObjLike v = true →
        (∀ kv ∈ spreadFields v, kv.1 = "allOf" → isArrJ kv.2 = false) →
        (∀ kv ∈ spreadFields v, kv.1 ∉ ks → noArrKey "allOf" kv.2 = true) →
        allOfFieldsP fuel v ks = .ok r →
        noArrKey "allOf" r = true ∧ wfJ r = true ∧ isArrJ r = isArrJ v) := by
  intro fuel
  induction fuel with
  | zero =>
      refine ⟨?_, ?_⟩
      · intro v r _ h; rw [processAllOfP] at h; cases h
      · intro v ks r _ _ _ _ h; rw [allOfFieldsP] at h; cases h
  | succ f ih =>
      obtain ⟨ihP, ihF⟩ := ih
      refine ⟨?_, ?_⟩
      · intro v r hwf h
        rw [processAllOfP] at h
        by_cases hc : (truthy v && isObjLike v) = true
        · rw [hc, Bool.not_true, if_neg (by simp)] at h
          have hobj : isObjLike v = true := (Bool.and_eq_true _ _ |>.mp hc).2
          have hloop : allOfFieldsP f v (keysOf v) = .ok r →
              isArrJ (getProp v "allOf") = false →
              noArrKey "allOf" r = true ∧ wfJ r = true ∧ isArrJ r = isArrJ v := by
            intro h2 hna
            refine ihF v (keysOf v) r hwf hobj ?_ ?_ h2
            · intro kv hm hk
              cases v with
              | obj fields =>
                  obtain ⟨k1, v1⟩ := kv
                  cases hk
                  have hlk := lookupField_of_mem_nodup (wf_obj_parts hwf).1 hm
                  rw [getProp_obj, hlk] at hna
                  exact hna
              | arr es =>
                  obtain ⟨n, hn, hkv⟩ := mem_spread_arr.mp hm
                  cases hkv
                  exact absurd hk
                    (encIdx_ne_of_decIdx_none (show decIdx "allOf" = none from by decide) n)
              | null => simp [isObjLike] at hobj
              | undef => simp [isObjLike] at hobj
              | bool b => simp [isObjLike] at hobj
              | num n => simp [isObjLike] at hobj
              | str s => simp [isObjLike] at hobj
            · intro kv hm hnk
              exact absurd (spread_key_mem_keysOf hobj kv hm) hnk
          cases hgw : getProp v "allOf" with
          | arr members =>
              rw [hgw] at h
              dsimp only at h
              have hwfarr : wfJ (J.arr members) = true := by
                have h2 := wf_getProp hwf "allOf"
                rw [hgw] at h2
                exact h2
              rw [wfJ] at hwfarr
              obtain ⟨fs0, hmf, hwfm⟩ :=
                allOfMerge_obj (fun x hm => wfList_mem hwfarr hm)
              have hyp1 : ∀ kv ∈ spreadFields (allOfMerge members),
                  kv.1 = "allOf" → isArrJ kv.2 = false := by
                intro kv hm hk
                rw [hmf] at hm
                exact absurd hk (mem_removeField hm).2
              have hyp2 : ∀ kv ∈ spreadFields (allOfMerge members),
                  kv.1 ∉ keysOf (allOfMerge members) →
                  noArrKey "allOf" kv.2 = true := by
                intro kv hm hnk
                exact absurd (spread_key_mem_keysOf
                  (show isObjLike (allOfMerge members) = true from by rw [hmf]; rfl)
                  kv hm) hnk
              obtain ⟨hna, hwfr, hsh⟩ := ihF (allOfMerge members)
                (keysOf (allOfMerge members)) r hwfm
                (show isObjLike (allOfMerge members) = true from by rw [hmf]; rfl)
                hyp1 hyp2 h
              refine ⟨hna, hwfr, ?_⟩
              rw [hsh, hmf]
              cases v with
              | obj fields => rfl
              | arr es =>
                  rw [show getProp (J.arr es) "allOf" = .undef from by
                    rw [getProp, if_neg (by decide),
                      show decIdx "allOf" = none from by decide]] at hgw
                  cases hgw
              | null => simp [isObjLike] at hobj
              | undef => simp [isObjLike] at hobj
              | bool b => simp [isObjLike] at hobj
              | num n => simp [isObjLike] at hobj
              | str s => simp [isObjLike] at hobj
          | obj w2 =>
              rw [hgw] at h
              dsimp only at h
              exact hloop h (by rw [hgw]; rfl)
          | str s =>
              rw [hgw] at h
              dsimp only at h
              exact hloop h (by rw [hgw]; rfl)
          | null =>
              rw [hgw] at h
              dsimp only at h
              exact hloop h (by rw [hgw]; rfl)
          | undef =>
              rw [hgw] at h
              dsimp only at h
              exact hloop h (by rw [hgw]; rfl)
          | bool b =>
              rw [hgw] at h
              dsimp only at h
              exact hloop h (by rw [hgw]; rfl)
          | num n =>
              rw [hgw] at h
              dsimp only at h
              exact hloop h (by rw [hgw]; rfl)
        · have hobj : isObjLike v = false := by
            cases ho : isObjLike v with
            | false => rfl
            | true => exact absurd (by rw [truthy_of_objLike ho, ho]; rfl) hc
          rw [if_pos (by rw [Bool.not_eq_true', Bool.eq_false_iff]; exact hc)] at h
          cases h
          exact ⟨noArrKey_scalar hobj "allOf", hwf, rfl⟩
      · intro v ks r hwf hobj hone hdone h
        cases ks with
        | nil =>
            rw [allOfFieldsP] at h
            cases h
            exact ⟨noArrKey_of_spread hobj
              (fun kv hm => ⟨hone kv hm, hdone kv hm (by simp)⟩), hwf, rfl⟩
        | cons k ks2 =>
            rw [allOfFieldsP] at h
            cases hr1 : processAllOfP f (getProp v k) with
            | terr => rw [hr1] at h; cases h
            | out => rw [hr1] at h; cases h
            | ok r1 =>
                rw [hr1] at h
                dsimp only at h
                obtain ⟨hna1, hwf1, hsh1⟩ := ihP (getProp v k) r1 (wf_getProp hwf k) hr1
                have hyp1 : ∀ kv ∈ spreadFields (setProp v k r1),
                    kv.1 = "allOf" → isArrJ kv.2 = false := by
                  intro kv hm hk
                  rcases mem_spread_setProp hwf hobj kv hm with ⟨hold, _⟩ | heq
                  · exact hone kv hold hk
                  · cases heq
                    rw [hsh1]
                    cases hk
                    exact isArr_getProp_allOf_false hobj hone hwf
                have hyp2 : ∀ kv ∈ spreadFields (setProp v k r1),
                    kv.1 ∉ ks2 → noArrKey "allOf" kv.2 = true := by
                  intro kv hm hnk
                  rcases mem_spread_setProp hwf hobj kv hm with ⟨hold, hne⟩ | heq
                  · refine hdone kv hold ?_
                    intro hmm
                    rcases List.mem_cons.mp hmm with h1 | h1
                    · exact hne h1
                    · exact hnk h1
                  · cases heq
                    exact hna1
                obtain ⟨hna2, hwf2, hsh2⟩ := ihF (setProp v k r1) ks2 r
                  (wf_setProp_total hwf hwf1 k)
                  (by rw [isObjLike_setProp]; exact hobj)
                  hyp1 hyp2 h
                refine ⟨hna2, hwf2, ?_⟩
                rw [hsh2, isArrJ_setProp]

theorem allOf_self_loop (v : J) (r : J) (fuel : Nat)
    (hwf : wfJ v = true) (hobj : isObjLike v = true)
    (hna : isArrJ (getProp v "allOf") = false)
    (h : allOfFieldsP fuel v (keysOf v) = .ok r) :
    noArrKey "allOf" r = true ∧ wfJ r = true ∧ isArrJ r = isArrJ v := by
  refine (allOf_inv fuel).2 v (keysOf v) r hwf hobj ?_ ?_ h
  · intro kv hm hk
    cases v with
    | obj fields =>
        obtain ⟨k1, v1⟩ := kv
        cases hk
        have hlk := lookupField_of_mem_nodup (wf_obj_parts hwf).1 hm
        rw [getProp_obj, hlk] at hna
        exact hna
    | arr es =>
        obtain ⟨n, hn, hkv⟩ := mem_spread_arr.mp hm
        cases hkv
        exact absurd hk
          (encIdx_ne_of_decIdx_none (show decIdx "allOf" = none from by decide) n)
    | null => simp [isObjLike] at hobj
    | undef => simp [isObjLike] at hobj
    | bool b => simp [isObjLike] at hobj
    | num n => simp [isObjLike] at hobj
    | str s => simp [isObjLike] at hobj
  · intro kv hm hnk
    exact absurd (spread_key_mem_keysOf hobj kv hm) hnk

/-- **C4** (corrected).  A root-level `allOf` survives (the helper's
return value is discarded; see the counterexample), and the helper only
fires on *array*-valued `allOf` bindings.  The claim is amended to: for
a well-formed document whose root node does not itself carry an
array-valued `allOf`, the document returned by `flattenAllOf` contains
no array-valued `allOf` binding anywhere. -/
theorem claim_C4_allOf_elimination (D r : J) (fuel : Nat)
    (hwf : wfJ D = true) (hroot : isArrJ (getProp D "allOf") = false)
    (hrun : flattenAllOfS D fuel = .ok r) : noArrKey "allOf" r = true := by
  rw [flattenAllOfS] at hrun
  by_cases hc : (truthy D && isObjLike D) = true
  · rw [hc, Bool.not_true, if_neg (by simp)] at hrun
    have hobj : isObjLike D = true := (Bool.and_eq_true _ _ |>.mp hc).2
    cases hgw : getProp D "allOf" with
    | arr members =>
        rw [hgw] at hroot
        cases hroot
    | obj w2 =>
        rw [hgw] at hrun
        dsimp only at hrun
        exact (allOf_self_loop D r fuel hwf hobj hroot hrun).1
    | str s =>
        rw [hgw] at hrun
        dsimp only at hrun
        exact (allOf_self_loop D r fuel hwf hobj hroot hrun).1
    | null =>
        rw [hgw] at hrun
        dsimp only at hrun
        exact (allOf_self_loop D r fuel hwf hobj hroot hrun).1
    | undef =>
        rw [hgw] at hrun
        dsimp only at hrun
        exact (allOf_self_loop D r fuel hwf hobj hroot hrun).1
    | bool b =>
        rw [hgw] at hrun
        dsimp only at hrun
        exact (allOf_self_loop D r fuel hwf hobj hroot hrun).1
    | num n =>
        rw [hgw] at hrun
        dsimp only at hrun
        exact (allOf_self_loop D r fuel hwf hobj hroot hrun).1
  · have hobj : isObjLike D = false := by
      cases ho : isObjLike D with
      | false => rfl
      | true => exact absurd (by rw [truthy_of_objLike ho, ho]; rfl) hc
    rw [if_pos (by rw [Bool.not_eq_true', Bool.eq_false_iff]; exact hc)] at hrun
    cases hrun
    exact noArrKey_scalar hobj "allOf"

/-- Witness for C4: a document holding `exProps` below its root. -/
theorem claim_C4_allOf_elimination_witness :
    noArrKey "allOf"
      (J.obj [("s", J.obj [("properties",
        J.obj [("a", J.obj [("t", J.num 1)]),
               ("b", J.obj [("t", J.num 2)])])])]) = true :=
  claim_C4_allOf_elimination (J.obj [("s", exProps)])
    (J.obj [("s", J.obj [("properties",
      J.obj [("a", J.obj [("t", J.num 1)]),
             ("b", J.obj [("t", J.num 2)])])])]) 100 rfl rfl rfl

/-- Witness for C8: concrete instances of the four merge-step laws. -/
theorem claim_C8_allOf_merge_semantics_witness :
    (∃ F, allOfStep (J.obj []) (J.obj [("x", J.num 1)]) = .obj F
      ∧ lookupField F "x" = some (J.num 1))
    ∧ (∃ F, allOfStep (J.obj [("y", J.num 2)]) (J.obj []) = .obj F
      ∧ lookupField F "y" = some (J.num 2))
    ∧ (∃ F P, allOfStep (J.obj [("properties", J.obj [("a", J.num 1)])])
        (J.obj [("properties", J.obj [("a", J.num 3)])]) = .obj F
      ∧ lookupField F "properties" = some (.obj P)
      ∧ lookupField P "a" = some (J.num 3))
    ∧ (∃ F P, allOfStep (J.obj [("properties", J.obj [("a", J.num 1)])])
        (J.obj [("properties", J.obj [("b", J.num 2)])]) = .obj F
      ∧ lookupField F "properties" = some (.obj P)
      ∧ lookupField P "a" = some (J.num 1)) :=
  ⟨claim_C8_allOf_merge_semantics.1 (J.obj []) [("x", J.num 1)] "x" (J.num 1)
      (by decide) rfl rfl,
   claim_C8_allOf_merge_semantics.2.1 [("y", J.num 2)] [] "y" (J.num 2)
      (by decide) rfl rfl rfl,
   claim_C8_allOf_merge_semantics.2.2.1 [("properties", J.obj [("a", J.num 1)])]
      [("properties", J.obj [("a", J.num 3)])] [("a", J.num 1)] [("a", J.num 3)]
      "a" (J.num 3) rfl rfl rfl rfl,
   claim_C8_allOf_merge_semantics.2.2.2.1 [("properties", J.obj [("a", J.num 1)])]
      [("properties", J.obj [("b", J.num 2)])] [("a", J.num 1)] [("b", J.num 2)]
      "a" (J.num 1) rfl rfl rfl rfl rfl⟩

end Deref
